import Mathlib

/-!
# Verification of the TMU document-store engine (src/database/TMUDatabase.js)

This file shallowly embeds the collection engine and the schema/model layer of
the repository and settles the frozen claims about it.  JavaScript runtime
values are modelled by the inductive type `JsVal`; JS undefined is modelled
as `Option.none` wherever the source can observe it (missing fields, missing
nested values).  JS numbers are modelled as rationals: every numeric value
appearing in the claims is a small integer, far from any floating-point
boundary.  Documents and JS objects are association lists in property order,
mirroring JS property-insertion order; a well-formed JS object never has two
properties with the same name.  The heap is modelled as a tree: caller-built
documents are assumed not to alias each other internally, matching how the
rest of the repository builds them from parsed JSON bodies.  Regular
expressions are not interpreted: every function that evaluates a `$regex`
condition is parameterised by an oracle `rx` standing for the behaviour of
`new RegExp(pattern, options).test(value)`.
-/

namespace TMU

/-- A JavaScript runtime value as the engine sees it.  `vDate ms` models a JS
`Date` object holding the given millisecond timestamp. -/
inductive JsVal : Type where
  | vNull : JsVal
  | vBool : Bool → JsVal
  | vNum : ℚ → JsVal
  | vStr : String → JsVal
  | vDate : Int → JsVal
  | vArr : List JsVal → JsVal
  | vObj : List (String × JsVal) → JsVal

namespace JsVal

/-- JS truthiness: `false`, `0`, the empty string and `null` are falsy (JS
undefined, also falsy, is handled at `Option` level by callers); every array,
object and `Date` is truthy. -/
def truthy : JsVal → Bool
  | vNull => false
  | vBool b => b
  | vNum q => q != 0
  | vStr s => s ≠ ""
  | vDate _ => true
  | vArr _ => true
  | vObj _ => true

/-- The JS test `typeof v === 'object'`: true for `null`, arrays, plain
objects and `Date` objects. -/
def typeofObject : JsVal → Bool
  | vNull => true
  | vArr _ => true
  | vObj _ => true
  | vDate _ => true
  | _ => false

end JsVal

open JsVal

/-- The JS strict equality `a === b` on possibly-undefined values.
Structural on primitives; arrays, objects and `Date`s compare by reference,
and in the tree-shaped heap model two object values reached from different
places are distinct references, so they never compare equal. -/
def jsStrictEq : Option JsVal → Option JsVal → Bool
  | none, none => true
  | some vNull, some vNull => true
  | some (vBool a), some (vBool b) => a == b
  | some (vNum a), some (vNum b) => a == b
  | some (vStr a), some (vStr b) => a == b
  | _, _ => false

/-- Whether `s` starts with the prefix `pre` (structural form of
`String.startsWith`). -/
def strStartsWith (s pre : String) : Bool :=
  pre.data.isPrefixOf s.data

/-- Digits of a decimal numeral to its value (structural form of
`String.toNat?`). -/
def strToNatAux : List Char → Nat → Option Nat
  | [], acc => some acc
  | c :: rest, acc =>
      if c.isDigit then strToNatAux rest (acc * 10 + (c.toNat - 48)) else none

/-- The decimal value of a string, when it is a nonempty digit run. -/
def strToNat? (s : String) : Option Nat :=
  match s.data with
  | [] => none
  | cs => strToNatAux cs 0

/-- Property lookup on a JS object field list (objects never carry duplicate
property names, so first match is the property). -/
def getField : List (String × JsVal) → String → Option JsVal
  | [], _ => none
  | (k, v) :: rest, key => if k = key then some v else getField rest key

/-- The JS assignment `obj[key] = v` on a field list: an existing property is
updated in place (property order kept), a new property is appended. -/
def setField : List (String × JsVal) → String → JsVal → List (String × JsVal)
  | [], key, v => [(key, v)]
  | (k, w) :: rest, key, v =>
      if k = key then (key, v) :: rest else (k, w) :: setField rest key v

/-- The JS statement `delete obj[key]` on a field list. -/
def removeField : List (String × JsVal) → String → List (String × JsVal)
  | [], _ => []
  | (k, w) :: rest, key =>
      if k = key then rest else (k, w) :: removeField rest key

/-- Reading the property `key` of an arbitrary JS value, as in
`current[key]`.  Arrays expose their elements under decimal indices (the
`length` property of arrays and the character/length properties of strings
are outside the model: no code path under verification reads them). -/
def propGet (v : JsVal) (key : String) : Option JsVal :=
  match v with
  | vObj fs => getField fs key
  | vArr xs =>
      match strToNat? key with
      | some i => xs[i]?
      | none => none
  | _ => none

/-- Character-level splitting on dots, accumulating the current segment. -/
def splitPathAux : List Char → List Char → List String
  | [], acc => [String.mk acc.reverse]
  | c :: rest, acc =>
      if c = '.' then String.mk acc.reverse :: splitPathAux rest []
      else splitPathAux rest (c :: acc)

/-- `path.split('.')` of the source: dot-separated path segments. -/
def splitPath (path : String) : List String :=
  splitPathAux path.data []

/-- `TMUDatabase._getNestedValue(obj, path)`: walk the dot path, stepping only
through truthy values, yielding undefined as soon as a step is falsy or the
property is absent. -/
def getNestedSegs : Option JsVal → List String → Option JsVal
  | cur, [] => cur
  | cur, key :: rest =>
      match cur with
      | some c => if c.truthy then getNestedSegs (propGet c key) rest else getNestedSegs none rest
      | none => getNestedSegs none rest

/-- `_getNestedValue` on a whole path string. -/
def getNested (v : JsVal) (path : String) : Option JsVal :=
  getNestedSegs (some v) (splitPath path)

/-- `Object.entries(v)`: property list of an object, indexed entries of an
array, empty for primitives and `Date`s, and an exception (`none`) for
`null`. -/
def jsEntries (v : JsVal) : Option (List (String × JsVal)) :=
  match v with
  | vObj fs => some fs
  | vArr xs => some ((List.range xs.length).zip xs |>.map fun p => (toString p.1, p.2))
  | vNull => none
  | _ => some []

/-- Numeric coercion used by the JS relational operators: `null` is `0`,
booleans are `0`/`1`, a `Date` is its millisecond timestamp. -/
def toNumQ : JsVal → Option ℚ
  | vNull => some 0
  | vBool b => some (if b then 1 else 0)
  | vNum q => some q
  | vDate ms => some (ms : ℚ)
  | _ => none

/-- Three-way comparison behind the JS `<`, `<=`, `>`, `>=` operators, where
the model commits to an answer: two numeric-coercible values compare as
numbers, two strings compare lexicographically.  String-number coercion and
object-to-primitive coercion are outside the model (`none`, which the
relational operators below read as an incomparable, NaN-like pair); no value
compared by the claims hits these cases. -/
def jsCompare : JsVal → JsVal → Option Ordering
  | vStr a, vStr b => some (compare a b)
  | a, b =>
      match toNumQ a, toNumQ b with
      | some qa, some qb => some (compare qa qb)
      | _, _ => none

/-- The JS comparison `value < opValue` with a possibly-undefined left side
(undefined compares false against everything). -/
def jsLt (a : Option JsVal) (b : JsVal) : Bool :=
  match a with
  | some av => (jsCompare av b) == some Ordering.lt
  | none => false

/-- The JS comparison `value > opValue`. -/
def jsGt (a : Option JsVal) (b : JsVal) : Bool :=
  match a with
  | some av => (jsCompare av b) == some Ordering.gt
  | none => false

/-- The JS comparison `value <= opValue`. -/
def jsLe (a : Option JsVal) (b : JsVal) : Bool :=
  match a with
  | some av =>
      match jsCompare av b with
      | some Ordering.lt => true
      | some Ordering.eq => true
      | _ => false
  | none => false

/-- The JS comparison `value >= opValue`. -/
def jsGe (a : Option JsVal) (b : JsVal) : Bool :=
  match a with
  | some av =>
      match jsCompare av b with
      | some Ordering.gt => true
      | some Ordering.eq => true
      | _ => false
  | none => false

/-- Rational addition in a form the proof kernel evaluates. -/
def ratAdd (a b : ℚ) : ℚ :=
  mkRat (a.num * b.den + b.num * a.den) (a.den * b.den)

/-- Rational multiplication in a form the proof kernel evaluates. -/
def ratMul (a b : ℚ) : ℚ :=
  mkRat (a.num * b.num) (a.den * b.den)

/-- Rational division in a form the proof kernel evaluates (division by zero
yields zero here; the JS Infinity outcome is outside the model and unreached:
the one division in the engine is guarded by a length test). -/
def ratDiv (a b : ℚ) : ℚ :=
  let n := a.num * b.den
  let d := (a.den : Int) * b.num
  if d < 0 then mkRat (-n) (-d).toNat else mkRat n d.toNat

/-- The decimal digit character of `n < 10`. -/
def digitChar10 (n : Nat) : Char :=
  Char.ofNat (48 + n)

/-- Decimal digits of a natural number, most significant first (the fuel is
ample: a number is far shorter than itself in digits). -/
def natDecimalAux : Nat → Nat → List Char
  | 0, _ => []
  | fuel + 1, n =>
      if n < 10 then [digitChar10 n]
      else natDecimalAux fuel (n / 10) ++ [digitChar10 (n % 10)]

/-- Decimal rendering of a natural number. -/
def natToDecimal (n : Nat) : String :=
  String.mk (natDecimalAux (n + 1) n)

/-- Decimal rendering of an integer, as JS renders integral doubles. -/
def intToDecimal (i : Int) : String :=
  if i < 0 then "-" ++ natToDecimal i.natAbs else natToDecimal i.natAbs

/-- Rendering of a JS number.  All numbers handled by the claims are
integers, rendered exactly as JS renders them; the rendering of a
non-integral double is outside the model and is approximated by a fraction
spelling. -/
def numToString (q : ℚ) : String :=
  if q.den = 1 then intToDecimal q.num
  else intToDecimal q.num ++ "/" ++ natToDecimal q.den

/-- The JS binary `+` as used by `$inc` (`current + value`): number addition,
or string concatenation when a string is involved.  Object and array
operands (which JS would coerce through `toString`) are outside the model:
no claim adds such values. -/
def jsAdd : JsVal → JsVal → Except String JsVal
  | vNum a, vNum b => Except.ok (vNum (ratAdd a b))
  | vStr a, vStr b => Except.ok (vStr (a ++ b))
  | vNum a, vStr b => Except.ok (vStr (numToString a ++ b))
  | vStr a, vNum b => Except.ok (vStr (a ++ numToString b))
  | vBool a, vNum b => Except.ok (vNum (ratAdd (if a then 1 else 0) b))
  | vNum a, vBool b => Except.ok (vNum (ratAdd a (if b then 1 else 0)))
  | vNull, vNum b => Except.ok (vNum b)
  | vNum a, vNull => Except.ok (vNum a)
  | _, _ => Except.error "unmodelled + coercion"

/-! ## JSON text (JSON.stringify / JSON.parse)

The engine persists collections with `JSON.stringify(docs, null, 2)` and
reloads them with `JSON.parse`; `_matchDocument` also compares array literals
through `JSON.stringify(value) !== JSON.stringify(condition)`.  Both forms
are modelled below.  `JSON.stringify` serialises a `Date` through its
`toJSON`/`toISOString` as a plain string; the exact ISO-8601 text is
abstracted as the decimal millisecond count — the development only ever uses
that a `Date` serialises to *some* string. -/

/-- Abstraction of `Date.prototype.toISOString`. -/
def isoOfMs (ms : Int) : String :=
  intToDecimal ms

/-- A hex digit character. -/
def hexDigit (n : Nat) : String :=
  if n < 10 then toString n
  else if n = 10 then "a" else if n = 11 then "b" else if n = 12 then "c"
  else if n = 13 then "d" else if n = 14 then "e" else "f"

/-- JSON string escaping as performed by `JSON.stringify`. -/
def escapeChar (c : Char) : String :=
  if c = '"' then "\\\""
  else if c = '\\' then "\\\\"
  else if c = '\n' then "\\n"
  else if c = '\t' then "\\t"
  else if c = '\r' then "\\r"
  else if c = '\x08' then "\\b"
  else if c = '\x0c' then "\\f"
  else if c.toNat < 32 then "\\u00" ++ hexDigit (c.toNat / 16) ++ hexDigit (c.toNat % 16)
  else String.singleton c

/-- The escaped character sequence of a string body. -/
def escapeList : List Char → List Char
  | [] => []
  | c :: rest => (escapeChar c).data ++ escapeList rest

/-- A JSON string literal: quotes around the escaped body. -/
def quoteJson (s : String) : String :=
  String.mk ('"' :: (escapeList s.data ++ ['"']))

/-- Rendering of a scalar JSON value (identical in the compact and the
indented form). -/
def printScalar : JsVal → String
  | vNull => "null"
  | vBool b => if b then "true" else "false"
  | vNum q => numToString q
  | vStr s => quoteJson s
  | vDate ms => quoteJson (isoOfMs ms)
  | vArr _ => ""
  | vObj _ => ""

mutual

/-- `JSON.stringify(v)` (no indentation argument), as used by
`_matchDocument` for array-literal comparison. -/
def printCompact : JsVal → String
  | vArr xs => "[" ++ printCompactItems xs ++ "]"
  | vObj fs => "\x7b" ++ printCompactFields fs ++ "\x7d"
  | v => printScalar v

/-- Comma-separated compact items of an array. -/
def printCompactItems : List JsVal → String
  | [] => ""
  | [x] => printCompact x
  | x :: rest => printCompact x ++ "," ++ printCompactItems rest

/-- Comma-separated compact `"key":value` members of an object. -/
def printCompactFields : List (String × JsVal) → String
  | [] => ""
  | [(k, v)] => quoteJson k ++ ":" ++ printCompact v
  | (k, v) :: rest => quoteJson k ++ ":" ++ printCompact v ++ "," ++ printCompactFields rest

end

/-- A run of spaces. -/
def spaces (n : Nat) : String :=
  String.mk (List.replicate n ' ')

mutual

/-- `JSON.stringify(v, null, 2)` where `d` is the nesting depth of the value
(each level indents its members by two more spaces). -/
def printIndent (d : Nat) : JsVal → String
  | vArr [] => "[]"
  | vObj [] => "\x7b\x7d"
  | vArr (x :: xs) => "[\n" ++ printIndentItems (d + 1) (x :: xs) ++ "\n" ++ spaces (2 * d) ++ "]"
  | vObj (f :: fs) => "\x7b\n" ++ printIndentFields (d + 1) (f :: fs) ++ "\n" ++ spaces (2 * d) ++ "\x7d"
  | v => printScalar v

/-- Indented array items, one per line, comma-separated. -/
def printIndentItems (d : Nat) : List JsVal → String
  | [] => ""
  | [x] => spaces (2 * d) ++ printIndent d x
  | x :: rest => spaces (2 * d) ++ printIndent d x ++ ",\n" ++ printIndentItems d rest

/-- Indented object members, one per line, comma-separated. -/
def printIndentFields (d : Nat) : List (String × JsVal) → String
  | [] => ""
  | [(k, v)] => spaces (2 * d) ++ quoteJson k ++ ": " ++ printIndent d v
  | (k, v) :: rest =>
      spaces (2 * d) ++ quoteJson k ++ ": " ++ printIndent d v ++ ",\n" ++ printIndentFields d rest

end

/-- JSON insignificant whitespace. -/
def isJsonWs (c : Char) : Bool :=
  c = ' ' || c = '\n' || c = '\t' || c = '\r'

/-- Skip insignificant whitespace. -/
def skipWs : List Char → List Char
  | [] => []
  | c :: rest => if isJsonWs c then skipWs rest else c :: rest

/-- Numeric value of a hex digit character (only called on hex digits). -/
def hexVal (c : Char) : Nat :=
  if c.isDigit then c.toNat - 48
  else if c.toNat ≥ 97 then c.toNat - 87
  else c.toNat - 55

/-- Whether a character is a hex digit. -/
def isHexDigitChar (c : Char) : Bool :=
  c.isDigit || ('a' ≤ c && c ≤ 'f') || ('A' ≤ c && c ≤ 'F')

/-- Decoding of a single-character JSON escape. -/
def unescapeChar : Char → Option Char
  | 'n' => some '\n'
  | 't' => some '\t'
  | 'r' => some '\r'
  | 'b' => some '\x08'
  | 'f' => some '\x0c'
  | '"' => some '"'
  | '\\' => some '\\'
  | '/' => some '/'
  | _ => none

/-- Body of a JSON string literal after the opening quote, handling the
escape sequences `JSON.parse` accepts; returns the decoded string and the
input after the closing quote. -/
def parseStringBody : List Char → Option (String × List Char)
  | [] => none
  | '"' :: rest => some ("", rest)
  | '\\' :: 'u' :: h1 :: h2 :: h3 :: h4 :: rest =>
      if isHexDigitChar h1 && isHexDigitChar h2 && isHexDigitChar h3 && isHexDigitChar h4 then
        (parseStringBody rest).map fun p =>
          (String.singleton (Char.ofNat (((hexVal h1 * 16 + hexVal h2) * 16 + hexVal h3) * 16 + hexVal h4)) ++ p.1, p.2)
      else none
  | '\\' :: e :: rest =>
      match unescapeChar e with
      | some c => (parseStringBody rest).map fun p => (String.singleton c ++ p.1, p.2)
      | none => none
  | c :: rest =>
      if c.toNat < 32 then none
      else (parseStringBody rest).map fun p => (String.singleton c ++ p.1, p.2)

/-- Split a leading run of decimal digits from the input. -/
def takeDigits : List Char → (List Char × List Char)
  | [] => ([], [])
  | c :: rest =>
      if c.isDigit then
        let p := takeDigits rest
        (c :: p.1, p.2)
      else ([], c :: rest)

/-- Numeric value of a list of decimal digits. -/
def digitsToNat (ds : List Char) : Nat :=
  ds.foldl (fun acc c => acc * 10 + (c.toNat - 48)) 0

/-- A JSON number: optional minus sign, digits, optional fraction (the
exponent form, which the engine never writes, is outside the model). -/
def parseNumber (cs : List Char) : Option (JsVal × List Char) :=
  let signed : Bool × List Char := match cs with
    | '-' :: r => (true, r)
    | _ => (false, cs)
  match takeDigits signed.2 with
  | ([], _) => none
  | (ds, rest) =>
      let ip : ℚ := (digitsToNat ds : ℚ)
      match rest with
      | '.' :: r2 =>
          match takeDigits r2 with
          | ([], _) => none
          | (fs, r3) =>
              let q : ℚ := ratAdd ip (mkRat (digitsToNat fs) (10 ^ fs.length))
              some (vNum (if signed.1 then -q else q), r3)
      | _ => some (vNum (if signed.1 then -ip else ip), rest)

mutual

/-- `JSON.parse` value grammar (fuelled; the wrapper supplies ample fuel). -/
def parseVal : Nat → List Char → Option (JsVal × List Char)
  | 0, _ => none
  | fuel + 1, cs =>
      match skipWs cs with
      | 'n' :: 'u' :: 'l' :: 'l' :: rest => some (vNull, rest)
      | 't' :: 'r' :: 'u' :: 'e' :: rest => some (vBool true, rest)
      | 'f' :: 'a' :: 'l' :: 's' :: 'e' :: rest => some (vBool false, rest)
      | '"' :: rest => (parseStringBody rest).map fun p => (vStr p.1, p.2)
      | '[' :: rest =>
          (match skipWs rest with
           | ']' :: r2 => some (vArr [], r2)
           | r2 => (parseItems fuel r2).map fun p => (vArr p.1, p.2))
      | '\x7b' :: rest =>
          (match skipWs rest with
           | '\x7d' :: r2 => some (vObj [], r2)
           | r2 => (parseMembers fuel r2).map fun p => (vObj p.1, p.2))
      | cs2 => parseNumber cs2

/-- One-or-more array items up to the closing bracket. -/
def parseItems : Nat → List Char → Option (List JsVal × List Char)
  | 0, _ => none
  | fuel + 1, cs =>
      (parseVal fuel cs).bind fun p =>
        match skipWs p.2 with
        | ',' :: r2 => (parseItems fuel r2).map fun q => (p.1 :: q.1, q.2)
        | ']' :: r2 => some ([p.1], r2)
        | _ => none

/-- One-or-more object members up to the closing brace. -/
def parseMembers : Nat → List Char → Option (List (String × JsVal) × List Char)
  | 0, _ => none
  | fuel + 1, cs =>
      match skipWs cs with
      | '"' :: r =>
          (parseStringBody r).bind fun kp =>
            match skipWs kp.2 with
            | ':' :: r2 =>
                (parseVal fuel r2).bind fun p =>
                  match skipWs p.2 with
                  | ',' :: r4 => (parseMembers fuel r4).map fun q => ((kp.1, p.1) :: q.1, q.2)
                  | '\x7d' :: r4 => some ([(kp.1, p.1)], r4)
                  | _ => none
            | _ => none
      | _ => none

end

/-- `JSON.parse(s)`: parse one value and require only whitespace after it. -/
def jsonParse (s : String) : Option JsVal :=
  match parseVal (2 * s.length + 2) s.data with
  | some (v, rest) => if skipWs rest = [] then some v else none
  | none => none

/-! ## The query evaluator (`Collection._matchDocument`, `_matchQuery`)

`_matchDocument` recurses through `$or`/`$and` subqueries and `$elemMatch`
elements; the Lean model runs it on a fuel counter, and the wrapper
`matchDocument` supplies fuel ample for the query (recursion only ever
descends into strict subvalues of the query, so `matchFuel` below always
suffices).  Branches where the source would throw a `TypeError` (iterating a
non-array `$or`/`$and`/`$in`/`$nin` argument, `Object.entries(null)`) are
modelled as a non-match and excluded by the well-formedness predicate
`queryWF` that every universally quantified theorem assumes. -/

/-- The type of the `$regex` oracle: pattern, `$options` property, value. -/
abbrev Rx := JsVal → Option JsVal → Option JsVal → Bool

mutual

/-- Structural size of a JS value, bounding matcher recursion. -/
def qsize : JsVal → Nat
  | vArr xs => qsizeL xs + 1
  | vObj fs => qsizeO fs + 1
  | _ => 1

/-- Structural size of a list of values. -/
def qsizeL : List JsVal → Nat
  | [] => 0
  | x :: xs => qsize x + qsizeL xs + 1

/-- Structural size of a field list. -/
def qsizeO : List (String × JsVal) → Nat
  | [] => 0
  | f :: fs => qsize f.2 + qsizeO fs + 1

end

mutual

/-- `Collection._matchDocument(doc, query)` (fuelled). -/
def matchDocF (rx : Rx) : Nat → JsVal → JsVal → Bool
  | 0, _, _ => false
  | fuel + 1, doc, q =>
      match jsEntries q with
      | none => false
      | some es => matchEntriesF rx fuel doc es

/-- The conjunction over the entries of the query object. -/
def matchEntriesF (rx : Rx) : Nat → JsVal → List (String × JsVal) → Bool
  | 0, _, _ => false
  | fuel + 1, doc, es => es.all fun fc => matchEntryF rx fuel doc fc.1 fc.2

/-- One `field: condition` entry of a query: the `$or`/`$and` combinators,
an operator sub-map, an array literal (compared by `JSON.stringify`), a
`Date` literal (`typeof` object with no own entries, hence vacuously
matching), or strict equality against a primitive literal. -/
def matchEntryF (rx : Rx) : Nat → JsVal → String → JsVal → Bool
  | 0, _, _, _ => false
  | fuel + 1, doc, f, c =>
      if f = "$or" then
        match c with
        | vArr subs => subs.any fun sub => matchDocF rx fuel doc sub
        | _ => false
      else if f = "$and" then
        match c with
        | vArr subs => subs.all fun sub => matchDocF rx fuel doc sub
        | _ => false
      else
        let value := getNested doc f
        match c with
        | vObj ops => ops.all fun op => matchOpF rx fuel value c op.1 op.2
        | vArr _ =>
            (match value with
             | some (vArr xs) => printCompact (vArr xs) == printCompact c
             | _ => false)
        | vDate _ => true
        | _ => jsStrictEq value (some c)

/-- One comparison operator applied to the value at the queried field.  An
operator name outside the supported set silently passes (the source switch
has no default case). -/
def matchOpF (rx : Rx) : Nat → Option JsVal → JsVal → String → JsVal → Bool
  | 0, _, _, _, _ => false
  | fuel + 1, value, cond, op, opv =>
      if op = "$eq" then jsStrictEq value (some opv)
      else if op = "$ne" then !jsStrictEq value (some opv)
      else if op = "$gt" then jsGt value opv
      else if op = "$gte" then jsGe value opv
      else if op = "$lt" then jsLt value opv
      else if op = "$lte" then jsLe value opv
      else if op = "$in" then
        match opv with
        | vArr elems => elems.any fun e => jsStrictEq (some e) value
        | _ => false
      else if op = "$nin" then
        match opv with
        | vArr elems => !(elems.any fun e => jsStrictEq (some e) value)
        | _ => false
      else if op = "$exists" then jsStrictEq (some (vBool value.isSome)) (some opv)
      else if op = "$regex" then rx opv (propGet cond "$options") value
      else if op = "$elemMatch" then
        match value with
        | some (vArr els) => els.any fun el => matchDocF rx fuel el opv
        | _ => false
      else true

end

/-- Fuel ample for evaluating `q` as a query: each fuel unit is consumed
together with a move to a strict subvalue of `q` or to one of at most three
intermediate hops. -/
def matchFuel (q : JsVal) : Nat :=
  4 * qsize q + 4

/-- `Collection._matchDocument(doc, query)`. -/
def matchDocument (rx : Rx) (doc q : JsVal) : Bool :=
  matchDocF rx (matchFuel q) doc q

mutual

/-- Well-formedness of a value in query position: evaluating it as a query
never reaches a branch where the source throws. -/
def queryWFVal : JsVal → Bool
  | vObj fs => queryWFEntries fs
  | vArr xs => queryWFArrEntries xs
  | vNull => false
  | _ => true

/-- Well-formedness of the entries of a query object. -/
def queryWFEntries : List (String × JsVal) → Bool
  | [] => true
  | (f, c) :: rest =>
      (if f = "$or" || f = "$and" then
        match c with
        | vArr subs => queryWFSubs subs
        | _ => false
      else queryWFCond c) && queryWFEntries rest

/-- Well-formedness of every subquery of an `$or`/`$and` list. -/
def queryWFSubs : List JsVal → Bool
  | [] => true
  | s :: rest => queryWFVal s && queryWFSubs rest

/-- Well-formedness of one field condition. -/
def queryWFCond : JsVal → Bool
  | vObj ops => queryWFOps ops
  | _ => true

/-- Well-formedness of an operator sub-map. -/
def queryWFOps : List (String × JsVal) → Bool
  | [] => true
  | (op, opv) :: rest =>
      (if op = "$in" || op = "$nin" then
        match opv with
        | vArr _ => true
        | _ => false
      else if op = "$elemMatch" then queryWFVal opv
      else true) && queryWFOps rest

/-- Entries of an array in query position are index-keyed conditions. -/
def queryWFArrEntries : List JsVal → Bool
  | [] => true
  | x :: rest => queryWFCond x && queryWFArrEntries rest

end

/-! ## Collection state: documents plus secondary indexes -/

/-- One secondary index (`this.indexes[collection][field]`): the uniqueness
flag and the value-to-id-list map.  Map keys follow SameValueZero with
reference identity on objects, so in the tree-shaped heap model each object
key occupies its own entry; ids are pushed as `doc._id`, possibly
undefined. -/
structure IndexInfo where
  unique : Bool
  data : List (JsVal × List (Option JsVal))

/-- In-memory state of one collection: the document array and its indexes. -/
structure CollState where
  data : List JsVal
  indexes : List (String × IndexInfo)

/-- `Map.get(v)` on an index bucket map (SameValueZero key lookup). -/
def bucketGet (m : List (JsVal × List (Option JsVal))) (v : JsVal) : Option (List (Option JsVal)) :=
  match m with
  | [] => none
  | (k, ids) :: rest => if jsStrictEq (some k) (some v) then some ids else bucketGet rest v

/-- The `if (!map.has(v)) map.set(v, []); map.get(v).push(id)` idiom: append
`id` to the bucket of `v`, creating the bucket if absent.  An object key is a
fresh reference, hence always a fresh bucket. -/
def bucketAdd (m : List (JsVal × List (Option JsVal))) (v : JsVal) (id : Option JsVal) :
    List (JsVal × List (Option JsVal)) :=
  match m with
  | [] => [(v, [id])]
  | (k, ids) :: rest =>
      if jsStrictEq (some k) (some v) then (k, ids ++ [id]) :: rest
      else (k, ids) :: bucketAdd rest v id

/-- `TMUDatabase._rebuildIndexes` for one field: scan the documents in order
and push each defined value of the field. -/
def rebuildFieldIndex (data : List JsVal) (field : String) : List (JsVal × List (Option JsVal)) :=
  data.foldl
    (fun m doc =>
      match getNested doc field with
      | some value => bucketAdd m value (propGet doc "_id")
      | none => m)
    []

/-- `TMUDatabase._rebuildIndexes(name)` with no specific field: rebuild every
registered index of the collection from the current data. -/
def rebuildIndexes (st : CollState) : CollState :=
  { st with indexes := st.indexes.map fun fi => (fi.1, ⟨fi.2.unique, rebuildFieldIndex st.data fi.1⟩) }

/-- Assoc lookup of a registered index. -/
def lookupIndex (indexes : List (String × IndexInfo)) (f : String) : Option IndexInfo :=
  match indexes with
  | [] => none
  | (k, info) :: rest => if k = f then some info else lookupIndex rest f

/-- The guard `typeof value !== 'object'` selecting index-eligible equality
conditions in `_matchQuery`. -/
def isIndexablePrim (v : JsVal) : Bool :=
  !v.typeofObject

/-- The first query entry eligible for index narrowing: a non-object literal
on a field that has a registered index. -/
def findIndexableEntry (indexes : List (String × IndexInfo)) :
    List (String × JsVal) → Option (String × JsVal × IndexInfo)
  | [] => none
  | (f, v) :: rest =>
      if isIndexablePrim v then
        match lookupIndex indexes f with
        | some info => some (f, v, info)
        | none => findIndexableEntry indexes rest
      else findIndexableEntry indexes rest

/-- `Collection._matchQuery(query)`: empty query returns all documents; a
single indexable equality condition narrows candidates through the index and
re-applies the full filter; otherwise a full scan. -/
def matchQuery (rx : Rx) (st : CollState) (q : List (String × JsVal)) : List JsVal :=
  if q.isEmpty then st.data
  else
    match findIndexableEntry st.indexes q with
    | some (_, v, info) =>
        let ids := (bucketGet info.data v).getD []
        let indexed := st.data.filter fun doc => ids.any fun idv => jsStrictEq idv (propGet doc "_id")
        indexed.filter fun doc => matchDocument rx doc (vObj q)
    | none => st.data.filter fun doc => matchDocument rx doc (vObj q)

/-! ## Result shaping: sort, skip, limit, projection (`Collection.find`) -/

/-- The JS `<` between two possibly-undefined field values (either side
undefined compares false). -/
def jsLtOO : Option JsVal → Option JsVal → Bool
  | some a, some b => jsCompare a b == some Ordering.lt
  | _, _ => false

/-- The JS `>` between two possibly-undefined field values. -/
def jsGtOO : Option JsVal → Option JsVal → Bool
  | some a, some b => jsCompare a b == some Ordering.gt
  | _, _ => false

/-- The comparator of `_applySort`: walk the sort keys left to right,
returning `-order`/`order` on the first strict difference, `0` on a full
tie. -/
def cmpDocs (sortSpec : List (String × ℚ)) (a b : JsVal) : ℚ :=
  match sortSpec with
  | [] => 0
  | (field, order) :: rest =>
      let aVal := getNested a field
      let bVal := getNested b field
      if jsLtOO aVal bVal then ratMul (-1) order
      else if jsGtOO aVal bVal then ratMul 1 order
      else cmpDocs rest a b

/-- Insert into a sorted list directly before the first element that does not
compare strictly after the inserted one. -/
def stableInsert (cmp : JsVal → JsVal → ℚ) (x : JsVal) : List JsVal → List JsVal
  | [] => [x]
  | y :: ys => if cmp x y ≤ 0 then x :: y :: ys else y :: stableInsert cmp x ys

/-- A stable comparator sort, modelling `Array.prototype.sort` (stable per
ECMA-262; for a consistent comparator the stable sorted permutation is
unique, and the claims use the comparator only through ties). -/
def stableSortBy (cmp : JsVal → JsVal → ℚ) : List JsVal → List JsVal
  | [] => []
  | x :: rest => stableInsert cmp x (stableSortBy cmp rest)

/-- `Collection._applySort(docs, sort)`. -/
def applySort (sortSpec : List (String × ℚ)) (docs : List JsVal) : List JsVal :=
  stableSortBy (cmpDocs sortSpec) docs

/-- `Collection._applyProjection(doc, projection)`.  Assigning an undefined
value (projecting a missing field, or a missing `_id`) is modelled as
leaving the property absent. -/
def applyProjection (doc : JsVal) (proj : List (String × JsVal)) : JsVal :=
  let inclMode := proj.any fun p => jsStrictEq (some p.2) (some (vNum 1))
  if inclMode then
    let start : List (String × JsVal) :=
      match propGet doc "_id" with
      | some idv => [("_id", idv)]
      | none => []
    vObj (proj.foldl
      (fun fs p =>
        if jsStrictEq (some p.2) (some (vNum 1)) then
          match getNested doc p.1 with
          | some v => setField fs p.1 v
          | none => fs
        else if p.1 = "_id" && jsStrictEq (some p.2) (some (vNum 0)) then removeField fs "_id"
        else fs)
      start)
  else
    match doc with
    | vObj fs => vObj (proj.foldl (fun fs p => if jsStrictEq (some p.2) (some (vNum 0)) then removeField fs p.1 else fs) fs)
    | _ => vObj []

/-- The options object of `Collection.find`.  A `skip`/`limit` of `0` is
falsy in the source and therefore means no skip / no limit. -/
structure FindOptions where
  sort : Option (List (String × ℚ)) := none
  skip : Nat := 0
  limit : Nat := 0
  projection : Option (List (String × JsVal)) := none

/-- `Collection.find(query, options)`. -/
def findDocs (rx : Rx) (st : CollState) (q : List (String × JsVal)) (opts : FindOptions) :
    List JsVal :=
  let r1 := matchQuery rx st q
  let r2 := match opts.sort with
    | some s => applySort s r1
    | none => r1
  let r3 := if opts.skip ≠ 0 then r2.drop opts.skip else r2
  let r4 := if opts.limit ≠ 0 then r3.take opts.limit else r3
  match opts.projection with
  | some p => r4.map fun d => applyProjection d p
  | none => r4

/-- `Collection.findOne(query)`: `find` with limit 1, `null` when empty. -/
def findOneDoc (rx : Rx) (st : CollState) (q : List (String × JsVal)) : Option JsVal :=
  (findDocs rx st q { limit := 1 }).head?

/-- `Collection.findById(id)`: through the `_id` index when present. -/
def findByIdDoc (st : CollState) (id : JsVal) : Option JsVal :=
  match lookupIndex st.indexes "_id" with
  | some info =>
      match bucketGet info.data id with
      | some (_ :: _) => st.data.find? fun d => jsStrictEq (propGet d "_id") (some id)
      | _ => none
  | none => st.data.find? fun d => jsStrictEq (propGet d "_id") (some id)

/-! ## Update application (`Collection._applyUpdate` and helpers)

`_applyUpdate` starts from the shallow copy `{ ...doc }`, so the copy and the
stored document share every nested object and array.  Applying an operator
can therefore mutate the stored document in place (a `$push` into an existing
array, a dotted-path write into an existing object) even though only the copy
is reassigned into the collection — and when a later operator throws, those
mutations stay behind.  The model tracks this with `EffState`: the stored
object as the mutations leave it (`orig`), the copy (`res`), and the set of
top-level fields where both still reference the same object (`shared`).

Within one `_setNestedValue` walk, a mutation happens only when the walk is
already guaranteed to finish without throwing (a throw requires walking
through truthy primitives, which the sloppy-mode no-op assignments never
mutate), so each path write is faithfully all-or-nothing. -/

/-- `Collection._setNestedValue(obj, keys, value)` acting on one subtree in
sloppy mode: assignment on a truthy primitive is silently ignored, walking a
path through a truthy primitive throws.  Array-index assignment is modelled
in bounds only, and expando properties on `Date` objects are outside the
model (no code under verification creates either). -/
def setNestedVal (v : JsVal) (keys : List String) (x : JsVal) : Except String JsVal :=
  match keys with
  | [] => Except.ok v
  | [last] =>
      match v with
      | vObj fs => Except.ok (vObj (setField fs last x))
      | vArr xs =>
          (match strToNat? last with
           | some i =>
               if i < xs.length then Except.ok (vArr (xs.set i x))
               else Except.error "unmodelled array extension"
           | none => Except.error "unmodelled array property assignment")
      | vDate _ => Except.error "unmodelled Date expando property"
      | _ => Except.ok v
  | k :: rest =>
      match v with
      | vObj fs =>
          (match getField fs k with
           | some u =>
               if u.truthy then do
                 let w ← setNestedVal u rest x
                 Except.ok (vObj (setField fs k w))
               else do
                 let fresh ← setNestedVal (vObj []) rest x
                 Except.ok (vObj (setField fs k fresh))
           | none => do
               let fresh ← setNestedVal (vObj []) rest x
               Except.ok (vObj (setField fs k fresh)))
      | vArr xs =>
          (match strToNat? k with
           | some i =>
               (match xs[i]? with
                | some u =>
                    if u.truthy then do
                      let w ← setNestedVal u rest x
                      Except.ok (vArr (xs.set i w))
                    else do
                      let fresh ← setNestedVal (vObj []) rest x
                      Except.ok (vArr (xs.set i fresh))
                | none => Except.error "unmodelled array extension")
           | none => Except.error "unmodelled array property assignment")
      | vDate _ => Except.error "unmodelled Date expando property"
      | _ => Except.error "TypeError: cannot create a nested path through a primitive"

/-- `Collection._deleteNestedValue(obj, keys)` on one subtree: return as soon
as a step is falsy or absent; the final `delete` on a primitive is a silent
no-op.  A `delete` of an array index (which leaves a hole) is outside the
model. -/
def delNestedVal (v : JsVal) (keys : List String) : Except String JsVal :=
  match keys with
  | [] => Except.ok v
  | [last] =>
      match v with
      | vObj fs => Except.ok (vObj (removeField fs last))
      | vArr _ => Except.error "unmodelled array hole"
      | _ => Except.ok v
  | k :: rest =>
      match v with
      | vObj fs =>
          (match getField fs k with
           | some u =>
               if u.truthy then do
                 let w ← delNestedVal u rest
                 Except.ok (vObj (setField fs k w))
               else Except.ok v
           | none => Except.ok v)
      | vArr xs =>
          (match strToNat? k with
           | some i =>
               (match xs[i]? with
                | some u =>
                    if u.truthy then do
                      let w ← delNestedVal u rest
                      Except.ok (vArr (xs.set i w))
                    else Except.ok v
                | none => Except.ok v)
           | none => Except.ok v)
      | _ => Except.ok v

/-- State of one `_applyUpdate` call: the stored document as mutations
through shared references leave it, the shallow copy being built, and the
top-level fields where both still reference the same object. -/
structure EffState where
  orig : List (String × JsVal)
  res : List (String × JsVal)
  shared : List String

/-- Whether a value is a mutable object (shared by the shallow copy in a way
the update operators can exploit). -/
def isMutableObj : JsVal → Bool
  | vArr _ => true
  | vObj _ => true
  | _ => false

/-- `const result = { ...doc }`: the copy starts equal to the document and
shares every object-valued field with it. -/
def effInit (doc : List (String × JsVal)) : EffState :=
  ⟨doc, doc, (doc.filter fun f => isMutableObj f.2).map fun f => f.1⟩

/-- `_setNestedValue(result, path, x)`: a single-segment path reassigns the
top-level field of the copy (breaking sharing); a longer path walks into the
field value, and when that value is still shared the same mutation lands in
the stored document. -/
def effWrite (st : EffState) (path : String) (x : JsVal) : Except String EffState :=
  match splitPath path with
  | [] => Except.ok st
  | [k] => Except.ok ⟨st.orig, setField st.res k x, st.shared.erase k⟩
  | k :: rest =>
      match getField st.res k with
      | some u =>
          if u.truthy then do
            let w ← setNestedVal u rest x
            Except.ok ⟨(if st.shared.contains k then setField st.orig k w else st.orig),
                       setField st.res k w, st.shared⟩
          else do
            let fresh ← setNestedVal (vObj []) rest x
            Except.ok ⟨st.orig, setField st.res k fresh, st.shared.erase k⟩
      | none => do
          let fresh ← setNestedVal (vObj []) rest x
          Except.ok ⟨st.orig, setField st.res k fresh, st.shared.erase k⟩

/-- `_deleteNestedValue(result, path)` with the same sharing discipline. -/
def effDelete (st : EffState) (path : String) : Except String EffState :=
  match splitPath path with
  | [] => Except.ok st
  | [k] => Except.ok ⟨st.orig, removeField st.res k, st.shared.erase k⟩
  | k :: rest =>
      match getField st.res k with
      | some u =>
          if u.truthy then do
            let w ← delNestedVal u rest
            Except.ok ⟨(if st.shared.contains k then setField st.orig k w else st.orig),
                       setField st.res k w, st.shared⟩
          else Except.ok st
      | none => Except.ok st

/-- In-place mutation of an existing array reached at `path` (the
`current.push(...)` idiom): the new contents are visible through every alias,
so sharing is preserved and a shared field updates the stored document as
well; the trailing `_setNestedValue(result, field, current)` writes the same
reference back and has no further effect. -/
def effMutate (st : EffState) (path : String) (nv : JsVal) : Except String EffState :=
  match splitPath path with
  | [] => Except.ok st
  | [k] =>
      Except.ok ⟨(if st.shared.contains k then setField st.orig k nv else st.orig),
                 setField st.res k nv, st.shared⟩
  | k :: rest =>
      match getField st.res k with
      | some u => do
          let w ← setNestedVal u rest nv
          Except.ok ⟨(if st.shared.contains k then setField st.orig k w else st.orig),
                     setField st.res k w, st.shared⟩
      | none => Except.ok st

/-- The value `_getNestedValue(result, field)` followed by a truthiness
test, as in the `|| defaultValue` idioms of the update operators. -/
def effRead (st : EffState) (path : String) : Option JsVal :=
  match getNested (vObj st.res) path with
  | some c => if c.truthy then some c else none
  | none => none

/-- `$inc`: `current + value` where a falsy or missing current counts as 0. -/
def effInc (st : EffState) (path : String) (v : JsVal) : Except String EffState := do
  let cur := (effRead st path).getD (vNum 0)
  let sum ← jsAdd cur v
  effWrite st path sum

/-- The item list a `$push` adds: the `$each` batch form when that property
is truthy (it must then be an array to be spread), otherwise the single
value. -/
def pushItems (value : JsVal) : Except String (List JsVal) :=
  match value with
  | vNull => Except.error "TypeError: cannot read properties of null"
  | _ =>
      match propGet value "$each" with
      | some e =>
          if e.truthy then
            match e with
            | vArr its => Except.ok its
            | _ => Except.error "unmodelled spread of a non-array iterable"
          else Except.ok [value]
      | none => Except.ok [value]

/-- `$push`: push onto the existing array in place (visible through shared
references), or write a fresh array when the field is missing or falsy;
a truthy non-array target makes `current.push` throw. -/
def effPush (st : EffState) (path : String) (value : JsVal) : Except String EffState := do
  let items ← pushItems value
  match effRead st path with
  | none => effWrite st path (vArr items)
  | some (vArr xs) => effMutate st path (vArr (xs ++ items))
  | some _ => Except.error "TypeError: current.push is not a function"

/-- The `$pull` keep-predicate: an object (or array/Date, all of
`typeof` object) is used as a sub-filter through `_matchDocument`, anything
else is compared with strict inequality. -/
def pullKeep (rx : Rx) (value item : JsVal) : Bool :=
  if value.typeofObject then !matchDocument rx item value
  else !jsStrictEq (some item) (some value)

/-- `$pull`: filter builds a fresh array which is then written back (a
reassignment, not an in-place mutation).  A `null` value makes the filter
callback throw on the first element; a truthy non-array target makes
`current.filter` throw. -/
def effPull (rx : Rx) (st : EffState) (path : String) (value : JsVal) : Except String EffState :=
  match effRead st path with
  | none => effWrite st path (vArr [])
  | some (vArr []) => effWrite st path (vArr [])
  | some (vArr xs) =>
      match value with
      | vNull => Except.error "TypeError: Object.entries of null"
      | _ => effWrite st path (vArr (xs.filter fun item => pullKeep rx value item))
  | some _ => Except.error "TypeError: current.filter is not a function"

/-- `$addToSet`: push in place unless the value is already present under
SameValueZero (an object value, being a fresh reference, never is); when it
is present, writing the same reference back changes nothing. -/
def effAddToSet (st : EffState) (path : String) (value : JsVal) : Except String EffState :=
  match effRead st path with
  | none => effWrite st path (vArr [value])
  | some (vArr xs) =>
      if xs.any fun e => jsStrictEq (some e) (some value) then Except.ok st
      else effMutate st path (vArr (xs ++ [value]))
  | some _ => Except.error "TypeError: current.includes is not a function"

/-- Fold a per-field action over the entries of an operator argument,
keeping the state reached so far when a field throws. -/
def foldFields (act : EffState → String → JsVal → Except String EffState) :
    EffState → List (String × JsVal) → EffState × Option String
  | st, [] => (st, none)
  | st, (f, v) :: rest =>
      match act st f v with
      | Except.ok st2 => foldFields act st2 rest
      | Except.error e => (st, some e)

/-- One operator of an update description.  An unknown name starting with a
dollar sign is silently skipped; any other name is the direct-field-update
branch `result[op] = fields`. -/
def applyOpEff (rx : Rx) (st : EffState) (op : String) (fields : JsVal) :
    EffState × Option String :=
  let withEntries (act : EffState → String → JsVal → Except String EffState) :
      EffState × Option String :=
    match jsEntries fields with
    | none => (st, some "TypeError: Object.entries of null")
    | some es => foldFields act st es
  if op = "$set" then withEntries fun st2 f v => effWrite st2 f v
  else if op = "$unset" then withEntries fun st2 f _ => effDelete st2 f
  else if op = "$inc" then withEntries fun st2 f v => effInc st2 f v
  else if op = "$push" then withEntries fun st2 f v => effPush st2 f v
  else if op = "$pull" then withEntries fun st2 f v => effPull rx st2 f v
  else if op = "$addToSet" then withEntries fun st2 f v => effAddToSet st2 f v
  else if strStartsWith op "$" then (st, none)
  else ({ st with res := setField st.res op fields, shared := st.shared.erase op }, none)

/-- The operator loop of `_applyUpdate`, stopping at the first throw. -/
def applyUpdateOps (rx : Rx) : EffState → List (String × JsVal) → EffState × Option String
  | st, [] => (st, none)
  | st, (op, fields) :: rest =>
      match applyOpEff rx st op fields with
      | (st2, none) => applyUpdateOps rx st2 rest
      | (st2, some e) => (st2, some e)

/-- `Collection._applyUpdate(doc, update)` with effect tracking: the final
`EffState` and the thrown error, if any. -/
def applyUpdateEff (rx : Rx) (doc update : List (String × JsVal)) : EffState × Option String :=
  applyUpdateOps rx (effInit doc) update

/-- The value `_applyUpdate` returns (or the error it throws). -/
def applyUpdate (rx : Rx) (doc update : List (String × JsVal)) :
    Except String (List (String × JsVal)) :=
  match applyUpdateEff rx doc update with
  | (st, none) => Except.ok st.res
  | (_, some e) => Except.error e

/-- How the stored document object reads after an `_applyUpdate` call,
whether or not the call threw. -/
def mutatedOriginal (rx : Rx) (doc update : List (String × JsVal)) : List (String × JsVal) :=
  (applyUpdateEff rx doc update).1.orig

/-! ## Collection mutators

The impure inputs of the source — the generated id (`_generateId`) and the
clock (`new Date()`) — are explicit parameters.  Persistence scheduling
(`_saveCollection`) only marks the collection dirty; it does not change the
in-memory state modelled here, and the file contents it later writes are
modelled by `saveCollectionText` below. -/

/-- The new document built by `insertOne`:
`{ _id: generated, ...doc, createdAt: doc.createdAt || now, updatedAt: doc.updatedAt || now }`.
Spreading keeps the first position of a duplicated property but its last
value wins, so a caller-supplied `_id` overrides the generated one. -/
def mkNewDoc (doc : List (String × JsVal)) (newId : String) (now : Int) :
    List (String × JsVal) :=
  let base := doc.foldl (fun fs f => setField fs f.1 f.2) [("_id", vStr newId)]
  let createdv := match getField doc "createdAt" with
    | some c => if c.truthy then c else vDate now
    | none => vDate now
  let updatedv := match getField doc "updatedAt" with
    | some c => if c.truthy then c else vDate now
    | none => vDate now
  setField (setField base "createdAt" createdv) "updatedAt" updatedv

/-- The unique-index scan of `insertOne`: first unique index whose bucket map
already has the (defined) value of the new document on the indexed field. -/
def dupViolation (indexes : List (String × IndexInfo)) (newDoc : JsVal) : Option String :=
  match indexes with
  | [] => none
  | (f, info) :: rest =>
      if info.unique then
        match getNested newDoc f with
        | some value =>
            if (bucketGet info.data value).isSome then some f
            else dupViolation rest newDoc
        | none => dupViolation rest newDoc
      else dupViolation rest newDoc

/-- `Collection.insertOne(doc)`: build the new document, reject on a unique
violation before touching anything, otherwise append and update every index
incrementally. -/
def insertOneSt (st : CollState) (doc : List (String × JsVal)) (newId : String) (now : Int) :
    CollState × Except String JsVal :=
  let newDoc := vObj (mkNewDoc doc newId now)
  match dupViolation st.indexes newDoc with
  | some field => (st, Except.error ("Duplicate key error: " ++ field ++ " must be unique"))
  | none =>
      let indexes2 := st.indexes.map fun fi =>
        (fi.1,
         IndexInfo.mk fi.2.unique
           (match getNested newDoc fi.1 with
            | some value => bucketAdd fi.2.data value (propGet newDoc "_id")
            | none => fi.2.data))
      (⟨st.data ++ [newDoc], indexes2⟩, Except.ok newDoc)

/-- `Collection.insertMany(docs)`: a plain loop of `insertOne` calls; a throw
propagates, leaving the documents inserted so far in place. -/
def insertManySt (st : CollState) (docs : List (List (String × JsVal))) (ids : List String)
    (now : Int) : CollState × Except String Nat :=
  match docs, ids with
  | [], _ => (st, Except.ok 0)
  | _ :: _, [] => (st, Except.error "model: id supply exhausted")
  | doc :: docs2, id :: ids2 =>
      match insertOneSt st doc id now with
      | (st2, Except.ok _) =>
          (match insertManySt st2 docs2 ids2 now with
           | (st3, Except.ok n) => (st3, Except.ok (n + 1))
           | (st3, Except.error e) => (st3, Except.error e))
      | (st2, Except.error e) => (st2, Except.error e)

/-- `Collection.updateOne(query, update)`: find one match, rebuild it through
`_applyUpdate`, stamp `updatedAt`, replace it and rebuild all indexes.  When
`_applyUpdate` throws, the stored document keeps any mutations reached
through shared references and nothing is rebuilt. -/
def updateOneSt (rx : Rx) (st : CollState) (q update : List (String × JsVal)) (now : Int) :
    CollState × Except String (Nat × Nat) :=
  match findOneDoc rx st q with
  | none => (st, Except.ok (0, 0))
  | some doc =>
      match st.data.findIdx? fun d => jsStrictEq (propGet d "_id") (propGet doc "_id") with
      | none => (st, Except.ok (0, 0))
      | some i =>
          match st.data[i]? with
          | some (vObj fs) =>
              (match applyUpdateEff rx fs update with
               | (eff, none) =>
                   let updated := vObj (setField eff.res "updatedAt" (vDate now))
                   (rebuildIndexes { st with data := st.data.set i updated }, Except.ok (1, 1))
               | (eff, some e) =>
                   ({ st with data := st.data.set i (vObj eff.orig) }, Except.error e))
          | _ => (st, Except.error "unmodelled non-object document")

/-- The per-document loop of `updateMany` over the previously collected
match list, replacing each matched document found by id in the live array. -/
def updateManyLoop (rx : Rx) (update : List (String × JsVal)) (now : Int) :
    List JsVal → List JsVal → Nat → List JsVal × Except String Nat
  | data, [], m => (data, Except.ok m)
  | data, doc :: rest, m =>
      match data.findIdx? fun d => jsStrictEq (propGet d "_id") (propGet doc "_id") with
      | none => updateManyLoop rx update now data rest m
      | some i =>
          match data[i]? with
          | some (vObj fs) =>
              (match applyUpdateEff rx fs update with
               | (eff, none) =>
                   updateManyLoop rx update now
                     (data.set i (vObj (setField eff.res "updatedAt" (vDate now)))) rest (m + 1)
               | (eff, some e) => (data.set i (vObj eff.orig), Except.error e))
          | _ => (data, Except.error "unmodelled non-object document")

/-- `Collection.updateMany(query, update)`: returns
`(matchedCount, modifiedCount)`; indexes are rebuilt only when something was
modified, and not at all when a document rebuild throws. -/
def updateManySt (rx : Rx) (st : CollState) (q update : List (String × JsVal)) (now : Int) :
    CollState × Except String (Nat × Nat) :=
  let docs := findDocs rx st q {}
  match updateManyLoop rx update now st.data docs 0 with
  | (data2, Except.ok m) =>
      if m > 0 then (rebuildIndexes { st with data := data2 }, Except.ok (docs.length, m))
      else ({ st with data := data2 }, Except.ok (docs.length, m))
  | (data2, Except.error e) => ({ st with data := data2 }, Except.error e)

/-- `Collection.findByIdAndUpdate(id, update, options)`: the returned
document is the updated one for either setting of `options.new`, because the
array slot already holds the rebuilt document when it is read back. -/
def findByIdAndUpdateSt (rx : Rx) (st : CollState) (id : JsVal)
    (update : List (String × JsVal)) (now : Int) (optionNew : Bool) :
    CollState × Except String (Option JsVal) :=
  match st.data.findIdx? fun d => jsStrictEq (propGet d "_id") (some id) with
  | none => (st, Except.ok none)
  | some i =>
      match st.data[i]? with
      | some (vObj fs) =>
          (match applyUpdateEff rx fs update with
           | (eff, none) =>
               let updated := vObj (setField eff.res "updatedAt" (vDate now))
               (rebuildIndexes { st with data := st.data.set i updated },
                Except.ok (some (if optionNew then updated else updated)))
           | (eff, some e) =>
               ({ st with data := st.data.set i (vObj eff.orig) }, Except.error e))
      | _ => (st, Except.error "unmodelled non-object document")

/-- `Collection.deleteOne(query)`. -/
def deleteOneSt (rx : Rx) (st : CollState) (q : List (String × JsVal)) : CollState × Nat :=
  match findOneDoc rx st q with
  | none => (st, 0)
  | some doc =>
      match st.data.findIdx? fun d => jsStrictEq (propGet d "_id") (propGet doc "_id") with
      | none => (st, 0)
      | some i => (rebuildIndexes { st with data := st.data.eraseIdx i }, 1)

/-- `Collection.deleteMany(query)`: filter out every document whose `_id` is
in the matched id set, rebuilding indexes only when something was removed. -/
def deleteManySt (rx : Rx) (st : CollState) (q : List (String × JsVal)) : CollState × Nat :=
  let docs := findDocs rx st q {}
  let ids := docs.map fun d => propGet d "_id"
  let data2 := st.data.filter fun d => !(ids.any fun idv => jsStrictEq idv (propGet d "_id"))
  let deleted := st.data.length - data2.length
  if deleted > 0 then (rebuildIndexes { st with data := data2 }, deleted)
  else ({ st with data := data2 }, deleted)

/-! ## Persistence (`_flushWrites` / `_loadCollection`)

A flush writes `JSON.stringify(collection, null, 2)`; a load runs
`JSON.parse` and keeps the parsed value, recovering from any exception with
an empty collection.  A file that parses to a non-array (which a flush never
writes) is collapsed to the empty collection in the model. -/

/-- The file text `_flushWrites` produces for one collection. -/
def saveCollectionText (docs : List JsVal) : String :=
  printIndent 0 (vArr docs)

/-- The in-memory collection `_loadCollection` builds from file text. -/
def loadCollectionText (s : String) : List JsVal :=
  match jsonParse s with
  | some (vArr ds) => ds
  | _ => []

/-! ## Aggregation (`Collection.aggregate`, `_applyGroup`) -/

/-- The group key of one document:
`null` literal becomes the string `'null'`, a `$`-prefixed string dereferences
the field (possibly undefined), anything else is the literal itself. -/
def groupKeyOf (pid : Option JsVal) (doc : JsVal) : Option JsVal :=
  match pid with
  | some vNull => some (vStr "null")
  | some (vStr s) => if strStartsWith s "$" then getNested doc (s.drop 1) else some (vStr s)
  | some v => some v
  | none => none

/-- Append a document to the bucket of its group key (SameValueZero key
equality, insertion-ordered as a JS `Map`). -/
def addToGroup (gs : List (Option JsVal × List JsVal)) (k : Option JsVal) (doc : JsVal) :
    List (Option JsVal × List JsVal) :=
  match gs with
  | [] => [(k, [doc])]
  | (k2, ds) :: rest =>
      if jsStrictEq k2 k then (k2, ds ++ [doc]) :: rest
      else (k2, ds) :: addToGroup rest k doc

/-- Bucket the documents by group key in encounter order. -/
def buildGroups (pid : Option JsVal) (docs : List JsVal) :
    List (Option JsVal × List JsVal) :=
  docs.foldl (fun gs d => addToGroup gs (groupKeyOf pid d) d) []

/-- `getNested(d, f) || 0` as a rational, for `$sum`/`$max`; a truthy value
that does not coerce to a number is a NaN case outside the model. -/
def numOrZero (d : JsVal) (f : String) : Except String ℚ :=
  match getNested d f with
  | some v =>
      if v.truthy then
        match toNumQ v with
        | some q => Except.ok q
        | none => Except.error "unmodelled NaN arithmetic"
      else Except.ok 0
  | none => Except.ok 0

/-- One accumulator of `_applyGroup`.  The source reads
`const [opName, opField] = Object.entries(op)[0]` and then unconditionally
evaluates `opField.startsWith('$')`, which throws a `TypeError` whenever
`opField` is not a string — in particular for the count form `{$sum: 1}`,
whose dedicated `opField === 1` branch is therefore unreachable. -/
def groupAccumulate (op : JsVal) (ds : List JsVal) :
    Except String (Option JsVal) :=
  match jsEntries op with
  | none => Except.error "TypeError: Object.entries of null"
  | some [] => Except.error "TypeError: undefined is not iterable"
  | some ((opName, opField) :: _) =>
      match opField with
      | vStr s => do
          let fieldName := if strStartsWith s "$" then s.drop 1 else s
          if opName = "$sum" then do
            let q ← ds.foldlM (fun acc d => do
              let x ← numOrZero d fieldName
              pure (ratAdd acc x)) (0 : ℚ)
            Except.ok (some (vNum q))
          else if opName = "$avg" then do
            let vals := ds.filterMap fun d =>
              match getNested d fieldName with
              | some vNull => none
              | some v => some v
              | none => none
            let qs ← vals.mapM fun v =>
              match toNumQ v with
              | some q => Except.ok q
              | none => Except.error "unmodelled NaN arithmetic"
            Except.ok (some (vNum (if qs.length = 0 then 0 else ratDiv (qs.foldl ratAdd 0) (qs.length : ℚ))))
          else if opName = "$max" then do
            let qs ← ds.mapM fun d => numOrZero d fieldName
            match qs.max? with
            | some m => Except.ok (some (vNum m))
            | none => Except.error "unmodelled infinite Math.max"
          else if opName = "$min" then do
            let qs ← ds.mapM fun d =>
              match getNested d fieldName with
              | some v =>
                  if v.truthy then
                    match toNumQ v with
                    | some q => Except.ok (some q)
                    | none => Except.error "unmodelled NaN arithmetic"
                  else Except.ok none
              | none => Except.ok none
            (match (qs.filterMap id).min? with
             | some m => Except.ok (some (vNum m))
             | none => Except.error "unmodelled infinite Math.min")
          else if opName = "$first" then
            Except.ok (match ds.head? with
              | some d => getNested d fieldName
              | none => none)
          else if opName = "$last" then
            Except.ok (match ds.getLast? with
              | some d => getNested d fieldName
              | none => none)
          else Except.ok none
      | _ => Except.error "TypeError: opField.startsWith is not a function"

/-- `Collection._applyGroup(docs, params)`. -/
def applyGroup (docs : List JsVal) (params : List (String × JsVal)) :
    Except String (List JsVal) := do
  let pid := getField params "_id"
  let groups := buildGroups pid docs
  groups.mapM fun g => do
    let idVal : List (String × JsVal) :=
      match g.1 with
      | some k => [("_id", if jsStrictEq (some k) (some (vStr "null")) then vNull else k)]
      | none => []
    let fs ← params.foldlM
      (fun fs p => do
        if p.1 = "_id" then pure fs
        else do
          match (← groupAccumulate p.2 g.2) with
          | some v => pure (setField fs p.1 v)
          | none => pure fs)
      idVal
    pure (vObj fs)

/-- A nonnegative integral numeric argument, as `$limit`/`$skip` expect. -/
def natArg (v : JsVal) : Except String Nat :=
  match v with
  | vNum q => if q.den = 1 && q.num ≥ 0 then Except.ok q.num.toNat
              else Except.error "unmodelled slice argument"
  | _ => Except.error "unmodelled slice argument"

/-- The sort specification of a raw `$sort`/`options.sort` object: the order
value is numerically coerced; a NaN comparator result ties (per ECMA). -/
def sortSpecOf (fs : List (String × JsVal)) : List (String × ℚ) :=
  fs.map fun p => (p.1, (toNumQ p.2).getD 0)

/-- One pipeline stage of `Collection.aggregate`; an unknown stage name
leaves the intermediate results unchanged. -/
def applyStage (rx : Rx) (results : List JsVal) (stage : JsVal) :
    Except String (List JsVal) :=
  match jsEntries stage with
  | none => Except.error "TypeError: Object.entries of null"
  | some [] => Except.error "TypeError: undefined is not iterable"
  | some ((op, params) :: _) =>
      if op = "$match" then Except.ok (results.filter fun d => matchDocument rx d params)
      else if op = "$sort" then
        match params with
        | vObj fs => Except.ok (applySort (sortSpecOf fs) results)
        | _ => Except.ok (applySort [] results)
      else if op = "$limit" then do
        let n ← natArg params
        Except.ok (results.take n)
      else if op = "$skip" then do
        let n ← natArg params
        Except.ok (results.drop n)
      else if op = "$project" then
        match params with
        | vObj fs => Except.ok (results.map fun d => applyProjection d fs)
        | _ => Except.error "unmodelled projection argument"
      else if op = "$group" then
        match params with
        | vObj fs => applyGroup results fs
        | _ => Except.error "unmodelled group argument"
      else Except.ok results

/-- `Collection.aggregate(pipeline)`. -/
def aggregateSt (rx : Rx) (st : CollState) (pipeline : List JsVal) :
    Except String (List JsVal) :=
  pipeline.foldlM (fun results stage => applyStage rx results stage) st.data

/-! ## Schema and Model (`Model._validate`, `_applyDefaults`, `_transform`,
`Model.create`, `TMUDatabase.createIndex`)

Schema pattern rules (`match`) carry JS `RegExp` objects; they are modelled
by an opaque pattern name interpreted by an oracle `rxm`, and the
`Date.parse` fallback of the Date type check by an oracle `dp`.  A generator
default (`default: () => v`) is modelled by the value it produces, and a
pre-save hook (which mutates the document it is called on) by a function from
field list to field list. -/

/-- The `required` rule: a literal, a zero-argument predicate (functions are
truthy), or the `[flag, message]` array form — an array is truthy whatever
the flag, so that form always demands the field. -/
inductive ReqRule : Type where
  | rLit : Bool → ReqRule
  | rFn : Bool → ReqRule
  | rMsg : Bool → String → ReqRule

/-- The declared type tags the validator distinguishes (`Object`/`Mixed`
fields are never type-checked by the source). -/
inductive TypeTag : Type where
  | tString | tNumber | tBoolean | tDate | tArray | tObject

/-- One field rule set of a schema definition.  `minlength`/`maxlength` are
read through JS truthiness, so `0` behaves exactly like absence; `min`/`max`
are compared against `undefined` explicitly, hence genuine options. -/
structure FieldRules where
  required : Option ReqRule := none
  type : Option TypeTag := none
  enum : Option (List JsVal) := none
  minlength : Nat := 0
  maxlength : Nat := 0
  matchPat : Option String := none
  min : Option ℚ := none
  max : Option ℚ := none
  dflt : Option JsVal := none
  lowercase : Bool := false
  uppercase : Bool := false
  trim : Bool := false

/-- Truthiness of the `required` rule value (`if (fieldRules.required)`). -/
def reqTruthy : ReqRule → Bool
  | ReqRule.rLit b => b
  | ReqRule.rFn _ => true
  | ReqRule.rMsg _ _ => true

/-- `typeof required === 'function' ? required() : required` followed by a
truthiness test: the array form yields the array itself, hence true. -/
def reqIsRequired : ReqRule → Bool
  | ReqRule.rLit b => b
  | ReqRule.rFn b => b
  | ReqRule.rMsg _ _ => true

/-- The required-rule message: the second array element when given, else the
generic one. -/
def reqMessage (field : String) : ReqRule → String
  | ReqRule.rMsg _ msg => msg
  | _ => field ++ " is required"

/-- The emptiness test of the required check:
`value === undefined || value === null || value === ''`. -/
def isEmptyValue : Option JsVal → Bool
  | none => true
  | some vNull => true
  | some (vStr s) => s = ""
  | _ => false

/-- `String(v)` for the primitive values that reach validation messages. -/
def jsToDisplay : JsVal → String
  | vStr s => s
  | vNum q => numToString q
  | vBool b => if b then "true" else "false"
  | vNull => "null"
  | _ => "[unmodelled display]"

/-- The printed name of a type tag (`type.name` in the message). -/
def typeTagName : TypeTag → String
  | TypeTag.tString => "String"
  | TypeTag.tNumber => "Number"
  | TypeTag.tBoolean => "Boolean"
  | TypeTag.tDate => "Date"
  | TypeTag.tArray => "Array"
  | TypeTag.tObject => "Object"

/-- The type check of `_validate` (a value failing `instanceof Date` still
passes when `Date.parse` accepts it, per the oracle `dp`). -/
def typeOk (dp : JsVal → Bool) (tag : TypeTag) (v : JsVal) : Bool :=
  match tag with
  | TypeTag.tString => match v with | vStr _ => true | _ => false
  | TypeTag.tNumber => match v with | vNum _ => true | _ => false
  | TypeTag.tBoolean => match v with | vBool _ => true | _ => false
  | TypeTag.tDate => match v with | vDate _ => true | _ => dp v
  | TypeTag.tArray => match v with | vArr _ => true | _ => false
  | TypeTag.tObject => true

/-- The violations `_validate` records for one field, in source order:
required (stopping the field), then — when the value is present and
non-null — type, enum membership (SameValueZero), string length bounds and
pattern, numeric bounds. -/
def validateField (rxm : String → String → Bool) (dp : JsVal → Bool)
    (field : String) (rules : FieldRules) (value : Option JsVal) :
    List (String × String) :=
  let requiredErrs : Option (List (String × String)) :=
    match rules.required with
    | some r =>
        if reqTruthy r && reqIsRequired r && isEmptyValue value then
          some [(field, reqMessage field r)]
        else none
    | none => none
  match requiredErrs with
  | some errs => errs
  | none =>
      match value with
      | none => []
      | some vNull => []
      | some v =>
          let typeErrs :=
            match rules.type with
            | some tag =>
                if typeOk dp tag v then []
                else [(field, field ++ " must be of type " ++ typeTagName tag)]
            | none => []
          let enumErrs :=
            match rules.enum with
            | some allowed =>
                if allowed.any fun a => jsStrictEq (some a) (some v) then []
                else [(field, field ++ " must be one of: " ++
                        String.intercalate ", " (allowed.map jsToDisplay))]
            | none => []
          let stringErrs :=
            match v with
            | vStr s =>
                (if rules.minlength ≠ 0 && s.length < rules.minlength then
                  [(field, field ++ " must be at least " ++ toString rules.minlength ++ " characters")]
                else []) ++
                (if rules.maxlength ≠ 0 && s.length > rules.maxlength then
                  [(field, field ++ " cannot exceed " ++ toString rules.maxlength ++ " characters")]
                else []) ++
                (match rules.matchPat with
                 | some pat => if rxm pat s then [] else [(field, field ++ " format is invalid")]
                 | none => [])
            | _ => []
          let numErrs :=
            match v with
            | vNum q =>
                (match rules.min with
                 | some lo => if q < lo then
                     [(field, field ++ " must be at least " ++ numToString lo)] else []
                 | none => []) ++
                (match rules.max with
                 | some hi => if q > hi then
                     [(field, field ++ " cannot exceed " ++ numToString hi)] else []
                 | none => [])
            | _ => []
          typeErrs ++ enumErrs ++ stringErrs ++ numErrs

/-- `Model._validate(doc)`: every field rule is evaluated and every violation
collected; the list is empty exactly when validation passes. -/
def validateDoc (rxm : String → String → Bool) (dp : JsVal → Bool)
    (schema : List (String × FieldRules)) (doc : List (String × JsVal)) :
    List (String × String) :=
  schema.foldl (fun errs p => errs ++ validateField rxm dp p.1 p.2 (getField doc p.1)) []

/-- `Model._applyDefaults(doc)`. -/
def applyDefaults (schema : List (String × FieldRules)) (doc : List (String × JsVal)) :
    List (String × JsVal) :=
  schema.foldl
    (fun d p =>
      match getField d p.1 with
      | some _ => d
      | none =>
          match p.2.dflt with
          | some v => setField d p.1 v
          | none => d)
    doc

/-- `Model._transform(doc)`: lowercase, then uppercase, then trim, on string
values of schema fields (the JS and Lean whitespace notions of `trim` agree
on the plain-ASCII values handled here). -/
def transformDoc (schema : List (String × FieldRules)) (doc : List (String × JsVal)) :
    List (String × JsVal) :=
  schema.foldl
    (fun d p =>
      match getField d p.1 with
      | some (vStr s) =>
          let s1 := if p.2.lowercase then s.toLower else s
          let s2 := if p.2.uppercase then s1.toUpper else s1
          let s3 := if p.2.trim then s2.trim else s2
          setField d p.1 (vStr s3)
      | _ => d)
    doc

/-- Outcome of `Model.create`: the inserted document, a validation error
carrying every collected field violation, or a propagated collection error
(duplicate key). -/
inductive CreateResult : Type where
  | created : JsVal → CreateResult
  | validationError : List (String × String) → CreateResult
  | dbError : String → CreateResult

/-- `Model.create(data)` for a single document: defaults, transforms,
pre-save hooks, validation (throwing the aggregate error before any insert),
then `insertOne`.  The method/virtual wrapping and post-save hooks do not
change the collection state and are not modelled. -/
def createSt (rxm : String → String → Bool) (dp : JsVal → Bool)
    (schema : List (String × FieldRules))
    (preSave : List (List (String × JsVal) → List (String × JsVal)))
    (st : CollState) (data : List (String × JsVal)) (newId : String) (now : Int) :
    CollState × CreateResult :=
  let doc1 := applyDefaults schema data
  let doc2 := transformDoc schema doc1
  let doc3 := preSave.foldl (fun d h => h d) doc2
  let errs := validateDoc rxm dp schema doc3
  if errs.isEmpty then
    match insertOneSt st doc3 newId now with
    | (st2, Except.ok newDoc) => (st2, CreateResult.created newDoc)
    | (st2, Except.error e) => (st2, CreateResult.dbError e)
  else (st, CreateResult.validationError errs)

/-- `TMUDatabase.createIndex(collection, field, {unique})`: register (or
replace) the index, then rebuild it from the current data. -/
def createIndexSt (st : CollState) (field : String) (uniq : Bool) : CollState :=
  let info := IndexInfo.mk uniq (rebuildFieldIndex st.data field)
  let rec upsert : List (String × IndexInfo) → List (String × IndexInfo)
    | [] => [(field, info)]
    | (k, i) :: rest => if k = field then (field, info) :: rest else (k, i) :: upsert rest
  { st with indexes := upsert st.indexes }

/-- The empty collection a `Model` binds to: `Model.constructor` always
creates the unique index on `_id` (plus any schema-declared indexes, which
further `createIndexSt` steps can add). -/
def initColl : CollState :=
  ⟨[], [("_id", IndexInfo.mk true [])]⟩

/-! ## Scenario constants and predicates used by the claim theorems -/

/-- A `$regex` oracle for scenarios that use no `$regex` condition. -/
def rxNone : Rx := fun _ _ _ => false

/-- The spec scenario, step 1: insert `{name: "A", score: 10}` into an empty,
unindexed collection. -/
def c1State1 : CollState :=
  (insertOneSt ⟨[], []⟩ [("name", vStr "A"), ("score", vNum 10)] "65000000aaaaaaaaaaaaaaaa" 1000).1

/-- Step 2: insert `{name: "B", score: 20}`. -/
def c1State2 : CollState :=
  (insertOneSt c1State1 [("name", vStr "B"), ("score", vNum 20)] "65000001bbbbbbbbbbbbbbbb" 2000).1

/-- Step 3: `updateOne({name: "A"}, {$inc: {score: 5}})`. -/
def c1State3 : CollState :=
  (updateOneSt rxNone c1State2 [("name", vStr "A")] [("$inc", vObj [("score", vNum 5)])] 3000).1

/-- Step 4: `deleteMany({score: {$gt: 12}})`. -/
def c1Deleted : CollState × Nat :=
  deleteManySt rxNone c1State3 [("score", vObj [("$gt", vNum 12)])]

/-- The document the scenario stores for B (generated id and timestamps
made explicit). -/
def c1DocB : JsVal :=
  vObj [("_id", vStr "65000001bbbbbbbbbbbbbbbb"), ("name", vStr "B"), ("score", vNum 20),
        ("createdAt", vDate 2000), ("updatedAt", vDate 2000)]

/-- The document of the C2 counterexample: a string-array field and a
numeric field. -/
def c2Doc : JsVal :=
  vObj [("_id", vStr "d1"), ("tags", vArr [vStr "a"]), ("n", vNum 5)]

/-- A one-document collection holding `c2Doc`. -/
def c2State : CollState := ⟨[c2Doc], []⟩

/-- An update whose `$push` mutates the shared `tags` array in place before
its `$pull` throws (`(5).filter` is not a function). -/
def c2Update : List (String × JsVal) :=
  [("$push", vObj [("tags", vStr "x")]), ("$pull", vObj [("n", vNum 1)])]

/-- The `updateOne` call of the C2 counterexample. -/
def c2Result : CollState × Except String (Nat × Nat) :=
  updateOneSt rxNone c2State [("_id", vStr "d1")] c2Update 99

/-- Length of the `tags` array of a one-document collection, used to tell
the mutated state from the original one. -/
def c2TagCount (l : List JsVal) : Nat :=
  match l with
  | [v] =>
      match getNested v "tags" with
      | some (vArr xs) => xs.length
      | _ => 0
  | _ => 0

/-- Whether a field path is a single segment (no dots). -/
def pathIsTopLevel (f : String) : Bool :=
  match splitPath f with
  | [_] => true
  | _ => false

/-- Whether the argument of an update operator addresses only top-level
fields. -/
def safeOpFields (v : JsVal) : Bool :=
  match jsEntries v with
  | some es => es.all fun p => pathIsTopLevel p.1
  | none => false

/-- The update descriptions for which `_applyUpdate` never mutates the
stored document in place: `$set`/`$unset`/`$inc`/`$pull` on dot-free paths,
direct field updates, and ignored unknown dollar operators — every write is
then a top-level reassignment on the copy. -/
def updateSafeOps (update : List (String × JsVal)) : Bool :=
  update.all fun p =>
    if p.1 = "$set" || p.1 = "$unset" || p.1 = "$inc" || p.1 = "$pull" then safeOpFields p.2
    else if p.1 = "$push" || p.1 = "$addToSet" then false
    else true

/-- The C3 counterexample collection: a unique index on `u` and one document
with `u = 1`. -/
def c3State1 : CollState :=
  (insertOneSt (createIndexSt ⟨[], []⟩ "u" true) [("u", vNum 1)] "650000020000000000000001" 0).1

/-- An `insertMany` batch whose second element repeats the unique value. -/
def c3Batch : CollState × Except String Nat :=
  insertManySt c3State1 [[("u", vNum 2)], [("u", vNum 1)]]
    ["650000030000000000000002", "650000040000000000000003"] 1

/-- Whether a document carries a primitive (or absent) `_id`, so that the
SameValueZero id tests of the source coincide with the structural tests of
the tree-shaped heap model. -/
def primId (d : JsVal) : Bool :=
  match propGet d "_id" with
  | none => true
  | some vNull => true
  | some (vBool _) => true
  | some (vNum _) => true
  | some (vStr _) => true
  | _ => false

/-- Whether a stored document is a JS object (every document the engine
itself stores is). -/
def isObjDoc : JsVal → Bool
  | vObj _ => true
  | _ => false

/-- The id `===` test between two documents, as `findIndex` uses it. -/
def idEq (x d : JsVal) : Bool :=
  jsStrictEq (propGet x "_id") (propGet d "_id")

/-- An embedding of a document list into another at increasing positions
with matching ids: the shape of the `updateMany` match list against the live
array, stable under the slot replacements the loop performs. -/
inductive IdSub : List JsVal → List JsVal → Prop where
  | nil (l : List JsVal) : IdSub [] l
  | cons2 {ds l : List JsVal} {d x : JsVal} :
      idEq x d = true → IdSub ds l → IdSub (d :: ds) (x :: l)
  | cons {ds l : List JsVal} (x : JsVal) : IdSub ds l → IdSub ds (x :: l)

/-- First segment of a field path. -/
def headSeg (f : String) : String :=
  match splitPath f with
  | s :: _ => s
  | [] => ""

/-- Update descriptions that never address the `_id` field: every operator
argument entry has a first path segment other than `_id`, and a direct field
update is not named `_id`. -/
def updateAvoidsId (update : List (String × JsVal)) : Bool :=
  update.all fun p =>
    if p.1 = "$set" || p.1 = "$unset" || p.1 = "$inc" || p.1 = "$push" ||
        p.1 = "$pull" || p.1 = "$addToSet" then
      match jsEntries p.2 with
      | some es => es.all fun q => headSeg q.1 ≠ "_id"
      | none => false
    else if strStartsWith p.1 "$" then true
    else p.1 ≠ "_id"

/-- Collection states reachable through the Model-level operation surface:
the `Model` constructor state (unique `_id` index, schema indexes on other
fields), inserts, updates whose descriptions avoid `_id`, and deletes.  The
`.1` projections take the post-state of a call whether it returned or
threw. -/
inductive Reach (rx : Rx) : CollState → Prop where
  | init : Reach rx initColl
  | createIdx {st : CollState} (f : String) (u : Bool) (hf : f ≠ "_id") :
      Reach rx st → Reach rx (createIndexSt st f u)
  | insertOne {st : CollState} (doc : List (String × JsVal)) (newId : String) (now : Int) :
      Reach rx st → Reach rx (insertOneSt st doc newId now).1
  | insertMany {st : CollState} (docs : List (List (String × JsVal))) (ids : List String)
      (now : Int) : Reach rx st → Reach rx (insertManySt st docs ids now).1
  | updateOne {st : CollState} (q update : List (String × JsVal)) (now : Int)
      (hu : updateAvoidsId update = true) :
      Reach rx st → Reach rx (updateOneSt rx st q update now).1
  | updateMany {st : CollState} (q update : List (String × JsVal)) (now : Int)
      (hu : updateAvoidsId update = true) :
      Reach rx st → Reach rx (updateManySt rx st q update now).1
  | findByIdAndUpdate {st : CollState} (id : JsVal) (update : List (String × JsVal))
      (now : Int) (optionNew : Bool) (hu : updateAvoidsId update = true) :
      Reach rx st → Reach rx (findByIdAndUpdateSt rx st id update now optionNew).1
  | deleteOne {st : CollState} (q : List (String × JsVal)) :
      Reach rx st → Reach rx (deleteOneSt rx st q).1
  | deleteMany {st : CollState} (q : List (String × JsVal)) :
      Reach rx st → Reach rx (deleteManySt rx st q).1

/-- Pairwise distinctness of document ids under the id `===` test. -/
def NodupIds (data : List JsVal) : Prop :=
  data.Pairwise fun a b => jsStrictEq (propGet a "_id") (propGet b "_id") = false

/-- The C4 counterexample: two inserts, then an update that sets `_id` of
the second document to the id of the first. -/
def c4Final : CollState :=
  (updateOneSt rxNone
    ((insertOneSt ((insertOneSt initColl [("name", vStr "A")] "ida" 0).1)
        [("name", vStr "B")] "idb" 1).1)
    [("_id", vStr "idb")] [("$set", vObj [("_id", vStr "ida")])] 2).1

/-- The C8 failing input: one document and the documented count form of
`$group`. -/
def c8Coll : CollState :=
  ⟨[vObj [("category", vStr "news"), ("views", vNum 7)]], []⟩

/-- The pipeline `[{$group: {_id: null, count: {$sum: 1}}}]`. -/
def c8Pipeline : List JsVal :=
  [vObj [("$group", vObj [("_id", vNull), ("count", vObj [("$sum", vNum 1)])])]]

/-- A character JSON text can hold verbatim or through a named escape (the
`\u` form the printer uses for other control characters is excluded from the
round-trip statement). -/
def plainChar (c : Char) : Bool :=
  c.toNat ≥ 32 || c = '\n' || c = '\t' || c = '\r' || c = '\x08' || c = '\x0c'

/-- A string all of whose characters round-trip. -/
def plainStr (s : String) : Bool :=
  s.data.all plainChar

/-- Pairwise distinctness of object property names. -/
def distinctKeys : List String → Bool
  | [] => true
  | k :: rest => !rest.contains k && distinctKeys rest

mutual

/-- JSON-plain values: what survives a stringify/parse cycle unchanged — no
`Date` (serialised to a string), integral numbers (the model does not commit
to the shortest-round-trip rendering of fractional doubles), strings without
exotic control characters, and objects with distinct property names. -/
def plainVal : JsVal → Bool
  | vNull => true
  | vBool _ => true
  | vNum q => q.den == 1
  | vStr s => plainStr s
  | vDate _ => false
  | vArr xs => plainList xs
  | vObj fs => plainFields fs

/-- JSON-plain elements. -/
def plainList : List JsVal → Bool
  | [] => true
  | x :: rest => plainVal x && plainList rest

/-- JSON-plain members. -/
def plainFields : List (String × JsVal) → Bool
  | [] => true
  | (k, v) :: rest =>
      plainStr k && !(rest.map fun p => p.1).contains k && plainVal v && plainFields rest

end

/-- JSON-plain documents of one collection. -/
def plainDocs : List JsVal → Bool
  | [] => true
  | d :: rest => plainVal d && plainDocs rest

/-- The C7 counterexample documents: one stored document with a `Date`
field, as `insertOne` always produces. -/
def c7DateDocs : List JsVal :=
  [vObj [("_id", vStr "65000005cccccccccccccccc"), ("createdAt", vDate 0)]]

/-- Whether the single document of a collection holds a `Date` under
`createdAt` (distinguishes the reloaded state from the flushed one). -/
def c7HasDate (l : List JsVal) : Bool :=
  match l with
  | [v] =>
      match getNested v "createdAt" with
      | some (vDate _) => true
      | _ => false
  | _ => false

/-- Which values strict equality can relate: the primitives. -/
def isPrimVal : JsVal → Bool
  | vNull => true
  | vBool _ => true
  | vNum _ => true
  | vStr _ => true
  | _ => false

/-- The document `Model.create` hands to validation: defaults, then
transforms, then the pre-save hooks in registration order. -/
def createPrepared (schema : List (String × FieldRules))
    (preSave : List (List (String × JsVal) → List (String × JsVal)))
    (data : List (String × JsVal)) : List (String × JsVal) :=
  preSave.foldl (fun d h => h d) (transformDoc schema (applyDefaults schema data))

/-- The schema of the C6 witness: a required `name` and a numeric `age`. -/
def c6Schema : List (String × FieldRules) :=
  [("name", { required := some (ReqRule.rLit true) }),
   ("age", { type := some TypeTag.tNumber, min := some 0 })]

/-- The documents of the C9 witness: two documents tie on the sort key
`s` with a third between them. -/
def c9Docs : List JsVal :=
  [vObj [("s", vNum 1), ("t", vNum 1)], vObj [("s", vNum 0)], vObj [("s", vNum 1), ("t", vNum 2)]]

/-- The C9 witness class: documents whose sort key `s` is 1. -/
def c9P (d : JsVal) : Bool :=
  jsStrictEq (getNested d "s") (some (vNum 1))

/-- The C10 witness collection: two documents with string ids. -/
def c10St : CollState :=
  ⟨[vObj [("_id", vStr "r1"), ("x", vNum 1)], vObj [("_id", vStr "r2"), ("x", vNum 1)]], []⟩

/-- The C10 witness update: a `$set` that changes no field value. -/
def c10Upd : List (String × JsVal) :=
  [("$set", vObj [("x", vNum 1)])]

/-- The C10 witness run: `updateMany({}, {$set:{x:1}})` over `c10St`. -/
def c10Run : CollState × Except String (Nat × Nat) :=
  updateManySt rxNone c10St [] c10Upd 7

/-- Input positions where a printed number ends: the next character (if any)
extends no number literal.  Every position following a value in the output of
the 2-space `JSON.stringify` form qualifies. -/
def isDelim : List Char → Bool
  | [] => true
  | c :: _ => !(c.isDigit || c = '.')

/-- The text the indented printer emits after the first item of an array:
empty for a singleton, otherwise a comma, a newline, and the remaining
items. -/
def itemsTail (d : Nat) : List JsVal → List Char
  | [] => []
  | x :: xs => (",\n").data ++ (printIndentItems d (x :: xs)).data

/-- The text the indented printer emits after the first member of an
object. -/
def membersTail (d : Nat) : List (String × JsVal) → List Char
  | [] => []
  | f :: fs => (",\n").data ++ (printIndentFields d (f :: fs)).data

/-- Two `_applyUpdate` effect states agreeing on the `_id` property of both
the copy under construction and the stored document. -/
def keepsId (a b : EffState) : Prop :=
  getField b.res "_id" = getField a.res "_id" ∧
  getField b.orig "_id" = getField a.orig "_id"

/-- The collection invariant behind the amended C4 claim: pairwise distinct
ids, every stored document an object, and a registered unique `_id` index
whose bucket map is the one `_rebuildIndexes` computes from the data. -/
def CollInv (st : CollState) : Prop :=
  NodupIds st.data ∧ (∀ d ∈ st.data, isObjDoc d = true) ∧
  ("_id", IndexInfo.mk true (rebuildFieldIndex st.data "_id")) ∈ st.indexes

/-! ## Claim theorems -/

/-- C1, counterexample: in the spec scenario, after
`updateOne({name:"A"},{$inc:{score:5}})` the document A holds `score: 15`,
so the final `deleteMany({score:{$gt:12}})` matches it as well as B and
removes both — zero documents remain, not the one the claim asserts. -/
theorem c1_counterexample :
    c1Deleted.1.data = [] ∧ c1Deleted.2 = 2 ∧ c1Deleted.1.data.length ≠ 1 :=
  ⟨rfl, rfl, by decide⟩

/-- C1, amended: inserting `{name:"A",score:10}` then `{name:"B",score:20}`,
`find({score:{$gte:15}})` returns exactly the document B; after
`updateOne({name:"A"},{$inc:{score:5}})` fetching A yields `score: 15`; and
`deleteMany({score:{$gt:12}})` then removes both documents (A now also has
`score > 12`), leaving the collection empty. -/
theorem c1_amended :
    findDocs rxNone c1State2 [("score", vObj [("$gte", vNum 15)])] {} = [c1DocB] ∧
    ((findOneDoc rxNone c1State3 [("name", vStr "A")]).bind fun d => getNested d "score") =
      some (vNum 15) ∧
    c1Deleted.2 = 2 ∧
    c1Deleted.1.data = [] :=
  ⟨rfl, rfl, rfl, rfl⟩

/-- C8: the `$group` count accumulator `{$sum: 1}` crashes instead of
returning the bucket size: `_applyGroup` evaluates
`opField.startsWith('$')` before the `opField === 1` branch, and a number
has no `startsWith` method, so aggregating
`[{$group: {_id: null, count: {$sum: 1}}}]` over a nonempty collection
throws a `TypeError`. -/
theorem c8_group_sum_count_throws :
    aggregateSt rxNone c8Coll c8Pipeline =
      Except.error "TypeError: opField.startsWith is not a function" :=
  rfl

/-- C2, counterexample: on `{_id:"d1", tags:["a"], n:5}` the update
`{$push: {tags: "x"}, $pull: {n: 1}}` first pushes into the `tags` array —
which the shallow copy shares with the stored document — and then throws
(`(5).filter` is not a function).  The `updateOne` call therefore throws,
yet the stored document now reads `tags: ["a","x"]`: a partial application
of the operators is observable, against the claimed atomicity. -/
theorem c2_counterexample :
    c2Result.2.isOk = false ∧
    c2Result.1.data =
      [vObj [("_id", vStr "d1"), ("tags", vArr [vStr "a", vStr "x"]), ("n", vNum 5)]] ∧
    c2Result.1.data ≠ [c2Doc] := by
  refine ⟨rfl, rfl, fun h => absurd (congrArg c2TagCount h) (by decide)⟩

/-- A top-level write on the copy leaves the stored original untouched. -/
theorem effWrite_orig_of_top {st : EffState} {f : String} {x : JsVal} {st2 : EffState}
    (hf : pathIsTopLevel f = true) (h : effWrite st f x = Except.ok st2) :
    st2.orig = st.orig := by
  unfold pathIsTopLevel at hf
  unfold effWrite at h
  cases hsp : splitPath f with
  | nil => rw [hsp] at h; cases h; rfl
  | cons k rest =>
      cases rest with
      | nil => rw [hsp] at h; cases h; rfl
      | cons k2 rest2 => rw [hsp] at hf; cases hf

/-- A top-level delete on the copy leaves the stored original untouched. -/
theorem effDelete_orig_of_top {st : EffState} {f : String} {st2 : EffState}
    (hf : pathIsTopLevel f = true) (h : effDelete st f = Except.ok st2) :
    st2.orig = st.orig := by
  unfold pathIsTopLevel at hf
  unfold effDelete at h
  cases hsp : splitPath f with
  | nil => rw [hsp] at h; cases h; rfl
  | cons k rest =>
      cases rest with
      | nil => rw [hsp] at h; cases h; rfl
      | cons k2 rest2 => rw [hsp] at hf; cases hf

/-- `$inc` on a top-level path leaves the stored original untouched. -/
theorem effInc_orig_of_top {st : EffState} {f : String} {v : JsVal} {st2 : EffState}
    (hf : pathIsTopLevel f = true) (h : effInc st f v = Except.ok st2) :
    st2.orig = st.orig := by
  simp only [effInc] at h
  cases hadd : jsAdd ((effRead st f).getD (vNum 0)) v with
  | error e =>
      simp only [hadd, Bind.bind, Except.bind] at h
      exact Except.noConfusion h
  | ok sum =>
      simp only [hadd, Bind.bind, Except.bind] at h
      exact effWrite_orig_of_top hf h

/-- `$pull` on a top-level path leaves the stored original untouched: its
filter builds a fresh array that is reassigned, never mutated in place. -/
theorem effPull_orig_of_top {rx : Rx} {st : EffState} {f : String} {v : JsVal} {st2 : EffState}
    (hf : pathIsTopLevel f = true) (h : effPull rx st f v = Except.ok st2) :
    st2.orig = st.orig := by
  unfold effPull at h
  cases hr : effRead st f with
  | none => rw [hr] at h; exact effWrite_orig_of_top hf h
  | some cur =>
      rw [hr] at h
      cases cur with
      | vArr xs =>
          cases xs with
          | nil => exact effWrite_orig_of_top hf h
          | cons y ys =>
              cases v with
              | vNull => cases h
              | vBool b => exact effWrite_orig_of_top hf h
              | vNum q => exact effWrite_orig_of_top hf h
              | vStr s => exact effWrite_orig_of_top hf h
              | vDate ms => exact effWrite_orig_of_top hf h
              | vArr zs => exact effWrite_orig_of_top hf h
              | vObj fs => exact effWrite_orig_of_top hf h
      | vNull => cases h
      | vBool b => cases h
      | vNum q => cases h
      | vStr s => cases h
      | vDate ms => cases h
      | vObj fs => cases h

/-- Folding an original-preserving per-field action preserves the original,
also when a later field throws. -/
theorem foldFields_orig {act : EffState → String → JsVal → Except String EffState}
    (hact : ∀ st f v st2, act st f v = Except.ok st2 → st2.orig = st.orig) :
    ∀ st fs, (foldFields act st fs).1.orig = st.orig := by
  intro st fs
  induction fs generalizing st with
  | nil => rfl
  | cons p rest ih =>
      unfold foldFields
      cases hstep : act st p.1 p.2 with
      | ok st2 => simpa [hstep, ih st2] using hact st p.1 p.2 st2 hstep
      | error e => simp [hstep]

/-- Folding a per-field action that preserves the original on every listed
field preserves the original, also when a later field throws. -/
theorem foldFields_orig_mem {act : EffState → String → JsVal → Except String EffState} :
    ∀ (fs : List (String × JsVal)) (st : EffState),
      (∀ p ∈ fs, ∀ st1 st2, act st1 p.1 p.2 = Except.ok st2 → st2.orig = st1.orig) →
      (foldFields act st fs).1.orig = st.orig := by
  intro fs
  induction fs with
  | nil => intro st _; rfl
  | cons p rest ih =>
      intro st hmem
      unfold foldFields
      cases hstep : act st p.1 p.2 with
      | ok st2 =>
          have h1 : st2.orig = st.orig :=
            hmem p (List.mem_cons_self p rest) st st2 hstep
          have h2 : (foldFields act st2 rest).1.orig = st2.orig :=
            ih st2 fun q hq => hmem q (List.mem_cons_of_mem p hq)
          simpa [h2] using h1
      | error e => simp

/-- The argument-entry fold of a safe structured operator preserves the
stored original: every listed field is top-level and the action only
reassigns top-level fields of the copy. -/
theorem withEntries_orig {st : EffState} {fields : JsVal}
    {act : EffState → String → JsVal → Except String EffState}
    (hf : safeOpFields fields = true)
    (hact : ∀ st1 f v st2, pathIsTopLevel f = true → act st1 f v = Except.ok st2 →
      st2.orig = st1.orig) :
    (match jsEntries fields with
     | none => (st, some "TypeError: Object.entries of null")
     | some es => foldFields act st es).1.orig = st.orig := by
  unfold safeOpFields at hf
  cases he : jsEntries fields with
  | none => rw [he] at hf
  | some es =>
      rw [he] at hf
      have hall := (List.all_eq_true).mp hf
      exact foldFields_orig_mem es st fun p hp st1 st2 hok =>
        hact st1 p.1 p.2 st2 (by simpa using hall p hp) hok

/-- One safe operator application preserves the stored original. -/
theorem applyOpEff_orig {rx : Rx} {st : EffState} {op : String} {fields : JsVal}
    (hsafe : (if op = "$set" || op = "$unset" || op = "$inc" || op = "$pull" then
        safeOpFields fields
      else if op = "$push" || op = "$addToSet" then false
      else true) = true) :
    (applyOpEff rx st op fields).1.orig = st.orig := by
  by_cases h1 : (op = "$set" || op = "$unset" || op = "$inc" || op = "$pull") = true
  · rw [if_pos h1] at hsafe
    rcases (by simpa using h1 :
        ((op = "$set" ∨ op = "$unset") ∨ op = "$inc") ∨ op = "$pull")
      with ((h | h) | h) | h <;> subst h
    · exact withEntries_orig hsafe fun st1 f v st2 ht hok => effWrite_orig_of_top ht hok
    · exact withEntries_orig hsafe fun st1 f v st2 ht hok => effDelete_orig_of_top ht hok
    · exact withEntries_orig hsafe fun st1 f v st2 ht hok => effInc_orig_of_top ht hok
    · exact withEntries_orig hsafe fun st1 f v st2 ht hok => effPull_orig_of_top ht hok
  · rw [if_neg h1] at hsafe
    by_cases h2 : (op = "$push" || op = "$addToSet") = true
    · rw [if_pos h2] at hsafe; cases hsafe
    · obtain ⟨⟨⟨hs, hu2⟩, hi⟩, hp2⟩ :=
        (by simpa using h1 : ((¬op = "$set" ∧ ¬op = "$unset") ∧ ¬op = "$inc") ∧ ¬op = "$pull")
      obtain ⟨hps, hat⟩ := (by simpa using h2 : ¬op = "$push" ∧ ¬op = "$addToSet")
      simp only [applyOpEff, if_neg hs, if_neg hu2, if_neg hi, if_neg hps, if_neg hp2,
        if_neg hat]
      by_cases h3 : strStartsWith op "$" = true
      · rw [if_pos h3]
      · rw [if_neg h3]

/-- A safe operator list preserves the stored original end to end. -/
theorem applyUpdateOps_orig {rx : Rx} :
    ∀ (update : List (String × JsVal)) (st : EffState), updateSafeOps update = true →
      (applyUpdateOps rx st update).1.orig = st.orig := by
  intro update
  induction update with
  | nil => intro st _; rfl
  | cons p rest ih =>
      intro st hsafe
      rw [show updateSafeOps (p :: rest) =
        ((if p.1 = "$set" || p.1 = "$unset" || p.1 = "$inc" || p.1 = "$pull" then
            safeOpFields p.2
          else if p.1 = "$push" || p.1 = "$addToSet" then false
          else true) && updateSafeOps rest) from rfl] at hsafe
      simp only [Bool.and_eq_true] at hsafe
      obtain ⟨hp, hrest⟩ := hsafe
      unfold applyUpdateOps
      cases hstep : applyOpEff rx st p.1 p.2 with
      | mk st2 oe =>
          have h2 : st2.orig = st.orig := by
            have := @applyOpEff_orig rx st p.1 p.2 hp
            rw [hstep] at this
            exact this
          cases oe with
          | none => rw [ih st2 hrest]; exact h2
          | some e => exact h2

/-- Writing back the element a slot already holds leaves the list as it
was. -/
theorem list_set_self {α : Type} :
    ∀ (l : List α) (i : Nat) (x : α), l[i]? = some x → l.set i x = l := by
  intro l
  induction l with
  | nil => intro i x h; cases h
  | cons y t ih =>
      intro i x h
      cases i with
      | zero => simp only [List.getElem?_cons_zero, Option.some.injEq] at h; simp [h]
      | succ j =>
          simp only [List.getElem?_cons_succ] at h
          simp [List.set, ih j x h]

/-- C2, amended: the rebuild of `_applyUpdate` is atomic as long as every
operator of the update description is one of `$set`/`$unset`/`$inc`/`$pull`
addressing only top-level (dot-free) fields, an ignored unknown dollar
operator, or a direct field update: every write is then a reassignment on
the shallow copy, so the stored document is untouched until the copy
replaces it, and a throwing `updateOne` leaves the collection state exactly
as it was.  (With `$push`/`$addToSet` or dotted paths the claimed atomicity
fails, per the counterexample.) -/
theorem c2_amended (rx : Rx) (doc update : List (String × JsVal))
    (h : updateSafeOps update = true) :
    mutatedOriginal rx doc update = doc ∧
    ∀ st q now st2 e, updateOneSt rx st q update now = (st2, Except.error e) → st2 = st := by
  have horig : ∀ d : List (String × JsVal), mutatedOriginal rx d update = d := fun d =>
    applyUpdateOps_orig update (effInit d) h
  refine ⟨horig doc, ?_⟩
  intro st q now st2 e hrun
  unfold updateOneSt at hrun
  cases hfo : findOneDoc rx st q with
  | none =>
      simp only [hfo] at hrun
      injection hrun with ha hb
      exact Except.noConfusion hb
  | some dfound =>
      simp only [hfo] at hrun
      cases hidx : st.data.findIdx? fun d => jsStrictEq (propGet d "_id") (propGet dfound "_id") with
      | none =>
          simp only [hidx] at hrun
          injection hrun with ha hb
          exact Except.noConfusion hb
      | some i =>
          simp only [hidx] at hrun
          cases hdoc : st.data[i]? with
          | none => simp only [hdoc] at hrun; injection hrun with ha hb; exact ha.symm
          | some d =>
              simp only [hdoc] at hrun
              cases d with
              | vObj fs =>
                  cases happ : applyUpdateEff rx fs update with
                  | mk eff oe =>
                      cases oe with
                      | none =>
                          simp only [happ] at hrun
                          injection hrun with ha hb
                          exact Except.noConfusion hb
                      | some e2 =>
                          simp only [happ] at hrun
                          injection hrun with ha hb
                          have hor : eff.orig = fs := by
                            have := horig fs
                            unfold mutatedOriginal at this
                            rw [happ] at this
                            exact this
                          rw [← ha, hor]
                          have hset : st.data.set i (vObj fs) = st.data :=
                            list_set_self st.data i (vObj fs) hdoc
                          simp [hset]
              | vNull => simp only [hdoc] at hrun; injection hrun with ha hb; exact ha.symm
              | vBool b => simp only [hdoc] at hrun; injection hrun with ha hb; exact ha.symm
              | vNum n => simp only [hdoc] at hrun; injection hrun with ha hb; exact ha.symm
              | vStr s => simp only [hdoc] at hrun; injection hrun with ha hb; exact ha.symm
              | vDate ms => simp only [hdoc] at hrun; injection hrun with ha hb; exact ha.symm
              | vArr xs => simp only [hdoc] at hrun; injection hrun with ha hb; exact ha.symm

/-- C2, witness: a concrete safe update (`$set` on the top-level field
`score`) leaves the stored document object untouched. -/
theorem c2_amended_witness :
    updateSafeOps [("$set", vObj [("score", vNum 7)])] = true ∧
    mutatedOriginal rxNone [("_id", vStr "w"), ("score", vNum 1)]
      [("$set", vObj [("score", vNum 7)])] = [("_id", vStr "w"), ("score", vNum 1)] :=
  ⟨rfl, (c2_amended rxNone [("_id", vStr "w"), ("score", vNum 1)]
    [("$set", vObj [("score", vNum 7)])] rfl).1⟩

/-- C3, counterexample: with a unique index on `u` and a document holding
`u = 1`, the batch `insertMany([{u:2},{u:1}])` throws on its second element,
but the first element stays inserted: the count goes from 1 to 2 even
though the call failed — an `insertMany` batch is not atomic. -/
theorem c3_counterexample :
    c3State1.data.length = 1 ∧ c3Batch.2.isOk = false ∧ c3Batch.1.data.length = 2 :=
  ⟨rfl, rfl, rfl⟩

/-- Strict equality between present values holds exactly for equal
primitives (objects are distinct references in the tree-shaped heap). -/
theorem jsStrictEq_some_iff {a b : JsVal} :
    jsStrictEq (some a) (some b) = true ↔ a = b ∧ isPrimVal a = true := by
  cases a <;> cases b <;> simp [jsStrictEq, isPrimVal]

/-- Key lookup after a bucket append: the sought value is found exactly when
it is the appended key or was present before. -/
theorem bucketGet_bucketAdd_isSome {m : List (JsVal × List (Option JsVal))} {w v : JsVal}
    {id : Option JsVal} :
    (bucketGet (bucketAdd m w id) v).isSome =
      (jsStrictEq (some w) (some v) || (bucketGet m v).isSome) := by
  induction m with
  | nil =>
      by_cases h : jsStrictEq (some w) (some v) = true <;> simp [bucketAdd, bucketGet, h]
  | cons p rest ih =>
      obtain ⟨k, ids⟩ := p
      by_cases hkw : jsStrictEq (some k) (some w) = true
      · obtain ⟨hk, hprim⟩ := jsStrictEq_some_iff.mp hkw
        subst hk
        simp [bucketAdd, bucketGet, hkw]
        by_cases hkv : jsStrictEq (some k) (some v) = true
        · simp [hkv]
        · simp [hkv]
      · simp only [bucketAdd, hkw, Bool.false_eq_true, if_false, bucketGet]
        by_cases hkv : jsStrictEq (some k) (some v) = true
        · simp [hkv]
        · simp [hkv, ih, Bool.or_comm]

/-- A value is found in a rebuilt field index exactly when some document of
the collection holds a strictly equal value at the field. -/
theorem bucketGet_rebuild_isSome {data : List JsVal} {f : String} {v : JsVal} :
    (bucketGet (rebuildFieldIndex data f) v).isSome =
      data.any fun d => jsStrictEq (getNested d f) (some v) := by
  have aux : ∀ (l : List JsVal) (m : List (JsVal × List (Option JsVal))),
      (bucketGet (l.foldl
        (fun m doc =>
          match getNested doc f with
          | some value => bucketAdd m value (propGet doc "_id")
          | none => m)
        m) v).isSome =
      ((bucketGet m v).isSome || l.any fun d => jsStrictEq (getNested d f) (some v)) := by
    intro l
    induction l with
    | nil => simp
    | cons d rest ih =>
        intro m
        simp only [List.foldl_cons, List.any_cons]
        cases hg : getNested d f with
        | none => simp [ih, hg, jsStrictEq]
        | some w =>
            rw [ih]
            simp [bucketGet_bucketAdd_isSome, hg]
            rw [Bool.or_comm (jsStrictEq (some w) (some v)), Bool.or_assoc]
  simpa using aux data []

/-- When some unique index already holds the (defined) value of the new
document on its field, the duplicate scan reports a violation. -/
theorem dupViolation_isSome {indexes : List (String × IndexInfo)} {newDoc : JsVal}
    {f : String} {info : IndexInfo} {v : JsVal}
    (hlk : lookupIndex indexes f = some info) (hu : info.unique = true)
    (hval : getNested newDoc f = some v) (hbk : (bucketGet info.data v).isSome = true) :
    (dupViolation indexes newDoc).isSome = true := by
  induction indexes with
  | nil => cases hlk
  | cons p rest ih =>
      obtain ⟨g, ig⟩ := p
      by_cases hgf : g = f
      · subst hgf
        have hig : ig = info := by simpa [lookupIndex] using hlk
        subst hig
        simp [dupViolation, hu, hval, hbk]
      · simp only [lookupIndex, if_neg hgf] at hlk
        unfold dupViolation
        cases hgu : ig.unique with
        | false => simpa [hgu] using ih hlk
        | true =>
            cases hgn : getNested newDoc g with
            | none => simpa [hgu, hgn] using ih hlk
            | some w =>
                cases hbg : bucketGet ig.data w with
                | some ids => simp [hgu, hgn, hbg]
                | none => simpa [hgu, hgn, hbg] using ih hlk

/-- A map that fixes a list fixes each of its members. -/
theorem map_fixpoint_mem {α : Type} {g : α → α} :
    ∀ {l : List α}, l.map g = l → ∀ a ∈ l, g a = a := by
  intro l
  induction l with
  | nil => intro _ a ha; cases ha
  | cons x t ih =>
      intro hfix a ha
      simp only [List.map_cons, List.cons.injEq] at hfix
      cases ha with
      | head => exact hfix.1
      | tail _ hm => exact ih hfix.2 a hm

/-- Assoc lookup only returns entries of the list. -/
theorem lookupIndex_mem {l : List (String × IndexInfo)} {f : String} {info : IndexInfo} :
    lookupIndex l f = some info → (f, info) ∈ l := by
  induction l with
  | nil => intro h; cases h
  | cons p t ih =>
      obtain ⟨k, i⟩ := p
      intro h
      unfold lookupIndex at h
      by_cases hk : k = f
      · rw [if_pos hk] at h
        injection h with h2
        subst h2
        subst hk
        exact List.Mem.head t
      · rw [if_neg hk] at h
        exact List.mem_cons_of_mem (k, i) (ih h)

/-- In a state whose indexes are a fixpoint of rebuilding, a registered
index holds exactly the rebuilt bucket map of its field. -/
theorem lookupIndex_data_of_fixpoint {st : CollState} {f : String} {info : IndexInfo}
    (hfix : rebuildIndexes st = st) (hlk : lookupIndex st.indexes f = some info) :
    info.data = rebuildFieldIndex st.data f := by
  have hmap : st.indexes.map
      (fun fi => (fi.1, IndexInfo.mk fi.2.unique (rebuildFieldIndex st.data fi.1))) =
      st.indexes := congrArg CollState.indexes hfix
  have hmem := lookupIndex_mem hlk
  have := map_fixpoint_mem hmap (f, info) hmem
  have h2 := congrArg Prod.snd this
  simp only at h2
  exact (congrArg IndexInfo.data h2).symm

/-- C3, amended: a single `insertOne` whose new document carries, on a
uniquely-indexed field, a value strictly equal to one already held by a
stored document, fails with a duplicate-key error and leaves the collection
state exactly unchanged — the check precedes the append and every index
update.  (The batch form is not atomic, per the counterexample.) -/
theorem c3_amended (st : CollState) (doc : List (String × JsVal)) (newId : String)
    (now : Int) (f : String) (info : IndexInfo) (v : JsVal) (d : JsVal)
    (hfix : rebuildIndexes st = st)
    (hlk : lookupIndex st.indexes f = some info)
    (hu : info.unique = true)
    (hval : getNested (vObj (mkNewDoc doc newId now)) f = some v)
    (hd : d ∈ st.data)
    (heq : jsStrictEq (getNested d f) (some v) = true) :
    (insertOneSt st doc newId now).1 = st ∧ (insertOneSt st doc newId now).2.isOk = false := by
  have hbk : (bucketGet info.data v).isSome = true := by
    rw [lookupIndex_data_of_fixpoint hfix hlk, bucketGet_rebuild_isSome]
    exact List.any_eq_true.mpr ⟨d, hd, heq⟩
  have hdup : (dupViolation st.indexes (vObj (mkNewDoc doc newId now))).isSome = true :=
    dupViolation_isSome hlk hu hval hbk
  obtain ⟨g, hg⟩ := Option.isSome_iff_exists.mp hdup
  constructor
  · simp [insertOneSt, hg]
  · simp [insertOneSt, hg, Except.isOk, Except.toBool]

/-- C3, witness: the concrete duplicate insert on the `u`-indexed collection
is rejected with the state unchanged. -/
theorem c3_amended_witness :
    (insertOneSt c3State1 [("u", vNum 1)] "650000050000000000000009" 5).1 = c3State1 ∧
    (insertOneSt c3State1 [("u", vNum 1)] "650000050000000000000009" 5).2.isOk = false :=
  c3_amended c3State1 [("u", vNum 1)] "650000050000000000000009" 5 "u"
    (IndexInfo.mk true [(vNum 1, [some (vStr "650000020000000000000001")])]) (vNum 1)
    (vObj [("_id", vStr "650000020000000000000001"), ("u", vNum 1),
           ("createdAt", vDate 0), ("updatedAt", vDate 0)])
    rfl rfl rfl rfl (List.Mem.head _) rfl

/-- C4, counterexample: after inserting documents with ids `ida` and `idb`,
`updateOne({_id:"idb"}, {$set:{_id:"ida"}})` goes through without any
uniqueness check, leaving two documents that carry the same `_id`. -/
theorem c4_counterexample :
    c4Final.data.map (fun d => propGet d "_id") = [some (vStr "ida"), some (vStr "ida")] ∧
    (match c4Final.data with
     | [a, b] => jsStrictEq (propGet a "_id") (propGet b "_id")
     | _ => false) = true :=
  ⟨rfl, rfl⟩

/-- Folding list appends of per-element contributions is the flattened map. -/
theorem foldl_append_flatten {α β : Type} (g : α → List β) :
    ∀ (l : List α) (acc : List β),
      l.foldl (fun errs x => errs ++ g x) acc = acc ++ (l.map g).flatten := by
  intro l
  induction l with
  | nil => intro acc; simp
  | cons x t ih => intro acc; simp [ih, List.append_assoc]

/-- The validation error list is the concatenation of every field's
violations, in schema order. -/
theorem validateDoc_eq_flatten (rxm : String → String → Bool) (dp : JsVal → Bool)
    (schema : List (String × FieldRules)) (doc : List (String × JsVal)) :
    validateDoc rxm dp schema doc =
      (schema.map fun p => validateField rxm dp p.1 p.2 (getField doc p.1)).flatten := by
  unfold validateDoc
  simpa using foldl_append_flatten
    (fun p : String × FieldRules => validateField rxm dp p.1 p.2 (getField doc p.1)) schema []

/-- C6: `Model.create` evaluates every schema field rule on the prepared
document and, when any violation exists, fails with the single aggregate
error that carries the violations of every field (no early exit), doing so
before `insertOne` runs: the collection state it returns is exactly the one
it was given. -/
theorem c6_create_aggregate_validation (rxm : String → String → Bool) (dp : JsVal → Bool)
    (schema : List (String × FieldRules))
    (preSave : List (List (String × JsVal) → List (String × JsVal)))
    (st : CollState) (data : List (String × JsVal)) (newId : String) (now : Int) :
    (∀ p ∈ schema,
      validateField rxm dp p.1 p.2 (getField (createPrepared schema preSave data) p.1) ⊆
        validateDoc rxm dp schema (createPrepared schema preSave data)) ∧
    (validateDoc rxm dp schema (createPrepared schema preSave data) ≠ [] →
      createSt rxm dp schema preSave st data newId now =
        (st, CreateResult.validationError
          (validateDoc rxm dp schema (createPrepared schema preSave data)))) := by
  constructor
  · intro p hp e he
    rw [validateDoc_eq_flatten]
    exact List.mem_flatten.mpr
      ⟨validateField rxm dp p.1 p.2 (getField (createPrepared schema preSave data) p.1),
       List.mem_map_of_mem _ hp, he⟩
  · intro hne
    unfold createSt
    rw [if_neg (by simpa [List.isEmpty_iff] using hne)]
    rfl

/-- C6, witness: a document missing the required `name` and carrying a
string `age` is rejected with both violations aggregated, and the empty
collection state is returned unchanged. -/
theorem c6_witness :
    createSt (fun _ _ => true) (fun _ => true) c6Schema [] ⟨[], []⟩
      [("age", vStr "x")] "650000060000000000000000" 0 =
      (⟨[], []⟩, CreateResult.validationError
        [("name", "name is required"), ("age", "age must be of type Number")]) :=
  (c6_create_aggregate_validation (fun _ _ => true) (fun _ => true) c6Schema [] ⟨[], []⟩
    [("age", vStr "x")] "650000060000000000000000" 0).2 (by decide)

/-- One unfolding step of the matcher on an object query. -/
theorem matchDocF_obj_succ (rx : Rx) (fuel : Nat) (d : JsVal) (es : List (String × JsVal)) :
    matchDocF rx (fuel + 1) d (vObj es) = matchEntriesF rx fuel d es :=
  rfl

/-- One unfolding step of the entry conjunction. -/
theorem matchEntriesF_succ (rx : Rx) (fuel : Nat) (d : JsVal) (es : List (String × JsVal)) :
    matchEntriesF rx (fuel + 1) d es = es.all fun fc => matchEntryF rx fuel d fc.1 fc.2 :=
  rfl

/-- A satisfied entry with a primitive condition is a satisfied strict
equality on the field (a primitive under `$or`/`$and` can never satisfy the
entry). -/
theorem matchEntryF_prim_succ {rx : Rx} {fuel : Nat} {d : JsVal} {f : String} {c : JsVal}
    (hprim : isIndexablePrim c = true)
    (h : matchEntryF rx (fuel + 1) d f c = true) :
    jsStrictEq (getNested d f) (some c) = true := by
  by_cases hor : f = "$or"
  · cases c <;> simp [matchEntryF, hor, isIndexablePrim, JsVal.typeofObject] at h hprim ⊢
  · by_cases hand : f = "$and"
    · cases c <;> simp [matchEntryF, hor, hand, isIndexablePrim, JsVal.typeofObject] at h hprim ⊢
    · cases c <;>
        simp [matchEntryF, hor, hand, isIndexablePrim, JsVal.typeofObject] at h hprim ⊢ <;>
        exact h

/-- The entry `findIndexableEntry` selects is an entry of the query, its
literal is primitive, and its field is registered. -/
theorem findIndexableEntry_spec {indexes : List (String × IndexInfo)} :
    ∀ {q : List (String × JsVal)} {f : String} {v : JsVal} {info : IndexInfo},
      findIndexableEntry indexes q = some (f, v, info) →
      (f, v) ∈ q ∧ isIndexablePrim v = true ∧ lookupIndex indexes f = some info := by
  intro q
  induction q with
  | nil => intro f v info h; cases h
  | cons p rest ih =>
      intro f v info h
      obtain ⟨g, w⟩ := p
      unfold findIndexableEntry at h
      by_cases hw : isIndexablePrim w = true
      · rw [if_pos hw] at h
        cases hlki : lookupIndex indexes g with
        | some ig =>
            rw [hlki] at h
            injection h with h2
            cases h2
            exact ⟨List.Mem.head rest, hw, hlki⟩
        | none =>
            rw [hlki] at h
            obtain ⟨hm, hp2, hl⟩ := ih h
            exact ⟨List.mem_cons_of_mem _ hm, hp2, hl⟩
      · rw [if_neg hw] at h
        obtain ⟨hm, hp2, hl⟩ := ih h
        exact ⟨List.mem_cons_of_mem _ hm, hp2, hl⟩

/-- Strict-equality reflexivity for documents with primitive (or absent)
ids. -/
theorem jsStrictEq_refl_of_primId {d : JsVal} (h : primId d = true) :
    jsStrictEq (propGet d "_id") (propGet d "_id") = true := by
  unfold primId at h
  cases hid : propGet d "_id" with
  | none => rfl
  | some v => rw [hid] at h; cases v <;> simp [jsStrictEq] at h ⊢

/-- Appending to a bucket map never loses a bucket member. -/
theorem bucketGet_bucketAdd_mono {m : List (JsVal × List (Option JsVal))} {v w : JsVal}
    {id x : Option JsVal} {ids : List (Option JsVal)}
    (h : bucketGet m v = some ids) (hx : x ∈ ids) :
    ∃ ids2, bucketGet (bucketAdd m w id) v = some ids2 ∧ x ∈ ids2 := by
  induction m with
  | nil => cases h
  | cons p rest ih =>
      obtain ⟨k, kids⟩ := p
      by_cases hkw : jsStrictEq (some k) (some w) = true
      · by_cases hkv : jsStrictEq (some k) (some v) = true
        · refine ⟨kids ++ [id], ?_, ?_⟩
          · simp [bucketAdd, bucketGet, hkw, hkv]
          · simp only [bucketGet, hkv, if_pos, Option.some.injEq] at h
            exact List.mem_append_left _ (h ▸ hx)
        · simp only [bucketGet, hkv, Bool.false_eq_true, if_false] at h
          refine ⟨ids, ?_, hx⟩
          simp [bucketAdd, bucketGet, hkw, hkv, h]
      · by_cases hkv : jsStrictEq (some k) (some v) = true
        · simp only [bucketGet, hkv, if_pos, Option.some.injEq] at h
          refine ⟨kids, ?_, h ▸ hx⟩
          simp [bucketAdd, bucketGet, hkw, hkv]
        · simp only [bucketGet, hkv, Bool.false_eq_true, if_false] at h
          obtain ⟨ids2, h1, h2⟩ := ih h
          refine ⟨ids2, ?_, h2⟩
          simp [bucketAdd, bucketGet, hkw, hkv, h1]

/-- After appending under a key strictly equal to the sought value, the
bucket of that value contains the appended id. -/
theorem bucketGet_bucketAdd_self {m : List (JsVal × List (Option JsVal))} {v w : JsVal}
    {id : Option JsVal} (hwv : jsStrictEq (some w) (some v) = true) :
    ∃ ids, bucketGet (bucketAdd m w id) v = some ids ∧ id ∈ ids := by
  induction m with
  | nil => exact ⟨[id], by simp [bucketAdd, bucketGet, hwv], List.Mem.head _⟩
  | cons p rest ih =>
      obtain ⟨k, kids⟩ := p
      by_cases hkw : jsStrictEq (some k) (some w) = true
      · have hkv : jsStrictEq (some k) (some v) = true := by
          obtain ⟨h1, h2⟩ := jsStrictEq_some_iff.mp hkw
          obtain ⟨h3, _⟩ := jsStrictEq_some_iff.mp hwv
          exact jsStrictEq_some_iff.mpr ⟨h1.trans h3, h2⟩
        exact ⟨kids ++ [id], by simp [bucketAdd, bucketGet, hkw, hkv],
          List.mem_append_right _ (List.Mem.head _)⟩
      · have hkv : jsStrictEq (some k) (some v) = false := by
          by_contra hc
          obtain ⟨h1, h2⟩ := jsStrictEq_some_iff.mp (by simpa using hc)
          obtain ⟨h3, h4⟩ := jsStrictEq_some_iff.mp hwv
          exact absurd (jsStrictEq_some_iff.mpr ⟨h1.trans h3.symm, h2⟩) (by simp [hkw])
        obtain ⟨ids, h1, h2⟩ := ih
        exact ⟨ids, by simp [bucketAdd, bucketGet, hkw, hkv, h1], h2⟩

/-- A document whose field value is strictly equal to the sought value
contributes its id to the rebuilt bucket of that value. -/
theorem bucketGet_rebuild_mem {data : List JsVal} {f : String} {v : JsVal} {d : JsVal}
    (hd : d ∈ data) (heq : jsStrictEq (getNested d f) (some v) = true) :
    ∃ ids, bucketGet (rebuildFieldIndex data f) v = some ids ∧ propGet d "_id" ∈ ids := by
  obtain ⟨w, hw⟩ : ∃ w, getNested d f = some w := by
    cases hg : getNested d f with
    | none => rw [hg] at heq; cases heq
    | some w => exact ⟨w, rfl⟩
  rw [hw] at heq
  have aux : ∀ (l : List JsVal) (m : List (JsVal × List (Option JsVal))),
      ((∃ ids, bucketGet m v = some ids ∧ propGet d "_id" ∈ ids) ∨ d ∈ l) →
      ∃ ids, bucketGet (l.foldl
        (fun m doc =>
          match getNested doc f with
          | some value => bucketAdd m value (propGet doc "_id")
          | none => m) m) v = some ids ∧ propGet d "_id" ∈ ids := by
    intro l
    induction l with
    | nil =>
        intro m h
        cases h with
        | inl h => simpa using h
        | inr h => cases h
    | cons x rest ih =>
        intro m h
        simp only [List.foldl_cons]
        cases h with
        | inl h =>
            obtain ⟨ids, h1, h2⟩ := h
            cases hgx : getNested x f with
            | none => exact ih m (Or.inl ⟨ids, h1, h2⟩)
            | some wx =>
                obtain ⟨ids2, h3, h4⟩ :=
                  @bucketGet_bucketAdd_mono _ _ wx (propGet x "_id") _ _ h1 h2
                exact ih _ (Or.inl ⟨ids2, h3, h4⟩)
        | inr h =>
            cases h with
            | head =>
                rw [hw]
                exact ih _ (Or.inl (bucketGet_bucketAdd_self heq))
            | tail _ hm =>
                cases hgx : getNested x f with
                | none => exact ih m (Or.inr hm)
                | some wx => exact ih _ (Or.inr hm)
  exact aux data [] (Or.inr hd)

/-- C5: the query evaluator returns exactly the documents satisfying the
filter, in insertion order, whether or not the filter is routed through an
index: with indexes consistent with the data (a fixpoint of rebuilding),
documents carrying primitive ids, and a well-formed filter, narrowing
through the index and re-filtering equals the unindexed full scan. -/
theorem c5_indexed_query_eq_scan (rx : Rx) (st : CollState) (q : List (String × JsVal))
    (hwf : queryWFEntries q = true)
    (hfix : rebuildIndexes st = st)
    (hids : st.data.all primId = true) :
    matchQuery rx st q = st.data.filter fun d => matchDocument rx d (vObj q) := by
  unfold matchQuery
  by_cases hq : q.isEmpty
  · rw [if_pos hq]
    cases q with
    | nil =>
        have hall : ∀ d ∈ st.data, matchDocument rx d (vObj []) = true := fun d _ => rfl
        exact (List.filter_eq_self.mpr hall).symm
    | cons p rest => simp [List.isEmpty] at hq
  · rw [if_neg hq]
    cases hfind : findIndexableEntry st.indexes q with
    | none => rfl
    | some fvinfo =>
        obtain ⟨f, v, info⟩ := fvinfo
        obtain ⟨hmem, hprim, hlk⟩ := findIndexableEntry_spec hfind
        dsimp only
        rw [List.filter_filter]
        refine List.filter_congr ?_
        intro d hd
        cases hm : matchDocument rx d (vObj q) with
        | false => simp
        | true =>
            have hentry : jsStrictEq (getNested d f) (some v) = true := by
              have h1 : matchDocF rx (4 * qsize (vObj q) + 4) d (vObj q) = true := hm
              rw [show 4 * qsize (vObj q) + 4 = (4 * qsize (vObj q) + 3) + 1 from rfl,
                matchDocF_obj_succ,
                show 4 * qsize (vObj q) + 3 = (4 * qsize (vObj q) + 2) + 1 from rfl,
                matchEntriesF_succ] at h1
              have h2 := (List.all_eq_true.mp h1) (f, v) hmem
              exact matchEntryF_prim_succ hprim h2
            rw [lookupIndex_data_of_fixpoint hfix hlk] at *
            obtain ⟨ids, hbkt, hin⟩ := bucketGet_rebuild_mem hd hentry
            have hrefl : jsStrictEq (propGet d "_id") (propGet d "_id") = true :=
              jsStrictEq_refl_of_primId ((List.all_eq_true.mp hids) d hd)
            have hany : ((bucketGet (rebuildFieldIndex st.data f) v).getD []).any
                (fun idv => jsStrictEq idv (propGet d "_id")) = true := by
              rw [hbkt]
              exact List.any_eq_true.mpr ⟨propGet d "_id", hin, hrefl⟩
            simp [hany]

/-- C5, witness: on the concrete `u`-indexed collection, the indexed query
`{u: 1, createdAt: {$exists: true}}` equals its full scan. -/
theorem c5_witness :
    matchQuery rxNone c3State1 [("u", vNum 1), ("createdAt", vObj [("$exists", vBool true)])] =
      c3State1.data.filter fun d =>
        matchDocument rxNone d
          (vObj [("u", vNum 1), ("createdAt", vObj [("$exists", vBool true)])]) :=
  c5_indexed_query_eq_scan rxNone c3State1
    [("u", vNum 1), ("createdAt", vObj [("$exists", vBool true)])] rfl rfl rfl

/-- Comparing a JS value with itself is an exact tie or incomparable. -/
theorem jsCompare_self (a : JsVal) :
    jsCompare a a = some Ordering.eq ∨ jsCompare a a = none := by
  cases a with
  | vStr s => left; simpa [jsCompare] using compare_eq_iff_eq.mpr rfl
  | vNull => left; simpa [jsCompare, toNumQ] using compare_eq_iff_eq.mpr rfl
  | vBool b => left; simpa [jsCompare, toNumQ] using compare_eq_iff_eq.mpr rfl
  | vNum q => left; simpa [jsCompare, toNumQ] using compare_eq_iff_eq.mpr rfl
  | vDate ms => left; simpa [jsCompare, toNumQ] using compare_eq_iff_eq.mpr rfl
  | vArr xs => right; simp [jsCompare, toNumQ]
  | vObj fs => right; simp [jsCompare, toNumQ]

/-- No field value is strictly below itself. -/
theorem jsLtOO_self (v : Option JsVal) : jsLtOO v v = false := by
  cases v with
  | none => rfl
  | some a =>
      cases jsCompare_self a with
      | inl h => simp only [jsLtOO, h]; rfl
      | inr h => simp only [jsLtOO, h]; rfl

/-- No field value is strictly above itself. -/
theorem jsGtOO_self (v : Option JsVal) : jsGtOO v v = false := by
  cases v with
  | none => rfl
  | some a =>
      cases jsCompare_self a with
      | inl h => simp only [jsGtOO, h]; rfl
      | inr h => simp only [jsGtOO, h]; rfl

/-- Documents with equal values on every sort key compare as a full tie. -/
theorem cmpDocs_zero_of_keys_eq {a b : JsVal} :
    ∀ {spec : List (String × ℚ)},
      (∀ p ∈ spec, getNested a p.1 = getNested b p.1) → cmpDocs spec a b = 0 := by
  intro spec
  induction spec with
  | nil => intro _; rfl
  | cons p rest ih =>
      intro h
      have hk : getNested a p.1 = getNested b p.1 := h p (List.Mem.head rest)
      unfold cmpDocs
      rw [← hk]
      simp only [jsLtOO_self, jsGtOO_self, Bool.false_eq_true, if_false]
      exact ih fun q hq => h q (List.mem_cons_of_mem p hq)

/-- Inserting an element of the class puts it directly before the class
members already present, when it does not compare strictly after any class
member. -/
theorem filter_stableInsert_pos {cmp : JsVal → JsVal → ℚ} {x : JsVal} {P : JsVal → Bool}
    (hx : P x = true) (h : ∀ y, P y = true → cmp x y ≤ 0) :
    ∀ l, (stableInsert cmp x l).filter P = x :: l.filter P := by
  intro l
  induction l with
  | nil => simp [stableInsert, hx]
  | cons y ys ih =>
      unfold stableInsert
      by_cases hc : cmp x y ≤ 0
      · rw [if_pos hc]
        simp [List.filter_cons, hx]
      · rw [if_neg hc]
        have hPy : P y = false := by
          cases hPy : P y with
          | true => exact absurd (h y hPy) hc
          | false => rfl
        simp [List.filter_cons, hPy, ih]

/-- Inserting an element outside the class leaves the class subsequence as
it was. -/
theorem filter_stableInsert_neg {cmp : JsVal → JsVal → ℚ} {x : JsVal} {P : JsVal → Bool}
    (hx : P x = false) :
    ∀ l, (stableInsert cmp x l).filter P = l.filter P := by
  intro l
  induction l with
  | nil => simp [stableInsert, hx]
  | cons y ys ih =>
      unfold stableInsert
      by_cases hc : cmp x y ≤ 0
      · rw [if_pos hc]
        simp [List.filter_cons, hx]
      · rw [if_neg hc]
        simp [List.filter_cons, ih]

/-- A stable comparator sort keeps the relative order of any class of
mutually tying elements. -/
theorem stableSortBy_filter {cmp : JsVal → JsVal → ℚ} {P : JsVal → Bool}
    (hP : ∀ a b, P a = true → P b = true → cmp a b = 0) :
    ∀ l, (stableSortBy cmp l).filter P = l.filter P := by
  intro l
  induction l with
  | nil => rfl
  | cons x rest ih =>
      unfold stableSortBy
      cases hx : P x with
      | true =>
          rw [filter_stableInsert_pos hx (fun y hy => le_of_eq (hP x y hx hy)), ih]
          simp [List.filter_cons, hx]
      | false =>
          rw [filter_stableInsert_neg hx, ih]
          simp [List.filter_cons, hx]

/-- C9: `_applySort` is a stable multi-key sort — any two documents with
equal values on every sort key keep their original relative order (stated
through an arbitrary class `P` of documents agreeing on all sort keys) —
and `find` applies `skip` and a nonzero `limit` only after sorting. -/
theorem c9_sort_stable_skip_limit (spec : List (String × ℚ)) (docs : List JsVal)
    (P : JsVal → Bool)
    (hP : ∀ a b, P a = true → P b = true → ∀ p ∈ spec, getNested a p.1 = getNested b p.1) :
    (applySort spec docs).filter P = docs.filter P ∧
    ∀ (rx : Rx) (st : CollState) (q : List (String × JsVal)) (k l : Nat), l ≠ 0 →
      findDocs rx st q { sort := some spec, skip := k, limit := l } =
        ((applySort spec (matchQuery rx st q)).drop k).take l := by
  constructor
  · exact stableSortBy_filter
      (fun a b ha hb => cmpDocs_zero_of_keys_eq (hP a b ha hb)) docs
  · intro rx st q k l hl
    by_cases hk : k = 0
    · simp [findDocs, hk, hl]
    · simp [findDocs, hk, hl]

/-- A value strictly equal to a present primitive is that value. -/
theorem jsStrictEq_some_right {o : Option JsVal} {c : JsVal}
    (h : jsStrictEq o (some c) = true) : o = some c := by
  cases o with
  | none => cases c <;> simp [jsStrictEq] at h
  | some a =>
      obtain ⟨h1, _⟩ := jsStrictEq_some_iff.mp h
      rw [h1]

/-- C9, witness: sorting the concrete three-document list by `s` keeps the
two `s = 1` documents in their original relative order, and a concrete
`find` with sort, skip and limit is the take-drop of the sorted matches. -/
theorem c9_witness :
    (applySort [("s", 1)] c9Docs).filter c9P = c9Docs.filter c9P ∧
    findDocs rxNone ⟨c9Docs, []⟩ [] { sort := some [("s", 1)], skip := 1, limit := 2 } =
      ((applySort [("s", 1)] (matchQuery rxNone ⟨c9Docs, []⟩ [])).drop 1).take 2 := by
  have h := c9_sort_stable_skip_limit [("s", 1)] c9Docs c9P
    (fun a b ha hb p hp => by
      have hp2 := List.eq_of_mem_singleton hp
      subst hp2
      rw [jsStrictEq_some_right ha, jsStrictEq_some_right hb])
  exact ⟨h.1, h.2 rxNone ⟨c9Docs, []⟩ [] 1 2 (by decide)⟩

/-- Setting a field yields that field. -/
theorem getField_setField_self (fs : List (String × JsVal)) (k : String) (v : JsVal) :
    getField (setField fs k v) k = some v := by
  induction fs with
  | nil => simp [setField, getField]
  | cons p rest ih =>
      by_cases hk : p.1 = k
      · obtain ⟨k2, w⟩ := p
        simp only at hk
        simp [setField, hk, getField]
      · obtain ⟨k2, w⟩ := p
        simp only at hk
        simp [setField, hk, getField, ih]

/-- Dropping the head of the embedded list keeps the embedding
(generalised over the embedded list for the induction). -/
theorem IdSub_tail_aux {ds2 l : List JsVal} (h : IdSub ds2 l) :
    ∀ c ds, ds2 = c :: ds → IdSub ds l := by
  induction h with
  | nil l => intro c ds hds; cases hds
  | cons2 hid hsub ih =>
      intro c ds hds
      injection hds with h1 h2
      subst h2
      exact IdSub.cons _ hsub
  | cons x hsub ih => intro c ds hds; exact IdSub.cons x (ih c ds hds)

/-- Dropping the head of the embedded list keeps the embedding. -/
theorem IdSub_tail_left {c : JsVal} {ds l : List JsVal} (h : IdSub (c :: ds) l) :
    IdSub ds l :=
  IdSub_tail_aux h c ds rfl

/-- A sublist of documents with primitive ids embeds by id. -/
theorem IdSub_of_sublist {ds data : List JsVal} (hsub : ds.Sublist data) :
    (∀ d ∈ ds, primId d = true) → IdSub ds data := by
  induction hsub with
  | slnil => intro h; exact IdSub.nil []
  | cons x hs ih => intro hids; exact IdSub.cons x (ih hids)
  | cons₂ x hs ih =>
      intro hids
      refine IdSub.cons2 ?_ (ih fun d hd => hids d (List.mem_cons_of_mem _ hd))
      exact jsStrictEq_refl_of_primId (hids _ (List.Mem.head _))

/-- The head of an embedded list is always found by id in the live array
(generalised over the embedded list for the induction). -/
theorem IdSub_findIdx_aux {ds2 l : List JsVal} (h : IdSub ds2 l) :
    ∀ c ds, ds2 = c :: ds →
      (l.findIdx? fun d => jsStrictEq (propGet d "_id") (propGet c "_id")).isSome = true := by
  induction h with
  | nil l => intro c ds hds; cases hds
  | cons2 hid hsub ih =>
      intro c ds hds
      injection hds with h1 h2
      rw [List.findIdx?_cons]
      rw [if_pos (show jsStrictEq (propGet _ "_id") (propGet c "_id") = true from h1 ▸ hid)]
      rfl
  | cons x hsub ih =>
      intro c ds hds
      rw [List.findIdx?_cons]
      by_cases hp : jsStrictEq (propGet x "_id") (propGet c "_id") = true
      · simp [hp]
      · rw [if_neg hp]
        simpa using ih c ds hds

/-- The head of an embedded list is always found by id in the live array. -/
theorem IdSub_findIdx_isSome {c : JsVal} {ds l : List JsVal} (h : IdSub (c :: ds) l) :
    (l.findIdx? fun d => jsStrictEq (propGet d "_id") (propGet c "_id")).isSome = true :=
  IdSub_findIdx_aux h c ds rfl

/-- Replacing the first id match of the head keeps the tail embedded: the
match sits at or before the position of the head, and the tail is embedded
strictly beyond it. -/
theorem IdSub_set {c y : JsVal} {ds : List JsVal} :
    ∀ {l : List JsVal} {i : Nat}, IdSub (c :: ds) l →
      (l.findIdx? fun d => jsStrictEq (propGet d "_id") (propGet c "_id")) = some i →
      IdSub ds (l.set i y) := by
  intro l
  induction l with
  | nil => intro i h; cases h
  | cons x t ih =>
      intro i h hfind
      rw [List.findIdx?_cons] at hfind
      by_cases hp : jsStrictEq (propGet x "_id") (propGet c "_id") = true
      · rw [if_pos hp] at hfind
        injection hfind with hi
        subst hi
        cases h with
        | cons2 hid hsub => exact IdSub.cons y hsub
        | cons _ hsub => exact IdSub.cons y (IdSub_tail_left hsub)
      · rw [if_neg hp, List.findIdx?_succ] at hfind
        cases hrec : t.findIdx? fun d => jsStrictEq (propGet d "_id") (propGet c "_id") with
        | none => rw [hrec] at hfind; exact Option.noConfusion hfind
        | some j =>
            rw [hrec] at hfind
            injection hfind with hi
            subst hi
            cases h with
            | cons2 hid hsub => exact absurd hid hp
            | cons _ hsub => exact IdSub.cons x (ih hsub hrec)

/-- The `updateMany` loop increments its counter once per matched document:
every matched document is found by id, because its own slot (or an earlier
one with its id) is still present when its turn comes. -/
theorem updateManyLoop_count {rx : Rx} {update : List (String × JsVal)} {now : Int} :
    ∀ (ds data : List JsVal) (m : Nat) {data2 : List JsVal} {r : Nat},
      IdSub ds data →
      updateManyLoop rx update now data ds m = (data2, Except.ok r) →
      r = m + ds.length := by
  intro ds
  induction ds with
  | nil =>
      intro data m data2 r _ hrun
      unfold updateManyLoop at hrun
      injection hrun with _ hb
      injection hb with hr
      simp only [List.length_nil]
      omega
  | cons c rest ih =>
      intro data m data2 r hsub hrun
      unfold updateManyLoop at hrun
      obtain ⟨i, hi⟩ := Option.isSome_iff_exists.mp (IdSub_findIdx_isSome hsub)
      simp only [hi] at hrun
      cases hx : data[i]? with
      | none =>
          simp only [hx] at hrun
          injection hrun with _ hb
          exact Except.noConfusion hb
      | some x =>
          cases x with
          | vObj fs =>
              simp only [hx] at hrun
              cases happ : applyUpdateEff rx fs update with
              | mk eff oe =>
                  cases oe with
                  | none =>
                      simp only [happ] at hrun
                      have := ih _ (m + 1) (IdSub_set hsub hi) hrun
                      simp only [List.length_cons]
                      omega
                  | some e =>
                      simp only [happ] at hrun
                      injection hrun with _ hb
                      exact Except.noConfusion hb
          | vNull => simp only [hx] at hrun; injection hrun with _ hb; exact Except.noConfusion hb
          | vBool b => simp only [hx] at hrun; injection hrun with _ hb; exact Except.noConfusion hb
          | vNum n => simp only [hx] at hrun; injection hrun with _ hb; exact Except.noConfusion hb
          | vStr s2 => simp only [hx] at hrun; injection hrun with _ hb; exact Except.noConfusion hb
          | vDate ms => simp only [hx] at hrun; injection hrun with _ hb; exact Except.noConfusion hb
          | vArr xs => simp only [hx] at hrun; injection hrun with _ hb; exact Except.noConfusion hb

/-- The match list updates work from is a sublist of the live array. -/
theorem matchQuery_sublist (rx : Rx) (st : CollState) (q : List (String × JsVal)) :
    (matchQuery rx st q).Sublist st.data := by
  unfold matchQuery
  cases hq : q.isEmpty with
  | true =>
      rw [if_pos rfl]
  | false =>
      rw [if_neg Bool.false_ne_true]
      cases hfind : findIndexableEntry st.indexes q with
      | none => exact List.filter_sublist st.data
      | some fvinfo =>
          obtain ⟨f, v, info⟩ := fvinfo
          exact (List.filter_sublist _).trans (List.filter_sublist st.data)

/-- `find` with none of sort/skip/limit/projection set is exactly the match
list. -/
theorem findDocs_noopts (rx : Rx) (st : CollState) (q : List (String × JsVal)) :
    findDocs rx st q {} = matchQuery rx st q := rfl

/-- C10: `updateOne` and `updateMany` report `modifiedCount` equal to
`matchedCount` on every call that returns — even when the update changes no
field value — and a successful match in `updateOne` always stamps a fresh
`updatedAt` on the slot it rewrites (documents with primitive ids assumed,
so the source's `===` id lookup finds every matched document). -/
theorem c10_modified_eq_matched (rx : Rx) (st : CollState) (q update : List (String × JsVal))
    (now : Int) (hids : st.data.all primId = true) :
    (∀ st2 r, updateOneSt rx st q update now = (st2, Except.ok r) →
      r.2 = r.1 ∧ (r.1 = 1 → ∃ i fs2, st2.data = st.data.set i (vObj fs2) ∧
        getField fs2 "updatedAt" = some (vDate now))) ∧
    (∀ st2 r, updateManySt rx st q update now = (st2, Except.ok r) → r.2 = r.1) := by
  constructor
  · intro st2 r hrun
    simp only [updateOneSt] at hrun
    cases hfo : findOneDoc rx st q with
    | none =>
        simp only [hfo] at hrun
        injection hrun with h1 h2
        injection h2 with h3
        subst h3
        exact ⟨rfl, fun h => absurd h (by decide)⟩
    | some doc =>
        simp only [hfo] at hrun
        cases hidx : st.data.findIdx? fun d => jsStrictEq (propGet d "_id") (propGet doc "_id") with
        | none =>
            simp only [hidx] at hrun
            injection hrun with h1 h2
            injection h2 with h3
            subst h3
            exact ⟨rfl, fun h => absurd h (by decide)⟩
        | some i =>
            cases hx : st.data[i]? with
            | none =>
                simp only [hidx, hx] at hrun
                injection hrun with h1 h2
                exact Except.noConfusion h2
            | some x =>
                cases x with
                | vObj fs =>
                    simp only [hidx, hx] at hrun
                    cases happ : applyUpdateEff rx fs update with
                    | mk eff oe =>
                        cases oe with
                        | none =>
                            simp only [happ] at hrun
                            injection hrun with h1 h2
                            injection h2 with h3
                            subst h3
                            refine ⟨rfl, fun _ =>
                              ⟨i, setField eff.res "updatedAt" (vDate now), ?_, ?_⟩⟩
                            · rw [← h1]; rfl
                            · exact getField_setField_self _ _ _
                        | some e =>
                            simp only [happ] at hrun
                            injection hrun with h1 h2
                            exact Except.noConfusion h2
                | vNull =>
                    simp only [hidx, hx] at hrun
                    injection hrun with h1 h2; exact Except.noConfusion h2
                | vBool b =>
                    simp only [hidx, hx] at hrun
                    injection hrun with h1 h2; exact Except.noConfusion h2
                | vNum n =>
                    simp only [hidx, hx] at hrun
                    injection hrun with h1 h2; exact Except.noConfusion h2
                | vStr s2 =>
                    simp only [hidx, hx] at hrun
                    injection hrun with h1 h2; exact Except.noConfusion h2
                | vDate ms =>
                    simp only [hidx, hx] at hrun
                    injection hrun with h1 h2; exact Except.noConfusion h2
                | vArr xs =>
                    simp only [hidx, hx] at hrun
                    injection hrun with h1 h2; exact Except.noConfusion h2
  · intro st2 r hrun
    have hsub : IdSub (findDocs rx st q {}) st.data := by
      refine IdSub_of_sublist ?_ ?_
      · rw [findDocs_noopts]; exact matchQuery_sublist rx st q
      · intro d hd
        rw [findDocs_noopts] at hd
        exact (List.all_eq_true.mp hids) d ((matchQuery_sublist rx st q).subset hd)
    simp only [updateManySt] at hrun
    cases hloop : updateManyLoop rx update now st.data (findDocs rx st q {}) 0 with
    | mk data2 res =>
        cases res with
        | error e =>
            simp only [hloop] at hrun
            injection hrun with h1 h2
            exact Except.noConfusion h2
        | ok m =>
            simp only [hloop] at hrun
            have hm := updateManyLoop_count (findDocs rx st q {}) st.data 0 hsub hloop
            by_cases hpos : m > 0
            · rw [if_pos hpos] at hrun
              injection hrun with h1 h2
              injection h2 with h3
              subst h3
              simpa using hm
            · rw [if_neg hpos] at hrun
              injection hrun with h1 h2
              injection h2 with h3
              subst h3
              simpa using hm

/-- C10 witness: two documents already carrying `x = 1` are both matched by
the empty query; the no-op `\x7b$set: \x7bx: 1\x7d\x7d` update still reports
`modifiedCount = matchedCount = 2`. -/
theorem c10_witness :
    (updateManySt rxNone c10St [] c10Upd 7).2 = Except.ok (2, 2) ∧
    ((2, 2) : Nat × Nat).2 = ((2, 2) : Nat × Nat).1 :=
  ⟨rfl, (c10_modified_eq_matched rxNone c10St [] c10Upd 7 rfl).2
    (updateManySt rxNone c10St [] c10Upd 7).1 (2, 2) rfl⟩

/-- Setting one field leaves every other field unchanged. -/
theorem getField_setField_ne (fs : List (String × JsVal)) {k k2 : String} (v : JsVal)
    (h : k ≠ k2) : getField (setField fs k v) k2 = getField fs k2 := by
  induction fs with
  | nil => simp [setField, getField, h]
  | cons p rest ih =>
      obtain ⟨k3, w⟩ := p
      by_cases h3 : k3 = k
      · subst h3
        simp only [setField, if_pos rfl, getField]
        rw [if_neg h, if_neg h]
      · simp only [setField, if_neg h3, getField]
        by_cases h4 : k3 = k2
        · rw [if_pos h4, if_pos h4]
        · rw [if_neg h4, if_neg h4]; exact ih

/-- Deleting one field leaves every other field unchanged. -/
theorem getField_removeField_ne (fs : List (String × JsVal)) {k k2 : String}
    (h : k ≠ k2) : getField (removeField fs k) k2 = getField fs k2 := by
  induction fs with
  | nil => simp [removeField]
  | cons p rest ih =>
      obtain ⟨k3, w⟩ := p
      by_cases h3 : k3 = k
      · subst h3
        have hr : removeField ((k3, w) :: rest) k3 = rest := by
          unfold removeField; rw [if_pos rfl]
        rw [hr]
        simp only [getField]
        rw [if_neg h]
      · simp only [removeField, if_neg h3, getField]
        by_cases h4 : k3 = k2
        · rw [if_pos h4, if_pos h4]
        · rw [if_neg h4, if_neg h4]; exact ih

/-- `undefined === v` is false for a present value. -/
theorem jsStrictEq_none_some (v : JsVal) : jsStrictEq none (some v) = false := by
  cases v <;> rfl

/-- `keepsId` is reflexive. -/
theorem keepsId_refl (a : EffState) : keepsId a a := ⟨rfl, rfl⟩

/-- `keepsId` composes. -/
theorem keepsId_trans {a b c : EffState} (h1 : keepsId a b) (h2 : keepsId b c) : keepsId a c :=
  ⟨h2.1.trans h1.1, h2.2.trans h1.2⟩

/-- `_setNestedValue` through a path not starting at `_id` preserves the
`_id` property of both the copy and the stored document. -/
theorem effWrite_keepsId {st : EffState} {path : String} {x : JsVal} {st2 : EffState}
    (hp : headSeg path ≠ "_id") (h : effWrite st path x = Except.ok st2) :
    keepsId st st2 := by
  unfold headSeg at hp
  unfold effWrite at h
  cases hs : splitPath path with
  | nil =>
      rw [hs] at h
      injection h with h2
      rw [← h2]
      exact ⟨rfl, rfl⟩
  | cons k tl =>
      rw [hs] at hp
      cases tl with
      | nil =>
          rw [hs] at h
          injection h with h2
          rw [← h2]
          exact ⟨getField_setField_ne _ _ hp, rfl⟩
      | cons k2 rest2 =>
          rw [hs] at h
          cases hg : getField st.res k with
          | some u =>
              simp only [hg] at h
              by_cases ht : u.truthy = true
              · rw [if_pos ht] at h
                cases hw : setNestedVal u (k2 :: rest2) x with
                | error e =>
                    rw [hw] at h
                    simp only [Bind.bind, Except.bind] at h
                    exact Except.noConfusion h
                | ok w =>
                    rw [hw] at h
                    simp only [Bind.bind, Except.bind] at h
                    injection h with h2
                    rw [← h2]
                    refine ⟨getField_setField_ne _ _ hp, ?_⟩
                    by_cases hsh : st.shared.contains k = true
                    · rw [if_pos hsh]; exact getField_setField_ne _ _ hp
                    · rw [if_neg hsh]
              · rw [if_neg ht] at h
                cases hw : setNestedVal (vObj []) (k2 :: rest2) x with
                | error e =>
                    rw [hw] at h
                    simp only [Bind.bind, Except.bind] at h
                    exact Except.noConfusion h
                | ok w =>
                    rw [hw] at h
                    simp only [Bind.bind, Except.bind] at h
                    injection h with h2
                    rw [← h2]
                    exact ⟨getField_setField_ne _ _ hp, rfl⟩
          | none =>
              simp only [hg] at h
              cases hw : setNestedVal (vObj []) (k2 :: rest2) x with
              | error e =>
                  rw [hw] at h
                  simp only [Bind.bind, Except.bind] at h
                  exact Except.noConfusion h
              | ok w =>
                  rw [hw] at h
                  simp only [Bind.bind, Except.bind] at h
                  injection h with h2
                  rw [← h2]
                  exact ⟨getField_setField_ne _ _ hp, rfl⟩

/-- `_deleteNestedValue` through a path not starting at `_id` preserves the
`_id` property of both the copy and the stored document. -/
theorem effDelete_keepsId {st : EffState} {path : String} {st2 : EffState}
    (hp : headSeg path ≠ "_id") (h : effDelete st path = Except.ok st2) :
    keepsId st st2 := by
  unfold headSeg at hp
  unfold effDelete at h
  cases hs : splitPath path with
  | nil =>
      rw [hs] at h
      injection h with h2
      rw [← h2]
      exact ⟨rfl, rfl⟩
  | cons k tl =>
      rw [hs] at hp
      cases tl with
      | nil =>
          rw [hs] at h
          injection h with h2
          rw [← h2]
          exact ⟨getField_removeField_ne _ hp, rfl⟩
      | cons k2 rest2 =>
          rw [hs] at h
          cases hg : getField st.res k with
          | some u =>
              simp only [hg] at h
              by_cases ht : u.truthy = true
              · rw [if_pos ht] at h
                cases hw : delNestedVal u (k2 :: rest2) with
                | error e =>
                    rw [hw] at h
                    simp only [Bind.bind, Except.bind] at h
                    exact Except.noConfusion h
                | ok w =>
                    rw [hw] at h
                    simp only [Bind.bind, Except.bind] at h
                    injection h with h2
                    rw [← h2]
                    refine ⟨getField_setField_ne _ _ hp, ?_⟩
                    by_cases hsh : st.shared.contains k = true
                    · rw [if_pos hsh]; exact getField_setField_ne _ _ hp
                    · rw [if_neg hsh]
              · rw [if_neg ht] at h
                injection h with h2
                rw [← h2]
                exact ⟨rfl, rfl⟩
          | none =>
              simp only [hg] at h
              injection h with h2
              rw [← h2]
              exact ⟨rfl, rfl⟩

/-- The in-place array mutation through a path not starting at `_id`
preserves the `_id` property of both the copy and the stored document. -/
theorem effMutate_keepsId {st : EffState} {path : String} {nv : JsVal} {st2 : EffState}
    (hp : headSeg path ≠ "_id") (h : effMutate st path nv = Except.ok st2) :
    keepsId st st2 := by
  unfold headSeg at hp
  unfold effMutate at h
  cases hs : splitPath path with
  | nil =>
      rw [hs] at h
      injection h with h2
      rw [← h2]
      exact ⟨rfl, rfl⟩
  | cons k tl =>
      rw [hs] at hp
      cases tl with
      | nil =>
          rw [hs] at h
          injection h with h2
          rw [← h2]
          refine ⟨getField_setField_ne _ _ hp, ?_⟩
          by_cases hsh : st.shared.contains k = true
          · rw [if_pos hsh]; exact getField_setField_ne _ _ hp
          · rw [if_neg hsh]
      | cons k2 rest2 =>
          rw [hs] at h
          cases hg : getField st.res k with
          | some u =>
              simp only [hg] at h
              cases hw : setNestedVal u (k2 :: rest2) nv with
              | error e =>
                  rw [hw] at h
                  simp only [Bind.bind, Except.bind] at h
                  exact Except.noConfusion h
              | ok w =>
                  rw [hw] at h
                  simp only [Bind.bind, Except.bind] at h
                  injection h with h2
                  rw [← h2]
                  refine ⟨getField_setField_ne _ _ hp, ?_⟩
                  by_cases hsh : st.shared.contains k = true
                  · rw [if_pos hsh]; exact getField_setField_ne _ _ hp
                  · rw [if_neg hsh]
          | none =>
              simp only [hg] at h
              injection h with h2
              rw [← h2]
              exact ⟨rfl, rfl⟩

/-- `$inc` through a path not starting at `_id` preserves both `_id`s. -/
theorem effInc_keepsId {st : EffState} {path : String} {v : JsVal} {st2 : EffState}
    (hp : headSeg path ≠ "_id") (h : effInc st path v = Except.ok st2) :
    keepsId st st2 := by
  simp only [effInc] at h
  cases ha : jsAdd ((effRead st path).getD (vNum 0)) v with
  | error e =>
      simp only [ha, Bind.bind, Except.bind] at h
      exact Except.noConfusion h
  | ok sum =>
      simp only [ha, Bind.bind, Except.bind] at h
      exact effWrite_keepsId hp h

/-- `$push` through a path not starting at `_id` preserves both `_id`s. -/
theorem effPush_keepsId {st : EffState} {path : String} {value : JsVal} {st2 : EffState}
    (hp : headSeg path ≠ "_id") (h : effPush st path value = Except.ok st2) :
    keepsId st st2 := by
  simp only [effPush] at h
  cases hi : pushItems value with
  | error e =>
      simp only [hi, Bind.bind, Except.bind] at h
      exact Except.noConfusion h
  | ok items =>
      simp only [hi, Bind.bind, Except.bind] at h
      cases hr : effRead st path with
      | none => simp only [hr] at h; exact effWrite_keepsId hp h
      | some u =>
          cases u with
          | vArr xs => simp only [hr] at h; exact effMutate_keepsId hp h
          | vNull => simp only [hr] at h; exact Except.noConfusion h
          | vBool b => simp only [hr] at h; exact Except.noConfusion h
          | vNum n => simp only [hr] at h; exact Except.noConfusion h
          | vStr s2 => simp only [hr] at h; exact Except.noConfusion h
          | vDate d => simp only [hr] at h; exact Except.noConfusion h
          | vObj fs => simp only [hr] at h; exact Except.noConfusion h

/-- `$pull` through a path not starting at `_id` preserves both `_id`s. -/
theorem effPull_keepsId {rx : Rx} {st : EffState} {path : String} {value : JsVal}
    {st2 : EffState} (hp : headSeg path ≠ "_id")
    (h : effPull rx st path value = Except.ok st2) : keepsId st st2 := by
  unfold effPull at h
  cases hr : effRead st path with
  | none => simp only [hr] at h; exact effWrite_keepsId hp h
  | some u =>
      cases u with
      | vArr xs =>
          cases xs with
          | nil => simp only [hr] at h; exact effWrite_keepsId hp h
          | cons a tl =>
              simp only [hr] at h
              cases value with
              | vNull => exact Except.noConfusion h
              | vBool b => exact effWrite_keepsId hp h
              | vNum n => exact effWrite_keepsId hp h
              | vStr s2 => exact effWrite_keepsId hp h
              | vDate d => exact effWrite_keepsId hp h
              | vArr ys => exact effWrite_keepsId hp h
              | vObj fs => exact effWrite_keepsId hp h
      | vNull => simp only [hr] at h; exact Except.noConfusion h
      | vBool b => simp only [hr] at h; exact Except.noConfusion h
      | vNum n => simp only [hr] at h; exact Except.noConfusion h
      | vStr s2 => simp only [hr] at h; exact Except.noConfusion h
      | vDate d => simp only [hr] at h; exact Except.noConfusion h
      | vObj fs => simp only [hr] at h; exact Except.noConfusion h

/-- `$addToSet` through a path not starting at `_id` preserves both `_id`s. -/
theorem effAddToSet_keepsId {st : EffState} {path : String} {value : JsVal} {st2 : EffState}
    (hp : headSeg path ≠ "_id") (h : effAddToSet st path value = Except.ok st2) :
    keepsId st st2 := by
  unfold effAddToSet at h
  cases hr : effRead st path with
  | none => simp only [hr] at h; exact effWrite_keepsId hp h
  | some u =>
      cases u with
      | vArr xs =>
          simp only [hr] at h
          by_cases hx : (xs.any fun e => jsStrictEq (some e) (some value)) = true
          · rw [if_pos hx] at h
            injection h with h2
            rw [← h2]
            exact keepsId_refl st
          · rw [if_neg hx] at h
            exact effMutate_keepsId hp h
      | vNull => simp only [hr] at h; exact Except.noConfusion h
      | vBool b => simp only [hr] at h; exact Except.noConfusion h
      | vNum n => simp only [hr] at h; exact Except.noConfusion h
      | vStr s2 => simp only [hr] at h; exact Except.noConfusion h
      | vDate d => simp only [hr] at h; exact Except.noConfusion h
      | vObj fs => simp only [hr] at h; exact Except.noConfusion h

/-- A per-field fold of `_id`-preserving actions over `_id`-avoiding fields
preserves both `_id`s, whether or not a field throws. -/
theorem foldFields_keepsId {act : EffState → String → JsVal → Except String EffState}
    (hact : ∀ a f v b, headSeg f ≠ "_id" → act a f v = Except.ok b → keepsId a b) :
    ∀ (es : List (String × JsVal)) (st : EffState),
      (es.all fun q => headSeg q.1 ≠ "_id") = true →
      keepsId st (foldFields act st es).1 := by
  intro es
  induction es with
  | nil => intro st _; exact keepsId_refl st
  | cons p rest ih =>
      intro st hall
      obtain ⟨f, v⟩ := p
      simp only [List.all_cons, Bool.and_eq_true] at hall
      obtain ⟨hf, hrest⟩ := hall
      unfold foldFields
      cases hstep : act st f v with
      | ok st3 =>
          exact keepsId_trans (hact st f v st3 (of_decide_eq_true hf) hstep) (ih st3 hrest)
      | error e => exact keepsId_refl st

/-- One update operator whose description avoids `_id` preserves both `_id`s
of the effect state it returns, also when it throws. -/
theorem applyOpEff_keepsId {rx : Rx} {st : EffState} {op : String} {fields : JsVal}
    (hop : updateAvoidsId [(op, fields)] = true) :
    keepsId st (applyOpEff rx st op fields).1 := by
  unfold updateAvoidsId at hop
  simp only [List.all_cons, List.all_nil, Bool.and_true] at hop
  simp only [applyOpEff]
  by_cases h1 : op = "$set"
  · rw [if_pos h1]
    have hc : (decide (op = "$set") || decide (op = "$unset") || decide (op = "$inc") ||
        decide (op = "$push") || decide (op = "$pull") || decide (op = "$addToSet")) = true := by
      rw [h1]; decide
    rw [if_pos hc] at hop
    cases he : jsEntries fields with
    | none => rw [he] at hop; exact absurd hop Bool.false_ne_true
    | some es =>
        rw [he] at hop
        exact foldFields_keepsId (fun a f v b hf hh => effWrite_keepsId hf hh) es st hop
  · rw [if_neg h1]
    by_cases h2 : op = "$unset"
    · rw [if_pos h2]
      have hc : (decide (op = "$set") || decide (op = "$unset") || decide (op = "$inc") ||
          decide (op = "$push") || decide (op = "$pull") || decide (op = "$addToSet")) = true := by
        rw [h2]; decide
      rw [if_pos hc] at hop
      cases he : jsEntries fields with
      | none => rw [he] at hop; exact absurd hop Bool.false_ne_true
      | some es =>
          rw [he] at hop
          exact foldFields_keepsId (fun a f v b hf hh => effDelete_keepsId hf hh) es st hop
    · rw [if_neg h2]
      by_cases h3 : op = "$inc"
      · rw [if_pos h3]
        have hc : (decide (op = "$set") || decide (op = "$unset") || decide (op = "$inc") ||
            decide (op = "$push") || decide (op = "$pull") || decide (op = "$addToSet")) = true := by
          rw [h3]; decide
        rw [if_pos hc] at hop
        cases he : jsEntries fields with
        | none => rw [he] at hop; exact absurd hop Bool.false_ne_true
        | some es =>
            rw [he] at hop
            exact foldFields_keepsId (fun a f v b hf hh => effInc_keepsId hf hh) es st hop
      · rw [if_neg h3]
        by_cases h4 : op = "$push"
        · rw [if_pos h4]
          have hc : (decide (op = "$set") || decide (op = "$unset") || decide (op = "$inc") ||
              decide (op = "$push") || decide (op = "$pull") || decide (op = "$addToSet")) = true := by
            rw [h4]; decide
          rw [if_pos hc] at hop
          cases he : jsEntries fields with
          | none => rw [he] at hop; exact absurd hop Bool.false_ne_true
          | some es =>
              rw [he] at hop
              exact foldFields_keepsId (fun a f v b hf hh => effPush_keepsId hf hh) es st hop
        · rw [if_neg h4]
          by_cases h5 : op = "$pull"
          · rw [if_pos h5]
            have hc : (decide (op = "$set") || decide (op = "$unset") || decide (op = "$inc") ||
                decide (op = "$push") || decide (op = "$pull") ||
                decide (op = "$addToSet")) = true := by
              rw [h5]; decide
            rw [if_pos hc] at hop
            cases he : jsEntries fields with
            | none => rw [he] at hop; exact absurd hop Bool.false_ne_true
            | some es =>
                rw [he] at hop
                exact foldFields_keepsId (fun a f v b hf hh => effPull_keepsId hf hh) es st hop
          · rw [if_neg h5]
            by_cases h6 : op = "$addToSet"
            · rw [if_pos h6]
              have hc : (decide (op = "$set") || decide (op = "$unset") ||
                  decide (op = "$inc") || decide (op = "$push") || decide (op = "$pull") ||
                  decide (op = "$addToSet")) = true := by
                rw [h6]; decide
              rw [if_pos hc] at hop
              cases he : jsEntries fields with
              | none => rw [he] at hop; exact absurd hop Bool.false_ne_true
              | some es =>
                  rw [he] at hop
                  exact foldFields_keepsId
                    (fun a f v b hf hh => effAddToSet_keepsId hf hh) es st hop
            · rw [if_neg h6]
              have hc2 : ¬((decide (op = "$set") || decide (op = "$unset") ||
                  decide (op = "$inc") || decide (op = "$push") || decide (op = "$pull") ||
                  decide (op = "$addToSet")) = true) := by
                simp [Bool.or_eq_true, decide_eq_true_eq, h1, h2, h3, h4, h5, h6]
              rw [if_neg hc2] at hop
              by_cases h7 : strStartsWith op "$" = true
              · rw [if_pos h7]
                exact keepsId_refl st
              · rw [if_neg h7]
                rw [if_neg h7] at hop
                exact ⟨getField_setField_ne _ _ (of_decide_eq_true hop), rfl⟩

/-- The operator loop of `_applyUpdate` preserves both `_id`s for an
`_id`-avoiding update description. -/
theorem applyUpdateOps_keepsId {rx : Rx} :
    ∀ (update : List (String × JsVal)) (st : EffState), updateAvoidsId update = true →
      keepsId st (applyUpdateOps rx st update).1 := by
  intro update
  induction update with
  | nil => intro st _; exact keepsId_refl st
  | cons p rest ih =>
      intro st hu
      obtain ⟨op, fields⟩ := p
      unfold updateAvoidsId at hu
      simp only [List.all_cons, Bool.and_eq_true] at hu
      obtain ⟨hp1, hrest⟩ := hu
      have hop : updateAvoidsId [(op, fields)] = true := by
        unfold updateAvoidsId
        simp only [List.all_cons, List.all_nil, Bool.and_true]
        exact hp1
      unfold applyUpdateOps
      cases hstep : applyOpEff rx st op fields with
      | mk st3 oe =>
          have hk : keepsId st st3 := by
            have h0 := @applyOpEff_keepsId rx st _ _ hop
            rw [hstep] at h0
            exact h0
          cases oe with
          | none => exact keepsId_trans hk (ih st3 hrest)
          | some e => exact hk

/-- `_applyUpdate` with an `_id`-avoiding description preserves the `_id`
property of both the rebuilt copy and the stored document. -/
theorem applyUpdateEff_keepsId {rx : Rx} {doc update : List (String × JsVal)}
    (hu : updateAvoidsId update = true) :
    getField (applyUpdateEff rx doc update).1.res "_id" = getField doc "_id" ∧
    getField (applyUpdateEff rx doc update).1.orig "_id" = getField doc "_id" :=
  applyUpdateOps_keepsId update (effInit doc) hu

/-- A left fold is unchanged by replacing one element with a step-equivalent
one. -/
theorem foldl_set_congr {α : Type} {g : α → JsVal → α} {old new : JsVal}
    (hstep : ∀ a, g a new = g a old) :
    ∀ (l : List JsVal) (j : Nat), l[j]? = some old →
      ∀ (m : α), (l.set j new).foldl g m = l.foldl g m := by
  intro l
  induction l with
  | nil => intro j hj m; cases hj
  | cons x t ih =>
      intro j hj m
      cases j with
      | zero =>
          simp only [List.getElem?_cons_zero] at hj
          injection hj with hx
          subst hx
          simp only [List.set_cons_zero, List.foldl_cons, hstep]
      | succ k =>
          simp only [List.getElem?_cons_succ] at hj
          simp only [List.set_cons_succ, List.foldl_cons]
          exact ih k hj (g m x)

/-- A rebuilt field index is unchanged by a slot replacement preserving the
indexed field and the `_id`. -/
theorem rebuildFieldIndex_set {data : List JsVal} {i : Nat} {old new : JsVal} {f : String}
    (hi : data[i]? = some old) (hg : getNested new f = getNested old f)
    (hid : propGet new "_id" = propGet old "_id") :
    rebuildFieldIndex (data.set i new) f = rebuildFieldIndex data f := by
  unfold rebuildFieldIndex
  refine foldl_set_congr ?_ data i hi []
  intro m
  rw [hg, hid]

/-- Rebuilding over an appended document is a bucket append onto the rebuild
of the prefix. -/
theorem rebuildFieldIndex_append (data : List JsVal) (d : JsVal) (f : String) :
    rebuildFieldIndex (data ++ [d]) f =
      (match getNested d f with
       | some value => bucketAdd (rebuildFieldIndex data f) value (propGet d "_id")
       | none => rebuildFieldIndex data f) := by
  unfold rebuildFieldIndex
  rw [List.foldl_append]
  rfl

/-- On an object, the nested read of the single-segment path `_id` is the
property read. -/
theorem getNested_id_obj (fs : List (String × JsVal)) :
    getNested (vObj fs) "_id" = getField fs "_id" := rfl

/-- Setting any field keeps every present field present. -/
theorem getField_setField_isSome (fs : List (String × JsVal)) {k2 : String} (k : String)
    (v : JsVal) (h : (getField fs k2).isSome = true) :
    (getField (setField fs k v) k2).isSome = true := by
  by_cases hk : k = k2
  · subst hk
    rw [getField_setField_self]
    rfl
  · rw [getField_setField_ne fs v hk]
    exact h

/-- Every document `insertOne` builds carries an `_id` property. -/
theorem mkNewDoc_id (doc : List (String × JsVal)) (newId : String) (now : Int) :
    (getField (mkNewDoc doc newId now) "_id").isSome = true := by
  have aux : ∀ (l fs : List (String × JsVal)), (getField fs "_id").isSome = true →
      (getField (l.foldl (fun fs f => setField fs f.1 f.2) fs) "_id").isSome = true := by
    intro l
    induction l with
    | nil => intro fs h; exact h
    | cons p rest ih => intro fs h; exact ih _ (getField_setField_isSome _ _ _ h)
  simp only [mkNewDoc]
  exact getField_setField_isSome _ _ _ (getField_setField_isSome _ _ _
    (aux doc _ (by simp [getField])))

/-- Replacing a slot with a document of the same `_id` keeps ids pairwise
distinct. -/
theorem NodupIds_set {data : List JsVal} :
    ∀ {i : Nat} {old new : JsVal}, NodupIds data → data[i]? = some old →
      propGet new "_id" = propGet old "_id" → NodupIds (data.set i new) := by
  induction data with
  | nil => intro i old new h hi hid; cases hi
  | cons x t ih =>
      intro i old new h hi hid
      unfold NodupIds at h ⊢
      cases i with
      | zero =>
          simp only [List.getElem?_cons_zero] at hi
          injection hi with hx
          subst hx
          rw [List.set_cons_zero]
          cases h with
          | cons hhead htail =>
              refine List.Pairwise.cons ?_ htail
              intro b hb
              rw [hid]
              exact hhead b hb
      | succ j =>
          simp only [List.getElem?_cons_succ] at hi
          rw [List.set_cons_succ]
          cases h with
          | cons hhead htail =>
              refine List.Pairwise.cons ?_ (ih htail hi hid)
              intro b hb
              rcases List.mem_or_eq_of_mem_set hb with hm | he
              · exact hhead b hm
              · rw [he, hid]
                exact hhead _ (List.getElem?_mem hi)

/-- Replacing a slot with an object keeps every document an object. -/
theorem objDocs_set {data : List JsVal} {i : Nat} {new : JsVal}
    (h : ∀ d ∈ data, isObjDoc d = true) (hnew : isObjDoc new = true) :
    ∀ d ∈ data.set i new, isObjDoc d = true := by
  intro d hd
  rcases List.mem_or_eq_of_mem_set hd with hm | he
  · exact h d hm
  · rw [he]; exact hnew

/-- The three data components of the collection invariant survive an
`_id`-preserving object slot replacement. -/
theorem dataSet_inv {data : List JsVal} {i : Nat} {fs fs2 : List (String × JsVal)}
    (h1 : NodupIds data) (h2 : ∀ d ∈ data, isObjDoc d = true)
    (hi : data[i]? = some (vObj fs))
    (hid : getField fs2 "_id" = getField fs "_id") :
    NodupIds (data.set i (vObj fs2)) ∧
    (∀ d ∈ data.set i (vObj fs2), isObjDoc d = true) ∧
    rebuildFieldIndex (data.set i (vObj fs2)) "_id" = rebuildFieldIndex data "_id" :=
  ⟨NodupIds_set h1 hi hid, objDocs_set h2 rfl, rebuildFieldIndex_set hi hid hid⟩

/-- The index upsert of `createIndex` keeps every entry registered under a
different field name. -/
theorem upsert_mem {field : String} {info : IndexInfo} {e : String × IndexInfo}
    (hf : e.1 ≠ field) :
    ∀ l : List (String × IndexInfo), e ∈ l → e ∈ createIndexSt.upsert field info l := by
  intro l
  induction l with
  | nil => intro h; cases h
  | cons p rest ih =>
      intro h
      obtain ⟨k, i⟩ := p
      unfold createIndexSt.upsert
      by_cases hk : k = field
      · rw [if_pos hk]
        cases h with
        | head => exact absurd hk hf
        | tail _ hmem => exact List.mem_cons_of_mem _ hmem
      · rw [if_neg hk]
        cases h with
        | head => exact List.Mem.head _
        | tail _ hmem => exact List.mem_cons_of_mem _ (ih hmem)

/-- When the duplicate scan reports no violation, no registered unique index
holds the defined value of the new document on its field. -/
theorem dupViolation_none_mem {newDoc : JsVal} {f : String} {info : IndexInfo} {v : JsVal}
    (huniq : info.unique = true) (hv : getNested newDoc f = some v) :
    ∀ l : List (String × IndexInfo), (f, info) ∈ l → dupViolation l newDoc = none →
      (bucketGet info.data v).isSome = false := by
  intro l
  induction l with
  | nil => intro hmem _; cases hmem
  | cons p rest ih =>
      intro hmem hdup
      obtain ⟨k, i⟩ := p
      unfold dupViolation at hdup
      by_cases hu : i.unique = true
      · rw [if_pos hu] at hdup
        cases hg : getNested newDoc k with
        | some value =>
            simp only [hg] at hdup
            by_cases hb : (bucketGet i.data value).isSome = true
            · rw [if_pos hb] at hdup
              exact Option.noConfusion hdup
            · rw [if_neg hb] at hdup
              cases hmem with
              | head =>
                  rw [hv] at hg
                  injection hg with hgv
                  subst hgv
                  simpa using hb
              | tail _ hmem2 => exact ih hmem2 hdup
        | none =>
            simp only [hg] at hdup
            cases hmem with
            | head => rw [hv] at hg; exact Option.noConfusion hg
            | tail _ hmem2 => exact ih hmem2 hdup
      · rw [if_neg hu] at hdup
        cases hmem with
        | head => exact absurd huniq hu
        | tail _ hmem2 => exact ih hmem2 hdup

/-- A registered index survives a full rebuild with the rebuilt bucket map. -/
theorem rebuildIndexes_mem {st : CollState} {f : String} {u : Bool}
    {bkt : List (JsVal × List (Option JsVal))}
    (h : (f, IndexInfo.mk u bkt) ∈ st.indexes) :
    (f, IndexInfo.mk u (rebuildFieldIndex st.data f)) ∈ (rebuildIndexes st).indexes := by
  have h2 := List.mem_map_of_mem
    (fun fi : String × IndexInfo =>
      (fi.1, IndexInfo.mk fi.2.unique (rebuildFieldIndex st.data fi.1))) h
  exact h2

/-- A filter that deleted nothing kept everything. -/
theorem filter_eq_self_of_sub {α : Type} {l : List α} {p : α → Bool}
    (h : ¬(l.length - (l.filter p).length > 0)) : l.filter p = l := by
  have hle : (l.filter p).length ≤ l.length := List.length_filter_le p l
  have hge : l.length ≤ (l.filter p).length := by omega
  exact (List.filter_sublist l).eq_of_length (Nat.le_antisymm hle hge)

/-- The `Model` start state satisfies the collection invariant. -/
theorem initColl_inv : CollInv initColl := by
  refine ⟨List.Pairwise.nil, ?_, ?_⟩
  · intro d hd; cases hd
  · exact List.Mem.head _

/-- `createIndex` on a field other than `_id` preserves the invariant. -/
theorem createIndexSt_inv {st : CollState} {f : String} {u : Bool} (hf : f ≠ "_id")
    (h : CollInv st) : CollInv (createIndexSt st f u) := by
  obtain ⟨h1, h2, h3⟩ := h
  refine ⟨h1, h2, ?_⟩
  show ("_id", IndexInfo.mk true (rebuildFieldIndex st.data "_id")) ∈
    createIndexSt.upsert f (IndexInfo.mk u (rebuildFieldIndex st.data f)) st.indexes
  exact upsert_mem (fun he => hf he.symm) st.indexes h3

/-- `insertOne` preserves the invariant: a duplicate id among primitive id
values is caught by the unique `_id` index, and the incremental index update
coincides with a rebuild over the appended array. -/
theorem insertOneSt_inv {st : CollState} {doc : List (String × JsVal)} {newId : String}
    {now : Int} (h : CollInv st) : CollInv (insertOneSt st doc newId now).1 := by
  obtain ⟨h1, h2, h3⟩ := h
  cases hres : insertOneSt st doc newId now with
  | mk st2 r =>
      simp only [insertOneSt] at hres
      cases hdup : dupViolation st.indexes (vObj (mkNewDoc doc newId now)) with
      | some field =>
          simp only [hdup] at hres
          injection hres with hA hB
          rw [← hA]
          exact ⟨h1, h2, h3⟩
      | none =>
          simp only [hdup] at hres
          injection hres with hA hB
          rw [← hA]
          obtain ⟨v, hv⟩ := Option.isSome_iff_exists.mp (mkNewDoc_id doc newId now)
          refine ⟨?_, ?_, ?_⟩
          · show List.Pairwise (fun a b => jsStrictEq (propGet a "_id") (propGet b "_id") = false)
              (st.data ++ [vObj (mkNewDoc doc newId now)])
            refine List.pairwise_append.mpr ⟨h1, ?_, ?_⟩
            · exact List.Pairwise.cons (fun b hb => absurd hb (List.not_mem_nil b))
                List.Pairwise.nil
            · intro a ha b hb
              rw [List.eq_of_mem_singleton hb]
              have hpn : propGet (vObj (mkNewDoc doc newId now)) "_id" = some v := hv
              rw [hpn]
              cases hpa : propGet a "_id" with
              | none => exact jsStrictEq_none_some v
              | some u =>
                  cases hq : jsStrictEq (some u) (some v) with
                  | false => rfl
                  | true =>
                      exfalso
                      obtain ⟨huv, hprim⟩ := jsStrictEq_some_iff.mp hq
                      subst huv
                      have hobja := h2 a ha
                      have hga : getNested a "_id" = propGet a "_id" := by
                        cases a with
                        | vObj fs2 => rfl
                        | vNull => simp [isObjDoc] at hobja
                        | vBool b2 => simp [isObjDoc] at hobja
                        | vNum n2 => simp [isObjDoc] at hobja
                        | vStr s3 => simp [isObjDoc] at hobja
                        | vDate d2 => simp [isObjDoc] at hobja
                        | vArr xs2 => simp [isObjDoc] at hobja
                      have hany : (st.data.any fun d =>
                          jsStrictEq (getNested d "_id") (some u)) = true := by
                        refine List.any_eq_true.mpr ⟨a, ha, ?_⟩
                        rw [hga, hpa]
                        exact jsStrictEq_some_iff.mpr ⟨rfl, hprim⟩
                      have hsome : (bucketGet (rebuildFieldIndex st.data "_id") u).isSome
                          = true := by
                        rw [bucketGet_rebuild_isSome]
                        exact hany
                      have hgnew : getNested (vObj (mkNewDoc doc newId now)) "_id" = some u := by
                        rw [getNested_id_obj]; exact hv
                      have hnone : (bucketGet (rebuildFieldIndex st.data "_id") u).isSome
                          = false :=
                        dupViolation_none_mem rfl hgnew st.indexes h3 hdup
                      exact Bool.noConfusion (hsome.symm.trans hnone)
          · intro d hd
            rcases List.mem_append.mp hd with hm | hm
            · exact h2 d hm
            · rw [List.eq_of_mem_singleton hm]; rfl
          · have hgnew : getNested (vObj (mkNewDoc doc newId now)) "_id" = some v := by
              rw [getNested_id_obj]; exact hv
            refine List.mem_map.mpr
              ⟨("_id", IndexInfo.mk true (rebuildFieldIndex st.data "_id")), h3, ?_⟩
            dsimp only
            rw [hgnew, rebuildFieldIndex_append, hgnew]

/-- `insertMany` preserves the invariant, also across a mid-batch failure. -/
theorem insertManySt_inv :
    ∀ (docs : List (List (String × JsVal))) (st : CollState) (ids : List String) (now : Int),
      CollInv st → CollInv (insertManySt st docs ids now).1 := by
  intro docs
  induction docs with
  | nil => intro st ids now h; exact h
  | cons doc docs2 ih =>
      intro st ids now h
      cases ids with
      | nil => exact h
      | cons id ids2 =>
          cases hres : insertManySt st (doc :: docs2) (id :: ids2) now with
          | mk st3 r =>
              unfold insertManySt at hres
              cases hone : insertOneSt st doc id now with
              | mk st2 r2 =>
                  have hinv2 : CollInv st2 := by
                    have h0 := @insertOneSt_inv st doc id now h
                    rw [hone] at h0
                    exact h0
                  cases r2 with
                  | ok d =>
                      simp only [hone] at hres
                      cases hrec : insertManySt st2 docs2 ids2 now with
                      | mk st4 r4 =>
                          have hinv4 : CollInv st4 := by
                            have h0 := ih st2 ids2 now hinv2
                            rw [hrec] at h0
                            exact h0
                          cases r4 with
                          | ok n =>
                              simp only [hrec] at hres
                              injection hres with hA hB
                              rw [← hA]; exact hinv4
                          | error e =>
                              simp only [hrec] at hres
                              injection hres with hA hB
                              rw [← hA]; exact hinv4
                  | error e =>
                      simp only [hone] at hres
                      injection hres with hA hB
                      rw [← hA]; exact hinv2

/-- `updateOne` with an `_id`-avoiding description preserves the invariant,
also when the rebuild throws mid-way. -/
theorem updateOneSt_inv {rx : Rx} {st : CollState} {q update : List (String × JsVal)}
    {now : Int} (hu : updateAvoidsId update = true) (h : CollInv st) :
    CollInv (updateOneSt rx st q update now).1 := by
  obtain ⟨h1, h2, h3⟩ := h
  cases hres : updateOneSt rx st q update now with
  | mk st2 r =>
      simp only [updateOneSt] at hres
      cases hfo : findOneDoc rx st q with
      | none =>
          simp only [hfo] at hres
          injection hres with hA hB
          rw [← hA]; exact ⟨h1, h2, h3⟩
      | some doc =>
          simp only [hfo] at hres
          cases hidx : st.data.findIdx? fun d =>
              jsStrictEq (propGet d "_id") (propGet doc "_id") with
          | none =>
              simp only [hidx] at hres
              injection hres with hA hB
              rw [← hA]; exact ⟨h1, h2, h3⟩
          | some i =>
              simp only [hidx] at hres
              cases hx : st.data[i]? with
              | none =>
                  simp only [hx] at hres
                  injection hres with hA hB
                  rw [← hA]; exact ⟨h1, h2, h3⟩
              | some x =>
                  cases x with
                  | vObj fs =>
                      simp only [hx] at hres
                      cases happ : applyUpdateEff rx fs update with
                      | mk eff oe =>
                          have hkeep := @applyUpdateEff_keepsId rx fs _ hu
                          rw [happ] at hkeep
                          cases oe with
                          | none =>
                              simp only [happ] at hres
                              injection hres with hA hB
                              rw [← hA]
                              have hidp : getField (setField eff.res "updatedAt" (vDate now))
                                  "_id" = getField fs "_id" := by
                                rw [getField_setField_ne _ _
                                  (show "updatedAt" ≠ "_id" by decide)]
                                exact hkeep.1
                              obtain ⟨d1, d2, d3⟩ := dataSet_inv h1 h2 hx hidp
                              exact ⟨d1, d2, rebuildIndexes_mem h3⟩
                          | some e =>
                              simp only [happ] at hres
                              injection hres with hA hB
                              rw [← hA]
                              obtain ⟨d1, d2, d3⟩ := dataSet_inv h1 h2 hx hkeep.2
                              refine ⟨d1, d2, ?_⟩
                              show ("_id", IndexInfo.mk true
                                  (rebuildFieldIndex (st.data.set i (vObj eff.orig)) "_id"))
                                  ∈ st.indexes
                              rw [d3]
                              exact h3
                  | vNull =>
                      simp only [hx] at hres
                      injection hres with hA hB
                      rw [← hA]; exact ⟨h1, h2, h3⟩
                  | vBool b =>
                      simp only [hx] at hres
                      injection hres with hA hB
                      rw [← hA]; exact ⟨h1, h2, h3⟩
                  | vNum n =>
                      simp only [hx] at hres
                      injection hres with hA hB
                      rw [← hA]; exact ⟨h1, h2, h3⟩
                  | vStr s2 =>
                      simp only [hx] at hres
                      injection hres with hA hB
                      rw [← hA]; exact ⟨h1, h2, h3⟩
                  | vDate ms =>
                      simp only [hx] at hres
                      injection hres with hA hB
                      rw [← hA]; exact ⟨h1, h2, h3⟩
                  | vArr xs =>
                      simp only [hx] at hres
                      injection hres with hA hB
                      rw [← hA]; exact ⟨h1, h2, h3⟩

/-- `findByIdAndUpdate` with an `_id`-avoiding description preserves the
invariant. -/
theorem findByIdAndUpdateSt_inv {rx : Rx} {st : CollState} {id : JsVal}
    {update : List (String × JsVal)} {now : Int} {optionNew : Bool}
    (hu : updateAvoidsId update = true) (h : CollInv st) :
    CollInv (findByIdAndUpdateSt rx st id update now optionNew).1 := by
  obtain ⟨h1, h2, h3⟩ := h
  cases hres : findByIdAndUpdateSt rx st id update now optionNew with
  | mk st2 r =>
      simp only [findByIdAndUpdateSt] at hres
      cases hidx : st.data.findIdx? fun d => jsStrictEq (propGet d "_id") (some id) with
      | none =>
          simp only [hidx] at hres
          injection hres with hA hB
          rw [← hA]; exact ⟨h1, h2, h3⟩
      | some i =>
          simp only [hidx] at hres
          cases hx : st.data[i]? with
          | none =>
              simp only [hx] at hres
              injection hres with hA hB
              rw [← hA]; exact ⟨h1, h2, h3⟩
          | some x =>
              cases x with
              | vObj fs =>
                  simp only [hx] at hres
                  cases happ : applyUpdateEff rx fs update with
                  | mk eff oe =>
                      have hkeep := @applyUpdateEff_keepsId rx fs _ hu
                      rw [happ] at hkeep
                      cases oe with
                      | none =>
                          simp only [happ] at hres
                          injection hres with hA hB
                          rw [← hA]
                          have hidp : getField (setField eff.res "updatedAt" (vDate now))
                              "_id" = getField fs "_id" := by
                            rw [getField_setField_ne _ _ (show "updatedAt" ≠ "_id" by decide)]
                            exact hkeep.1
                          obtain ⟨d1, d2, d3⟩ := dataSet_inv h1 h2 hx hidp
                          exact ⟨d1, d2, rebuildIndexes_mem h3⟩
                      | some e =>
                          simp only [happ] at hres
                          injection hres with hA hB
                          rw [← hA]
                          obtain ⟨d1, d2, d3⟩ := dataSet_inv h1 h2 hx hkeep.2
                          refine ⟨d1, d2, ?_⟩
                          show ("_id", IndexInfo.mk true
                              (rebuildFieldIndex (st.data.set i (vObj eff.orig)) "_id"))
                              ∈ st.indexes
                          rw [d3]
                          exact h3
              | vNull =>
                  simp only [hx] at hres
                  injection hres with hA hB
                  rw [← hA]; exact ⟨h1, h2, h3⟩
              | vBool b =>
                  simp only [hx] at hres
                  injection hres with hA hB
                  rw [← hA]; exact ⟨h1, h2, h3⟩
              | vNum n =>
                  simp only [hx] at hres
                  injection hres with hA hB
                  rw [← hA]; exact ⟨h1, h2, h3⟩
              | vStr s2 =>
                  simp only [hx] at hres
                  injection hres with hA hB
                  rw [← hA]; exact ⟨h1, h2, h3⟩
              | vDate ms =>
                  simp only [hx] at hres
                  injection hres with hA hB
                  rw [← hA]; exact ⟨h1, h2, h3⟩
              | vArr xs =>
                  simp only [hx] at hres
                  injection hres with hA hB
                  rw [← hA]; exact ⟨h1, h2, h3⟩

/-- The `updateMany` loop preserves pairwise distinct ids, object documents,
and the rebuilt `_id` bucket map of the live array. -/
theorem updateManyLoop_inv {rx : Rx} {update : List (String × JsVal)} {now : Int}
    (hu : updateAvoidsId update = true) :
    ∀ (ds data : List JsVal) (m : Nat) {data2 : List JsVal} {res : Except String Nat},
      updateManyLoop rx update now data ds m = (data2, res) →
      NodupIds data → (∀ d ∈ data, isObjDoc d = true) →
      NodupIds data2 ∧ (∀ d ∈ data2, isObjDoc d = true) ∧
        rebuildFieldIndex data2 "_id" = rebuildFieldIndex data "_id" := by
  intro ds
  induction ds with
  | nil =>
      intro data m data2 res hrun h1 h2
      unfold updateManyLoop at hrun
      injection hrun with hA hB
      rw [← hA]
      exact ⟨h1, h2, rfl⟩
  | cons c rest ih =>
      intro data m data2 res hrun h1 h2
      unfold updateManyLoop at hrun
      cases hfi : data.findIdx? fun d => jsStrictEq (propGet d "_id") (propGet c "_id") with
      | none =>
          simp only [hfi] at hrun
          exact ih data m hrun h1 h2
      | some i =>
          simp only [hfi] at hrun
          cases hx : data[i]? with
          | none =>
              simp only [hx] at hrun
              injection hrun with hA hB
              rw [← hA]
              exact ⟨h1, h2, rfl⟩
          | some x =>
              cases x with
              | vObj fs =>
                  simp only [hx] at hrun
                  cases happ : applyUpdateEff rx fs update with
                  | mk eff oe =>
                      have hkeep := @applyUpdateEff_keepsId rx fs _ hu
                      rw [happ] at hkeep
                      cases oe with
                      | none =>
                          simp only [happ] at hrun
                          have hidp : getField (setField eff.res "updatedAt" (vDate now))
                              "_id" = getField fs "_id" := by
                            rw [getField_setField_ne _ _ (show "updatedAt" ≠ "_id" by decide)]
                            exact hkeep.1
                          obtain ⟨d1, d2, d3⟩ := dataSet_inv h1 h2 hx hidp
                          obtain ⟨e1, e2, e3⟩ := ih _ (m + 1) hrun d1 d2
                          exact ⟨e1, e2, e3.trans d3⟩
                      | some e =>
                          simp only [happ] at hrun
                          injection hrun with hA hB
                          rw [← hA]
                          exact dataSet_inv h1 h2 hx hkeep.2
              | vNull =>
                  simp only [hx] at hrun
                  injection hrun with hA hB
                  rw [← hA]; exact ⟨h1, h2, rfl⟩
              | vBool b =>
                  simp only [hx] at hrun
                  injection hrun with hA hB
                  rw [← hA]; exact ⟨h1, h2, rfl⟩
              | vNum n =>
                  simp only [hx] at hrun
                  injection hrun with hA hB
                  rw [← hA]; exact ⟨h1, h2, rfl⟩
              | vStr s2 =>
                  simp only [hx] at hrun
                  injection hrun with hA hB
                  rw [← hA]; exact ⟨h1, h2, rfl⟩
              | vDate ms =>
                  simp only [hx] at hrun
                  injection hrun with hA hB
                  rw [← hA]; exact ⟨h1, h2, rfl⟩
              | vArr xs =>
                  simp only [hx] at hrun
                  injection hrun with hA hB
                  rw [← hA]; exact ⟨h1, h2, rfl⟩

/-- `updateMany` with an `_id`-avoiding description preserves the invariant. -/
theorem updateManySt_inv {rx : Rx} {st : CollState} {q update : List (String × JsVal)}
    {now : Int} (hu : updateAvoidsId update = true) (h : CollInv st) :
    CollInv (updateManySt rx st q update now).1 := by
  obtain ⟨h1, h2, h3⟩ := h
  cases hres : updateManySt rx st q update now with
  | mk st2 r =>
      simp only [updateManySt] at hres
      cases hloop : updateManyLoop rx update now st.data (findDocs rx st q {}) 0 with
      | mk data2 res =>
          obtain ⟨e1, e2, e3⟩ := updateManyLoop_inv hu _ _ 0 hloop h1 h2
          cases res with
          | ok m =>
              simp only [hloop] at hres
              by_cases hm : m > 0
              · rw [if_pos hm] at hres
                injection hres with hA hB
                rw [← hA]
                exact ⟨e1, e2, rebuildIndexes_mem h3⟩
              · rw [if_neg hm] at hres
                injection hres with hA hB
                rw [← hA]
                refine ⟨e1, e2, ?_⟩
                show ("_id", IndexInfo.mk true (rebuildFieldIndex data2 "_id")) ∈ st.indexes
                rw [e3]
                exact h3
          | error e =>
              simp only [hloop] at hres
              injection hres with hA hB
              rw [← hA]
              refine ⟨e1, e2, ?_⟩
              show ("_id", IndexInfo.mk true (rebuildFieldIndex data2 "_id")) ∈ st.indexes
              rw [e3]
              exact h3

/-- `deleteOne` preserves the invariant. -/
theorem deleteOneSt_inv {rx : Rx} {st : CollState} {q : List (String × JsVal)}
    (h : CollInv st) : CollInv (deleteOneSt rx st q).1 := by
  obtain ⟨h1, h2, h3⟩ := h
  cases hres : deleteOneSt rx st q with
  | mk st2 n =>
      simp only [deleteOneSt] at hres
      cases hfo : findOneDoc rx st q with
      | none =>
          simp only [hfo] at hres
          injection hres with hA hB
          rw [← hA]; exact ⟨h1, h2, h3⟩
      | some doc =>
          simp only [hfo] at hres
          cases hidx : st.data.findIdx? fun d =>
              jsStrictEq (propGet d "_id") (propGet doc "_id") with
          | none =>
              simp only [hidx] at hres
              injection hres with hA hB
              rw [← hA]; exact ⟨h1, h2, h3⟩
          | some i =>
              simp only [hidx] at hres
              injection hres with hA hB
              rw [← hA]
              refine ⟨?_, ?_, rebuildIndexes_mem h3⟩
              · exact List.Pairwise.sublist (List.eraseIdx_sublist st.data i) h1
              · intro d hd
                exact h2 d ((List.eraseIdx_sublist st.data i).subset hd)

/-- `deleteMany` preserves the invariant, whether or not anything matched. -/
theorem deleteManySt_inv {rx : Rx} {st : CollState} {q : List (String × JsVal)}
    (h : CollInv st) : CollInv (deleteManySt rx st q).1 := by
  obtain ⟨h1, h2, h3⟩ := h
  cases hres : deleteManySt rx st q with
  | mk st2 n =>
      simp only [deleteManySt] at hres
      split at hres
      · injection hres with hA hB
        rw [← hA]
        refine ⟨?_, ?_, rebuildIndexes_mem h3⟩
        · exact List.Pairwise.sublist (List.filter_sublist st.data) h1
        · intro d hd
          exact h2 d ((List.filter_sublist st.data).subset hd)
      · rename_i hcond
        injection hres with hA hB
        rw [← hA]
        have hfe := filter_eq_self_of_sub hcond
        refine ⟨?_, ?_, ?_⟩
        · exact List.Pairwise.sublist (List.filter_sublist st.data) h1
        · intro d hd
          exact h2 d ((List.filter_sublist st.data).subset hd)
        · rw [hfe]
          exact h3

/-- Every collection state reachable through the Model operation surface
satisfies the collection invariant. -/
theorem reach_collInv {rx : Rx} {st : CollState} (h : Reach rx st) : CollInv st := by
  induction h with
  | init => exact initColl_inv
  | createIdx f u hf hr ih => exact createIndexSt_inv hf ih
  | insertOne doc newId now hr ih => exact insertOneSt_inv ih
  | insertMany docs ids now hr ih => exact insertManySt_inv docs _ ids now ih
  | updateOne q update now hu hr ih => exact updateOneSt_inv hu ih
  | updateMany q update now hu hr ih => exact updateManySt_inv hu ih
  | findByIdAndUpdate id update now optionNew hu hr ih => exact findByIdAndUpdateSt_inv hu ih
  | deleteOne q hr ih => exact deleteOneSt_inv ih
  | deleteMany q hr ih => exact deleteManySt_inv ih

/-- C4, amended: in every collection state reachable from the `Model` start
state (which always carries the unique `_id` index) through inserts, deletes,
and updates whose descriptions never address the `_id` field, no two stored
documents have the same `_id` under the `===` test; the unrestricted claim is
refuted by `c4_counterexample`, where a `$set` on `_id` forges a duplicate. -/
theorem c4_amended {rx : Rx} {st : CollState} (h : Reach rx st) : NodupIds st.data :=
  (reach_collInv h).1

/-- C4 amended witness: one insert into the `Model` start state is a
reachable state, and its ids are pairwise distinct. -/
theorem c4_amended_witness :
    NodupIds ((insertOneSt initColl [("name", vStr "A")] "a1" 0).1).data :=
  @c4_amended rxNone _ (Reach.insertOne [("name", vStr "A")] "a1" 0 Reach.init)

/-- `Char.isDigit` through `toNat`. -/
theorem isDigit_eq (c : Char) : c.isDigit = (48 ≤ c.toNat && c.toNat ≤ 57) := rfl

/-- The code point of a decimal digit character. -/
theorem digitChar10_toNat {n : Nat} (h : n < 10) : (digitChar10 n).toNat = 48 + n := by
  unfold digitChar10 Char.ofNat
  rw [dif_pos (by left; omega)]
  rfl

/-- Decimal digit characters are digits. -/
theorem digitChar10_isDigit {n : Nat} (h : n < 10) : (digitChar10 n).isDigit = true := by
  rw [isDigit_eq, digitChar10_toNat h]
  simp only [Bool.and_eq_true, decide_eq_true_eq]
  omega

/-- A digit is not JSON whitespace. -/
theorem isJsonWs_of_digit {c : Char} (h : c.isDigit = true) : isJsonWs c = false := by
  rw [isDigit_eq] at h
  simp only [Bool.and_eq_true, decide_eq_true_eq] at h
  unfold isJsonWs
  by_contra hor
  simp only [Bool.not_eq_false, Bool.or_eq_true, decide_eq_true_eq] at hor
  rcases hor with ((h1 | h1) | h1) | h1 <;> subst h1 <;> revert h <;> decide

/-- The numeric value of a digit run with one more digit appended. -/
theorem digitsToNat_append (ds : List Char) (c : Char) :
    digitsToNat (ds ++ [c]) = digitsToNat ds * 10 + (c.toNat - 48) := by
  unfold digitsToNat
  rw [List.foldl_append]
  rfl

/-- The decimal rendering of `n` is a nonempty digit run whose value is
`n` again. -/
theorem natDecimalAux_spec :
    ∀ (fuel n : Nat), n < fuel →
      natDecimalAux fuel n ≠ [] ∧ (natDecimalAux fuel n).all Char.isDigit = true ∧
      digitsToNat (natDecimalAux fuel n) = n := by
  intro fuel
  induction fuel with
  | zero => intro n h; omega
  | succ f ih =>
      intro n h
      unfold natDecimalAux
      by_cases hn : n < 10
      · rw [if_pos hn]
        refine ⟨by simp, by simp [digitChar10_isDigit hn], ?_⟩
        show digitsToNat ([] ++ [digitChar10 n]) = n
        rw [digitsToNat_append, digitChar10_toNat hn]
        unfold digitsToNat
        simp
      · rw [if_neg hn]
        have hlt : n / 10 < f := by omega
        obtain ⟨h1, h2, h3⟩ := ih (n / 10) hlt
        refine ⟨by simp, ?_, ?_⟩
        · simp only [List.all_append, Bool.and_eq_true]
          exact ⟨h2, by simp [digitChar10_isDigit (Nat.mod_lt n (by omega))]⟩
        · rw [digitsToNat_append, h3, digitChar10_toNat (Nat.mod_lt n (by omega))]
          omega

/-- Taking digits from a digit run followed by a delimiter splits exactly at
the delimiter. -/
theorem takeDigits_digits :
    ∀ (ds rest : List Char), ds.all Char.isDigit = true → isDelim rest = true →
      takeDigits (ds ++ rest) = (ds, rest) := by
  intro ds
  induction ds with
  | nil =>
      intro rest hd hr
      cases rest with
      | nil => rfl
      | cons c t =>
          cases hdig : c.isDigit with
          | true =>
              simp only [isDelim, hdig] at hr
              simp at hr
          | false =>
              simp [takeDigits, hdig]
  | cons d tl ih =>
      intro rest hd hr
      simp only [List.all_cons, Bool.and_eq_true] at hd
      simp only [List.cons_append]
      simp only [takeDigits, hd.1, if_true]
      rw [ih rest hd.2 hr]

/-- Skipping whitespace steps over a whitespace character. -/
theorem skipWs_cons_true {c : Char} (h : isJsonWs c = true) (l : List Char) :
    skipWs (c :: l) = skipWs l := by
  show (if isJsonWs c = true then skipWs l else c :: l) = skipWs l
  rw [if_pos h]

/-- Skipping whitespace stops at a non-whitespace character. -/
theorem skipWs_cons_false {c : Char} (h : isJsonWs c = false) (l : List Char) :
    skipWs (c :: l) = c :: l := by
  show (if isJsonWs c = true then skipWs l else c :: l) = c :: l
  rw [if_neg (by simp [h])]

/-- Skipping whitespace ignores a whitespace prefix. -/
theorem skipWs_append_all :
    ∀ (ws l : List Char), ws.all isJsonWs = true → skipWs (ws ++ l) = skipWs l := by
  intro ws
  induction ws with
  | nil => intro l _; rfl
  | cons c t ih =>
      intro l hws
      simp only [List.all_cons, Bool.and_eq_true] at hws
      rw [List.cons_append, skipWs_cons_true hws.1, ih l hws.2]

/-- An indentation run is all whitespace. -/
theorem spaces_all_ws (n : Nat) : ((spaces n).data).all isJsonWs = true := by
  show (List.replicate n ' ').all isJsonWs = true
  induction n with
  | zero => rfl
  | succ m ih =>
      show (' ' :: List.replicate m ' ').all isJsonWs = true
      simp only [List.all_cons, Bool.and_eq_true]
      exact ⟨by decide, ih⟩

/-- Parsing a digit run before a delimiter yields its numeric value. -/
theorem parseNumber_digits {ds rest : List Char} (hne : ds ≠ [])
    (hdig : ds.all Char.isDigit = true) (hr : isDelim rest = true) :
    parseNumber (ds ++ rest) = some (vNum ((digitsToNat ds : ℚ)), rest) := by
  obtain ⟨d, tl, hds⟩ : ∃ d tl, ds = d :: tl := by
    cases ds with
    | nil => exact absurd rfl hne
    | cons d tl => exact ⟨d, tl, rfl⟩
  subst hds
  have hd1 : d.isDigit = true := by
    simp only [List.all_cons, Bool.and_eq_true] at hdig; exact hdig.1
  have hdm : d ≠ '-' := by
    intro he; rw [he] at hd1; exact absurd hd1 (by decide)
  have hsig : (match d :: (tl ++ rest) with
      | '-' :: r => ((true : Bool), r)
      | x => ((false : Bool), d :: (tl ++ rest))) = (false, d :: (tl ++ rest)) := by
    split
    next r heq =>
        injection heq with h1 h2
        exact absurd h1 hdm
    next => rfl
  simp only [parseNumber, List.cons_append]
  simp only [hsig]
  rw [show takeDigits (d :: (tl ++ rest)) = (d :: tl, rest) from by
    rw [← List.cons_append]
    exact takeDigits_digits _ _ hdig hr]
  cases rest with
  | nil => rfl
  | cons c t =>
      by_cases hdot : c = '.'
      · subst hdot
        simp only [isDelim] at hr
        simp at hr
      · dsimp only
        split
        next r2 heq =>
            injection heq with h1 h2
            exact absurd h1 hdot
        next => rfl

/-- Parsing a minus sign and a digit run before a delimiter yields the
negated numeric value. -/
theorem parseNumber_neg_digits {ds rest : List Char} (hne : ds ≠ [])
    (hdig : ds.all Char.isDigit = true) (hr : isDelim rest = true) :
    parseNumber ('-' :: (ds ++ rest)) = some (vNum (-(digitsToNat ds : ℚ)), rest) := by
  obtain ⟨d, tl, hds⟩ : ∃ d tl, ds = d :: tl := by
    cases ds with
    | nil => exact absurd rfl hne
    | cons d tl => exact ⟨d, tl, rfl⟩
  subst hds
  simp only [parseNumber, List.cons_append]
  rw [show takeDigits (d :: (tl ++ rest)) = (d :: tl, rest) from by
    rw [← List.cons_append]
    exact takeDigits_digits _ _ hdig hr]
  cases rest with
  | nil => rfl
  | cons c t =>
      by_cases hdot : c = '.'
      · subst hdot
        simp only [isDelim] at hr
        simp at hr
      · dsimp only
        split
        next r2 heq =>
            injection heq with h1 h2
            exact absurd h1 hdot
        next => rfl

/-- Parsing the decimal rendering of a natural number yields it back. -/
theorem parseNumber_natToDecimal (n : Nat) {rest : List Char} (hr : isDelim rest = true) :
    parseNumber ((natToDecimal n).data ++ rest) = some (vNum ((n : ℚ)), rest) := by
  obtain ⟨h1, h2, h3⟩ := natDecimalAux_spec (n + 1) n (by omega)
  show parseNumber (natDecimalAux (n + 1) n ++ rest) = some (vNum ((n : ℚ)), rest)
  rw [parseNumber_digits h1 h2 hr, h3]

/-- Parsing the decimal rendering of an integer yields it back. -/
theorem parseNumber_intToDecimal (i : Int) {rest : List Char} (hr : isDelim rest = true) :
    parseNumber ((intToDecimal i).data ++ rest) = some (vNum ((i : ℚ)), rest) := by
  unfold intToDecimal
  by_cases hneg : i < 0
  · rw [if_pos hneg]
    obtain ⟨h1, h2, h3⟩ := natDecimalAux_spec (i.natAbs + 1) i.natAbs (by omega)
    rw [show (("-" ++ natToDecimal i.natAbs).data ++ rest) =
        '-' :: (natDecimalAux (i.natAbs + 1) i.natAbs ++ rest) from by
      rw [String.data_append]; rfl]
    rw [parseNumber_neg_digits h1 h2 hr, h3]
    have hcast : ((i.natAbs : ℚ)) = ((i.natAbs : ℤ) : ℚ) := (Int.cast_natCast i.natAbs).symm
    have habs : (i.natAbs : ℤ) = -i := by omega
    rw [hcast, habs]
    push_cast
    ring_nf
  · rw [if_neg hneg]
    rw [parseNumber_natToDecimal i.natAbs hr]
    have habs : (i.natAbs : ℤ) = i := by omega
    have hcast : ((i.natAbs : ℚ)) = ((i.natAbs : ℤ) : ℚ) := (Int.cast_natCast i.natAbs).symm
    rw [hcast, habs]

/-- The printer escape of a plain string parses back to the string, up to
the closing quote. -/
theorem parseStringBody_escape :
    ∀ (cs : List Char), cs.all plainChar = true → ∀ (rest : List Char),
      parseStringBody (escapeList cs ++ '"' :: rest) = some (String.mk cs, rest) := by
  intro cs
  induction cs with
  | nil => intro h rest; rfl
  | cons c tl ih =>
      intro h rest
      simp only [List.all_cons, Bool.and_eq_true] at h
      obtain ⟨hc, htl⟩ := h
      have ihr := ih htl rest
      by_cases h1 : c = '"'
      · subst h1
        show parseStringBody ('\\' :: '"' :: (escapeList tl ++ '"' :: rest)) =
          some (String.mk ('"' :: tl), rest)
        have hstep : parseStringBody ('\\' :: '"' :: (escapeList tl ++ '"' :: rest))
            = (parseStringBody (escapeList tl ++ '"' :: rest)).map
                fun p => (String.singleton '"' ++ p.1, p.2) := rfl
        rw [hstep, ihr]
        rfl
      · by_cases h2 : c = '\\'
        · subst h2
          show parseStringBody ('\\' :: '\\' :: (escapeList tl ++ '"' :: rest)) =
            some (String.mk ('\\' :: tl), rest)
          have hstep : parseStringBody ('\\' :: '\\' :: (escapeList tl ++ '"' :: rest))
              = (parseStringBody (escapeList tl ++ '"' :: rest)).map
                  fun p => (String.singleton '\\' ++ p.1, p.2) := rfl
          rw [hstep, ihr]
          rfl
        · by_cases h3 : c = '\n'
          · subst h3
            show parseStringBody ('\\' :: 'n' :: (escapeList tl ++ '"' :: rest)) =
              some (String.mk ('\n' :: tl), rest)
            have hstep : parseStringBody ('\\' :: 'n' :: (escapeList tl ++ '"' :: rest))
                = (parseStringBody (escapeList tl ++ '"' :: rest)).map
                    fun p => (String.singleton '\n' ++ p.1, p.2) := rfl
            rw [hstep, ihr]
            rfl
          · by_cases h4 : c = '\t'
            · subst h4
              show parseStringBody ('\\' :: 't' :: (escapeList tl ++ '"' :: rest)) =
                some (String.mk ('\t' :: tl), rest)
              have hstep : parseStringBody ('\\' :: 't' :: (escapeList tl ++ '"' :: rest))
                  = (parseStringBody (escapeList tl ++ '"' :: rest)).map
                      fun p => (String.singleton '\t' ++ p.1, p.2) := rfl
              rw [hstep, ihr]
              rfl
            · by_cases h5 : c = '\r'
              · subst h5
                show parseStringBody ('\\' :: 'r' :: (escapeList tl ++ '"' :: rest)) =
                  some (String.mk ('\r' :: tl), rest)
                have hstep : parseStringBody ('\\' :: 'r' :: (escapeList tl ++ '"' :: rest))
                    = (parseStringBody (escapeList tl ++ '"' :: rest)).map
                        fun p => (String.singleton '\r' ++ p.1, p.2) := rfl
                rw [hstep, ihr]
                rfl
              · by_cases h6 : c = '\x08'
                · subst h6
                  show parseStringBody ('\\' :: 'b' :: (escapeList tl ++ '"' :: rest)) =
                    some (String.mk ('\x08' :: tl), rest)
                  have hstep : parseStringBody ('\\' :: 'b' :: (escapeList tl ++ '"' :: rest))
                      = (parseStringBody (escapeList tl ++ '"' :: rest)).map
                          fun p => (String.singleton '\x08' ++ p.1, p.2) := rfl
                  rw [hstep, ihr]
                  rfl
                · by_cases h7 : c = '\x0c'
                  · subst h7
                    show parseStringBody ('\\' :: 'f' :: (escapeList tl ++ '"' :: rest)) =
                      some (String.mk ('\x0c' :: tl), rest)
                    have hstep : parseStringBody ('\\' :: 'f' :: (escapeList tl ++ '"' :: rest))
                        = (parseStringBody (escapeList tl ++ '"' :: rest)).map
                            fun p => (String.singleton '\x0c' ++ p.1, p.2) := rfl
                    rw [hstep, ihr]
                    rfl
                  · have h32 : ¬(c.toNat < 32) := by
                      unfold plainChar at hc
                      simp only [Bool.or_eq_true, decide_eq_true_eq] at hc
                      rcases hc with ((((h | h) | h) | h) | h) | h
                      · omega
                      · exact absurd h h3
                      · exact absurd h h4
                      · exact absurd h h5
                      · exact absurd h h6
                      · exact absurd h h7
                    have hesc : escapeChar c = String.singleton c := by
                      unfold escapeChar
                      rw [if_neg h1, if_neg h2, if_neg h3, if_neg h4, if_neg h5,
                        if_neg h6, if_neg h7, if_neg h32]
                    show parseStringBody ((escapeChar c).data ++ escapeList tl ++ '"' :: rest) =
                      some (String.mk (c :: tl), rest)
                    rw [hesc]
                    show parseStringBody (c :: (escapeList tl ++ '"' :: rest)) =
                      some (String.mk (c :: tl), rest)
                    unfold parseStringBody
                    split
                    next heq => exact absurd heq (by simp)
                    next r heq =>
                        injection heq with ha hb
                        exact absurd ha h1
                    next hx1 hx2 hx3 hx4 r heq =>
                        injection heq with ha hb
                        exact absurd ha h2
                    next e r heq =>
                        injection heq with ha hb
                        exact absurd ha h2
                    next c2 r heq =>
                        injection heq with ha hb
                        subst ha
                        subst hb
                        rw [if_neg h32, ihr]
                        rfl

/-- Values have positive structural size. -/
theorem qsize_pos (v : JsVal) : 1 ≤ qsize v := by
  cases v <;> simp [qsize]

/-- The first character the indented printer emits for a plain value. -/
theorem printHeadSpec {v : JsVal} (hv : plainVal v = true) (d : Nat) :
    ∃ c t, (printIndent d v).data = c :: t ∧
      (c = 'n' ∨ c = 't' ∨ c = 'f' ∨ c = '"' ∨ c = '[' ∨ c = '\x7b' ∨ c = '-' ∨
        c.isDigit = true) := by
  cases v with
  | vNull => exact ⟨'n', ['u', 'l', 'l'], rfl, by simp⟩
  | vBool b =>
      cases b with
      | false => exact ⟨'f', ['a', 'l', 's', 'e'], rfl, by simp⟩
      | true => exact ⟨'t', ['r', 'u', 'e'], rfl, by simp⟩
  | vNum q =>
      have hden : q.den = 1 := Nat.eq_of_beq_eq_true (by simpa [plainVal] using hv)
      show ∃ c t, (numToString q).data = c :: t ∧ _
      unfold numToString
      rw [if_pos hden]
      unfold intToDecimal
      by_cases hneg : q.num < 0
      · rw [if_pos hneg]
        refine ⟨'-', (natToDecimal q.num.natAbs).data, ?_, by simp⟩
        rw [String.data_append]
        rfl
      · rw [if_neg hneg]
        obtain ⟨h1, h2, h3⟩ := natDecimalAux_spec (q.num.natAbs + 1) q.num.natAbs (by omega)
        obtain ⟨c, t, hct⟩ : ∃ c t, natDecimalAux (q.num.natAbs + 1) q.num.natAbs = c :: t := by
          cases hh : natDecimalAux (q.num.natAbs + 1) q.num.natAbs with
          | nil => exact absurd hh h1
          | cons c t => exact ⟨c, t, rfl⟩
        have hcd : c.isDigit = true := by
          rw [hct] at h2
          simp only [List.all_cons, Bool.and_eq_true] at h2
          exact h2.1
        exact ⟨c, t, hct, by simp [hcd]⟩
  | vStr s => exact ⟨'"', escapeList s.data ++ ['"'], rfl, by simp⟩
  | vDate ms => simp [plainVal] at hv
  | vArr xs =>
      cases xs with
      | nil => exact ⟨'[', [']'], rfl, by simp⟩
      | cons x xs2 =>
          have harr : (printIndent d (vArr (x :: xs2))).data
              = '[' :: '\n' :: ((printIndentItems (d + 1) (x :: xs2)).data ++
                  ('\n' :: ((spaces (2 * d)).data ++ [']']))) := by
            simp only [printIndent, String.data_append, List.append_assoc]
            rfl
          exact ⟨'[', _, harr, by simp⟩
  | vObj fs =>
      cases fs with
      | nil => exact ⟨'\x7b', ['\x7d'], rfl, by simp⟩
      | cons f fs2 =>
          have hobj : (printIndent d (vObj (f :: fs2))).data
              = '\x7b' :: '\n' :: ((printIndentFields (d + 1) (f :: fs2)).data ++
                  ('\n' :: ((spaces (2 * d)).data ++ ['\x7d']))) := by
            simp only [printIndent, String.data_append, List.append_assoc]
            rfl
          exact ⟨'\x7b', _, hobj, by simp⟩

/-- No printed first character is whitespace. -/
theorem head_not_ws {c : Char}
    (h : c = 'n' ∨ c = 't' ∨ c = 'f' ∨ c = '"' ∨ c = '[' ∨ c = '\x7b' ∨ c = '-' ∨
      c.isDigit = true) : isJsonWs c = false := by
  rcases h with h | h | h | h | h | h | h | h
  · subst h; decide
  · subst h; decide
  · subst h; decide
  · subst h; decide
  · subst h; decide
  · subst h; decide
  · subst h; decide
  · exact isJsonWs_of_digit h

/-- No printed first character closes an array or an object. -/
theorem head_not_close {c : Char}
    (h : c = 'n' ∨ c = 't' ∨ c = 'f' ∨ c = '"' ∨ c = '[' ∨ c = '\x7b' ∨ c = '-' ∨
      c.isDigit = true) : c ≠ ']' ∧ c ≠ '\x7d' := by
  constructor
  · intro he
    subst he
    rcases h with h | h | h | h | h | h | h | h <;> revert h <;> decide
  · intro he
    subst he
    rcases h with h | h | h | h | h | h | h | h <;> revert h <;> decide

/-- The items of a nonempty array, with any suffix, decompose into
indentation, the first item, and the tail. -/
theorem printIndentItems_decomp (d : Nat) (x : JsVal) (xs : List JsVal) (suffix : List Char) :
    (printIndentItems d (x :: xs)).data ++ suffix
      = (spaces (2 * d)).data ++ ((printIndent d x).data ++ (itemsTail d xs ++ suffix)) := by
  cases xs with
  | nil =>
      simp only [printIndentItems, itemsTail, String.data_append, List.append_assoc,
        List.nil_append]
  | cons y ys =>
      simp only [printIndentItems, itemsTail, String.data_append, List.append_assoc]

/-- The members of a nonempty object, with any suffix, decompose into
indentation, the quoted key, the separator, the value, and the tail. -/
theorem printIndentFields_decomp (d : Nat) (k : String) (v : JsVal)
    (fs : List (String × JsVal)) (suffix : List Char) :
    (printIndentFields d ((k, v) :: fs)).data ++ suffix
      = (spaces (2 * d)).data ++ ((quoteJson k).data ++
          (':' :: ' ' :: ((printIndent d v).data ++ (membersTail d fs ++ suffix)))) := by
  cases fs with
  | nil =>
      simp only [printIndentFields, membersTail, String.data_append, List.append_assoc,
        List.nil_append]
      rfl
  | cons g gs =>
      simp only [printIndentFields, membersTail, String.data_append, List.append_assoc]
      rfl

/-- After a whitespace run, a closing bracket position is a number
delimiter. -/
theorem isDelim_ws_close {ws2 : List Char} (hws2 : ws2.all isJsonWs = true) {c0 : Char}
    (hc0 : c0 = ']' ∨ c0 = '\x7d') (l : List Char) : isDelim (ws2 ++ c0 :: l) = true := by
  cases ws2 with
  | nil =>
      rcases hc0 with h | h <;> subst h <;> rfl
  | cons w tw =>
      simp only [List.all_cons, Bool.and_eq_true] at hws2
      show isDelim (w :: (tw ++ c0 :: l)) = true
      unfold isJsonWs at hws2
      have hw := hws2.1
      simp only [Bool.or_eq_true, decide_eq_true_eq] at hw
      rcases hw with ((h | h) | h) | h <;> subst h <;> rfl

/-- The position after a printed array item is a number delimiter. -/
theorem isDelim_itemsTail (d : Nat) (xs : List JsVal) {ws2 : List Char}
    (hws2 : ws2.all isJsonWs = true) {c0 : Char} (hc0 : c0 = ']' ∨ c0 = '\x7d')
    (l : List Char) : isDelim (itemsTail d xs ++ (ws2 ++ c0 :: l)) = true := by
  cases xs with
  | nil => exact isDelim_ws_close hws2 hc0 l
  | cons y ys => rfl

/-- The position after a printed object member is a number delimiter. -/
theorem isDelim_membersTail (d : Nat) (fs : List (String × JsVal)) {ws2 : List Char}
    (hws2 : ws2.all isJsonWs = true) {c0 : Char} (hc0 : c0 = ']' ∨ c0 = '\x7d')
    (l : List Char) : isDelim (membersTail d fs ++ (ws2 ++ c0 :: l)) = true := by
  cases fs with
  | nil => exact isDelim_ws_close hws2 hc0 l
  | cons g gs => rfl

/-- C7, counterexample: a stored document holds `createdAt` as a `Date`, but
`JSON.stringify` serialises a `Date` to a string and `JSON.parse` has no
reviver, so reloading the flushed file yields a document whose `createdAt`
is a string — not the same field value the in-memory state had. -/
theorem c7_counterexample :
    loadCollectionText (saveCollectionText c7DateDocs) =
      [vObj [("_id", vStr "65000005cccccccccccccccc"), ("createdAt", vStr "0")]] ∧
    loadCollectionText (saveCollectionText c7DateDocs) ≠ c7DateDocs := by
  refine ⟨rfl, fun h => absurd (congrArg c7HasDate h) (by decide)⟩


/-- The first character of a printed integral number is a minus sign or a
digit. -/
theorem numToString_head {q : ℚ} (hden : q.den = 1) :
    ∃ c t, (numToString q).data = c :: t ∧ (c = '-' ∨ c.isDigit = true) := by
  unfold numToString
  rw [if_pos hden]
  unfold intToDecimal
  by_cases hneg : q.num < 0
  · rw [if_pos hneg]
    refine ⟨'-', (natToDecimal q.num.natAbs).data, ?_, Or.inl rfl⟩
    rw [String.data_append]
    rfl
  · rw [if_neg hneg]
    obtain ⟨h1, h2, h3⟩ := natDecimalAux_spec (q.num.natAbs + 1) q.num.natAbs (by omega)
    obtain ⟨c, t, hct⟩ : ∃ c t, natDecimalAux (q.num.natAbs + 1) q.num.natAbs = c :: t := by
      cases hh : natDecimalAux (q.num.natAbs + 1) q.num.natAbs with
      | nil => exact absurd hh h1
      | cons c t => exact ⟨c, t, rfl⟩
    have hcd : c.isDigit = true := by
      rw [hct] at h2
      simp only [List.all_cons, Bool.and_eq_true] at h2
      exact h2.1
    exact ⟨c, t, hct, Or.inr hcd⟩

/-- Round-trip of the JSON printer and parser on plain values, with enough
fuel: a printed value parses back to itself from any whitespace prefix,
leaving any delimiter-headed suffix untouched (stated mutually for values,
array items and object members). -/
theorem parsePrint : ∀ fuel : Nat,
    (∀ v d ws rest, plainVal v = true → ws.all isJsonWs = true → isDelim rest = true →
      qsize v ≤ fuel →
      parseVal fuel (ws ++ ((printIndent d v).data ++ rest)) = some (v, rest)) ∧
    (∀ x xs d ws ws2 rest, plainVal x = true → plainList xs = true →
      ws.all isJsonWs = true → ws2.all isJsonWs = true → qsizeL (x :: xs) ≤ fuel →
      parseItems fuel
          (ws ++ ((printIndent d x).data ++ (itemsTail d xs ++ (ws2 ++ (']' :: rest)))))
        = some (x :: xs, rest)) ∧
    (∀ k v fs d ws ws2 rest, plainStr k = true → plainVal v = true → plainFields fs = true →
      ws.all isJsonWs = true → ws2.all isJsonWs = true → qsizeO ((k, v) :: fs) ≤ fuel →
      parseMembers fuel (ws ++ ((quoteJson k).data ++ (':' :: ' ' ::
          ((printIndent d v).data ++ (membersTail d fs ++ (ws2 ++ ('\x7d' :: rest)))))))
        = some ((k, v) :: fs, rest)) := by
  intro fuel
  induction fuel with
  | zero =>
      refine ⟨?_, ?_, ?_⟩
      · intro v d ws rest _ _ _ hf
        exact absurd hf (by have := qsize_pos v; omega)
      · intro x xs d ws ws2 rest _ _ _ _ hf
        exfalso
        have := qsize_pos x
        simp only [qsizeL] at hf
        omega
      · intro k v fs d ws ws2 rest _ _ _ _ _ hf
        exfalso
        have := qsize_pos v
        simp only [qsizeO] at hf
        omega
  | succ m ih =>
      obtain ⟨ihV, ihI, ihM⟩ := ih
      refine ⟨?_, ?_, ?_⟩
      · intro v d ws rest hv hws hrest hf
        cases v with
        | vNull =>
            unfold parseVal
            rw [show skipWs (ws ++ ((printIndent d vNull).data ++ rest))
                = 'n' :: 'u' :: 'l' :: 'l' :: rest from by
              rw [skipWs_append_all ws _ hws]
              exact skipWs_cons_false (by decide) _]
            rfl
        | vBool b =>
            cases b with
            | true =>
                unfold parseVal
                rw [show skipWs (ws ++ ((printIndent d (vBool true)).data ++ rest))
                    = 't' :: 'r' :: 'u' :: 'e' :: rest from by
                  rw [skipWs_append_all ws _ hws]
                  exact skipWs_cons_false (by decide) _]
                rfl
            | false =>
                unfold parseVal
                rw [show skipWs (ws ++ ((printIndent d (vBool false)).data ++ rest))
                    = 'f' :: 'a' :: 'l' :: 's' :: 'e' :: rest from by
                  rw [skipWs_append_all ws _ hws]
                  exact skipWs_cons_false (by decide) _]
                rfl
        | vNum q =>
            have hden : q.den = 1 := Nat.eq_of_beq_eq_true (by simpa [plainVal] using hv)
            obtain ⟨c, t, hct, hcase⟩ := numToString_head hden
            unfold parseVal
            rw [show skipWs (ws ++ ((printIndent d (vNum q)).data ++ rest))
                = c :: (t ++ rest) from by
              rw [skipWs_append_all ws _ hws]
              rw [show (printIndent d (vNum q)).data ++ rest = c :: (t ++ rest) from by
                rw [show (printIndent d (vNum q)).data = (numToString q).data from rfl, hct]
                rfl]
              refine skipWs_cons_false ?_ _
              rcases hcase with h | h
              · subst h; decide
              · exact isJsonWs_of_digit h]
            split
            next r heq =>
                injection heq with ha hb
                subst ha
                rcases hcase with h | h
                · exact absurd h (by decide)
                · exact absurd h (by decide)
            next r heq =>
                injection heq with ha hb
                subst ha
                rcases hcase with h | h
                · exact absurd h (by decide)
                · exact absurd h (by decide)
            next r heq =>
                injection heq with ha hb
                subst ha
                rcases hcase with h | h
                · exact absurd h (by decide)
                · exact absurd h (by decide)
            next r heq =>
                injection heq with ha hb
                subst ha
                rcases hcase with h | h
                · exact absurd h (by decide)
                · exact absurd h (by decide)
            next r heq =>
                injection heq with ha hb
                subst ha
                rcases hcase with h | h
                · exact absurd h (by decide)
                · exact absurd h (by decide)
            next r heq =>
                injection heq with ha hb
                subst ha
                rcases hcase with h | h
                · exact absurd h (by decide)
                · exact absurd h (by decide)
            next =>
                rw [← List.cons_append, ← hct]
                show parseNumber ((numToString q).data ++ rest) = some (vNum q, rest)
                unfold numToString
                rw [if_pos hden]
                rw [parseNumber_intToDecimal q.num hrest, (Rat.den_eq_one_iff q).mp hden]
        | vStr s =>
            have hs : plainStr s = true := by simpa [plainVal] using hv
            unfold parseVal
            rw [show skipWs (ws ++ ((printIndent d (vStr s)).data ++ rest))
                = '"' :: (escapeList s.data ++ ('"' :: rest)) from by
              rw [skipWs_append_all ws _ hws]
              rw [show (printIndent d (vStr s)).data ++ rest
                  = '"' :: (escapeList s.data ++ ('"' :: rest)) from by
                show ('"' :: (escapeList s.data ++ ['"'])) ++ rest = _
                simp [List.append_assoc]]
              exact skipWs_cons_false (by decide) _]
            show (parseStringBody (escapeList s.data ++ ('"' :: rest))).map
                (fun p => (vStr p.1, p.2)) = some (vStr s, rest)
            rw [parseStringBody_escape s.data hs rest]
            rfl
        | vDate ms => simp [plainVal] at hv
        | vArr xs =>
            cases xs with
            | nil =>
                unfold parseVal
                rw [show skipWs (ws ++ ((printIndent d (vArr [])).data ++ rest))
                    = '[' :: (']' :: rest) from by
                  rw [skipWs_append_all ws _ hws]
                  exact skipWs_cons_false (by decide) _]
                rfl
            | cons x xs2 =>
                have hva : plainVal x = true ∧ plainList xs2 = true := by
                  simpa [plainVal, plainList] using hv
                have harr : (printIndent d (vArr (x :: xs2))).data
                    = '[' :: '\n' :: ((printIndentItems (d + 1) (x :: xs2)).data ++
                        ('\n' :: ((spaces (2 * d)).data ++ [']']))) := by
                  simp only [printIndent, String.data_append, List.append_assoc]
                  rfl
                unfold parseVal
                rw [show skipWs (ws ++ ((printIndent d (vArr (x :: xs2))).data ++ rest))
                    = '[' :: ('\n' :: ((printIndentItems (d + 1) (x :: xs2)).data ++
                        ('\n' :: ((spaces (2 * d)).data ++ (']' :: rest))))) from by
                  rw [skipWs_append_all ws _ hws, harr]
                  rw [show ('[' :: '\n' :: ((printIndentItems (d + 1) (x :: xs2)).data ++
                        ('\n' :: ((spaces (2 * d)).data ++ [']'])))) ++ rest
                      = '[' :: ('\n' :: ((printIndentItems (d + 1) (x :: xs2)).data ++
                        ('\n' :: ((spaces (2 * d)).data ++ (']' :: rest))))) from by
                    simp [List.append_assoc]]
                  exact skipWs_cons_false (by decide) _]
                show (match skipWs ('\n' :: ((printIndentItems (d + 1) (x :: xs2)).data ++
                        ('\n' :: ((spaces (2 * d)).data ++ (']' :: rest))))) with
                  | ']' :: r2 => some (vArr [], r2)
                  | r2 => Option.map (fun p => (vArr p.1, p.2)) (parseItems m r2))
                  = some (vArr (x :: xs2), rest)
                obtain ⟨c, t, hct, hcase⟩ := printHeadSpec hva.1 (d + 1)
                rw [show skipWs ('\n' :: ((printIndentItems (d + 1) (x :: xs2)).data ++
                        ('\n' :: ((spaces (2 * d)).data ++ (']' :: rest)))))
                    = c :: (t ++ (itemsTail (d + 1) xs2 ++
                        (('\n' :: (spaces (2 * d)).data) ++ (']' :: rest)))) from by
                  rw [skipWs_cons_true (by decide) _]
                  rw [printIndentItems_decomp (d + 1) x xs2 _]
                  rw [skipWs_append_all _ _ (spaces_all_ws _)]
                  rw [hct, List.cons_append]
                  rw [skipWs_cons_false (head_not_ws hcase) _]
                  simp [List.append_assoc]]
                split
                next r2 heq =>
                    injection heq with ha hb
                    subst ha
                    exact absurd rfl (head_not_close hcase).1
                next =>
                    rw [← List.cons_append, ← hct]
                    have hI := ihI x xs2 (d + 1) [] ('\n' :: (spaces (2 * d)).data) rest
                      hva.1 hva.2 rfl
                      (by simp only [List.all_cons, Bool.and_eq_true]
                          exact ⟨by decide, spaces_all_ws _⟩)
                      (by simp only [qsize] at hf; omega)
                    rw [List.nil_append] at hI
                    rw [hI]
                    rfl
        | vObj fs =>
            cases fs with
            | nil =>
                unfold parseVal
                rw [show skipWs (ws ++ ((printIndent d (vObj [])).data ++ rest))
                    = '\x7b' :: ('\x7d' :: rest) from by
                  rw [skipWs_append_all ws _ hws]
                  exact skipWs_cons_false (by decide) _]
                rfl
            | cons f fs2 =>
                obtain ⟨k, v0⟩ := f
                have hvf : plainStr k = true ∧ plainVal v0 = true ∧ plainFields fs2 = true := by
                  simp only [plainVal, plainFields, Bool.and_eq_true] at hv
                  exact ⟨hv.1.1.1, hv.1.2, hv.2⟩
                have hobj : (printIndent d (vObj ((k, v0) :: fs2))).data
                    = '\x7b' :: '\n' :: ((printIndentFields (d + 1) ((k, v0) :: fs2)).data ++
                        ('\n' :: ((spaces (2 * d)).data ++ ['\x7d']))) := by
                  simp only [printIndent, String.data_append, List.append_assoc]
                  rfl
                unfold parseVal
                rw [show skipWs (ws ++ ((printIndent d (vObj ((k, v0) :: fs2))).data ++ rest))
                    = '\x7b' :: ('\n' :: ((printIndentFields (d + 1) ((k, v0) :: fs2)).data ++
                        ('\n' :: ((spaces (2 * d)).data ++ ('\x7d' :: rest))))) from by
                  rw [skipWs_append_all ws _ hws, hobj]
                  rw [show ('\x7b' :: '\n' :: ((printIndentFields (d + 1) ((k, v0) :: fs2)).data ++
                        ('\n' :: ((spaces (2 * d)).data ++ ['\x7d'])))) ++ rest
                      = '\x7b' :: ('\n' :: ((printIndentFields (d + 1) ((k, v0) :: fs2)).data ++
                        ('\n' :: ((spaces (2 * d)).data ++ ('\x7d' :: rest))))) from by
                    simp [List.append_assoc]]
                  exact skipWs_cons_false (by decide) _]
                show (match skipWs ('\n' :: ((printIndentFields (d + 1) ((k, v0) :: fs2)).data ++
                        ('\n' :: ((spaces (2 * d)).data ++ ('\x7d' :: rest))))) with
                  | '\x7d' :: r2 => some (vObj [], r2)
                  | r2 => Option.map (fun p => (vObj p.1, p.2)) (parseMembers m r2))
                  = some (vObj ((k, v0) :: fs2), rest)
                rw [show skipWs ('\n' :: ((printIndentFields (d + 1) ((k, v0) :: fs2)).data ++
                        ('\n' :: ((spaces (2 * d)).data ++ ('\x7d' :: rest)))))
                    = '"' :: (escapeList k.data ++ ('"' :: (':' :: ' ' ::
                        ((printIndent (d + 1) v0).data ++ (membersTail (d + 1) fs2 ++
                          (('\n' :: (spaces (2 * d)).data) ++ ('\x7d' :: rest))))))) from by
                  rw [skipWs_cons_true (by decide) _]
                  rw [printIndentFields_decomp (d + 1) k v0 fs2 _]
                  rw [skipWs_append_all _ _ (spaces_all_ws _)]
                  rw [show (quoteJson k).data ++ (':' :: ' ' ::
                        ((printIndent (d + 1) v0).data ++ (membersTail (d + 1) fs2 ++
                          ('\n' :: ((spaces (2 * d)).data ++ ('\x7d' :: rest))))))
                      = '"' :: (escapeList k.data ++ ('"' :: (':' :: ' ' ::
                        ((printIndent (d + 1) v0).data ++ (membersTail (d + 1) fs2 ++
                          (('\n' :: (spaces (2 * d)).data) ++ ('\x7d' :: rest))))))) from by
                    show ('"' :: (escapeList k.data ++ ['"'])) ++ _ = _
                    simp [List.append_assoc]]
                  exact skipWs_cons_false (by decide) _]
                show Option.map (fun p => (vObj p.1, p.2))
                    (parseMembers m ('"' :: (escapeList k.data ++ ('"' :: (':' :: ' ' ::
                        ((printIndent (d + 1) v0).data ++ (membersTail (d + 1) fs2 ++
                          (('\n' :: (spaces (2 * d)).data) ++ ('\x7d' :: rest)))))))))
                    = some (vObj ((k, v0) :: fs2), rest)
                rw [show ('"' :: (escapeList k.data ++ ('"' :: (':' :: ' ' ::
                        ((printIndent (d + 1) v0).data ++ (membersTail (d + 1) fs2 ++
                          (('\n' :: (spaces (2 * d)).data) ++ ('\x7d' :: rest))))))))
                    = (quoteJson k).data ++ (':' :: ' ' ::
                        ((printIndent (d + 1) v0).data ++ (membersTail (d + 1) fs2 ++
                          (('\n' :: (spaces (2 * d)).data) ++ ('\x7d' :: rest))))) from by
                  show _ = ('"' :: (escapeList k.data ++ ['"'])) ++ _
                  simp [List.append_assoc]]
                have hM := ihM k v0 fs2 (d + 1) [] ('\n' :: (spaces (2 * d)).data) rest
                  hvf.1 hvf.2.1 hvf.2.2 rfl
                  (by simp only [List.all_cons, Bool.and_eq_true]
                      exact ⟨by decide, spaces_all_ws _⟩)
                  (by simp only [qsize] at hf; omega)
                rw [List.nil_append] at hM
                rw [hM]
                rfl
      · intro x xs d ws ws2 rest hx hxs hws hws2 hf
        have hV := ihV x d ws (itemsTail d xs ++ (ws2 ++ (']' :: rest))) hx hws
          (isDelim_itemsTail d xs hws2 (Or.inl rfl) rest)
          (by simp only [qsizeL] at hf; omega)
        unfold parseItems
        rw [hV]
        show (match skipWs (itemsTail d xs ++ (ws2 ++ (']' :: rest))) with
          | ',' :: r2 => (parseItems m r2).map fun q => (x :: q.1, q.2)
          | ']' :: r2 => some ([x], r2)
          | _ => none) = some (x :: xs, rest)
        cases xs with
        | nil =>
            rw [show skipWs (itemsTail d ([] : List JsVal) ++ (ws2 ++ (']' :: rest)))
                = ']' :: rest from by
              show skipWs (ws2 ++ (']' :: rest)) = _
              rw [skipWs_append_all ws2 _ hws2]
              exact skipWs_cons_false (by decide) _]
            rfl
        | cons y ys =>
            simp only [plainList, Bool.and_eq_true] at hxs
            rw [show skipWs (itemsTail d (y :: ys) ++ (ws2 ++ (']' :: rest)))
                = ',' :: ('\n' :: ((printIndentItems d (y :: ys)).data ++
                    (ws2 ++ (']' :: rest)))) from by
              show skipWs (',' :: ('\n' :: ((printIndentItems d (y :: ys)).data ++
                  (ws2 ++ (']' :: rest))))) = _
              exact skipWs_cons_false (by decide) _]
            show (parseItems m ('\n' :: ((printIndentItems d (y :: ys)).data ++
                (ws2 ++ (']' :: rest))))).map (fun q => (x :: q.1, q.2))
              = some (x :: (y :: ys), rest)
            rw [show ('\n' :: ((printIndentItems d (y :: ys)).data ++ (ws2 ++ (']' :: rest))))
                = ('\n' :: (spaces (2 * d)).data) ++ ((printIndent d y).data ++
                    (itemsTail d ys ++ (ws2 ++ (']' :: rest)))) from by
              rw [printIndentItems_decomp d y ys (ws2 ++ (']' :: rest))]
              rfl]
            have hI := ihI y ys d ('\n' :: (spaces (2 * d)).data) ws2 rest hxs.1 hxs.2
              (by simp only [List.all_cons, Bool.and_eq_true]
                  exact ⟨by decide, spaces_all_ws _⟩) hws2
              (by simp only [qsizeL] at hf ⊢
                  have := qsize_pos x
                  omega)
            rw [hI]
            rfl
      · intro k v fs d ws ws2 rest hk hv hfs hws hws2 hf
        unfold parseMembers
        rw [show skipWs (ws ++ ((quoteJson k).data ++ (':' :: ' ' ::
              ((printIndent d v).data ++ (membersTail d fs ++ (ws2 ++ ('\x7d' :: rest)))))))
            = '"' :: (escapeList k.data ++ ('"' :: (':' :: ' ' ::
              ((printIndent d v).data ++ (membersTail d fs ++ (ws2 ++ ('\x7d' :: rest)))))))
            from by
          rw [skipWs_append_all ws _ hws]
          rw [show (quoteJson k).data ++ (':' :: ' ' ::
                ((printIndent d v).data ++ (membersTail d fs ++ (ws2 ++ ('\x7d' :: rest)))))
              = '"' :: (escapeList k.data ++ ('"' :: (':' :: ' ' ::
                ((printIndent d v).data ++ (membersTail d fs ++ (ws2 ++ ('\x7d' :: rest)))))))
              from by
            show ('"' :: (escapeList k.data ++ ['"'])) ++ _ = _
            simp [List.append_assoc]]
          exact skipWs_cons_false (by decide) _]
        show (parseStringBody (escapeList k.data ++ ('"' :: (':' :: ' ' ::
              ((printIndent d v).data ++ (membersTail d fs ++ (ws2 ++ ('\x7d' :: rest)))))))).bind
            (fun kp =>
              match skipWs kp.2 with
              | ':' :: r2 =>
                  (parseVal m r2).bind fun p =>
                    match skipWs p.2 with
                    | ',' :: r4 => (parseMembers m r4).map fun q => ((kp.1, p.1) :: q.1, q.2)
                    | '\x7d' :: r4 => some ([(kp.1, p.1)], r4)
                    | _ => none
              | _ => none)
          = some ((k, v) :: fs, rest)
        rw [parseStringBody_escape k.data hk _]
        rw [show String.mk k.data = k from rfl]
        show (match skipWs (':' :: ' ' ::
              ((printIndent d v).data ++ (membersTail d fs ++ (ws2 ++ ('\x7d' :: rest))))) with
          | ':' :: r2 =>
              (parseVal m r2).bind fun p =>
                match skipWs p.2 with
                | ',' :: r4 => (parseMembers m r4).map fun q => ((k, p.1) :: q.1, q.2)
                | '\x7d' :: r4 => some ([(k, p.1)], r4)
                | _ => none
          | _ => none) = some ((k, v) :: fs, rest)
        rw [skipWs_cons_false (by decide) _]
        show (parseVal m (' ' ::
              ((printIndent d v).data ++ (membersTail d fs ++ (ws2 ++ ('\x7d' :: rest)))))).bind
            (fun p =>
              match skipWs p.2 with
              | ',' :: r4 => (parseMembers m r4).map fun q => ((k, p.1) :: q.1, q.2)
              | '\x7d' :: r4 => some ([(k, p.1)], r4)
              | _ => none)
          = some ((k, v) :: fs, rest)
        have hV := ihV v d [' '] (membersTail d fs ++ (ws2 ++ ('\x7d' :: rest))) hv
          (by decide) (isDelim_membersTail d fs hws2 (Or.inr rfl) rest)
          (by simp only [qsizeO] at hf; omega)
        rw [show (' ' :: ((printIndent d v).data ++ (membersTail d fs ++ (ws2 ++ ('\x7d' :: rest)))))
            = [' '] ++ ((printIndent d v).data ++ (membersTail d fs ++ (ws2 ++ ('\x7d' :: rest))))
            from rfl]
        rw [hV]
        show (match skipWs (membersTail d fs ++ (ws2 ++ ('\x7d' :: rest))) with
          | ',' :: r4 => (parseMembers m r4).map fun q => ((k, v) :: q.1, q.2)
          | '\x7d' :: r4 => some ([(k, v)], r4)
          | _ => none) = some ((k, v) :: fs, rest)
        cases fs with
        | nil =>
            rw [show skipWs (membersTail d ([] : List (String × JsVal)) ++
                  (ws2 ++ ('\x7d' :: rest))) = '\x7d' :: rest from by
              show skipWs (ws2 ++ ('\x7d' :: rest)) = _
              rw [skipWs_append_all ws2 _ hws2]
              exact skipWs_cons_false (by decide) _]
            rfl
        | cons g gs =>
            obtain ⟨k2, v2⟩ := g
            simp only [plainFields, Bool.and_eq_true] at hfs
            rw [show skipWs (membersTail d ((k2, v2) :: gs) ++ (ws2 ++ ('\x7d' :: rest)))
                = ',' :: ('\n' :: ((printIndentFields d ((k2, v2) :: gs)).data ++
                    (ws2 ++ ('\x7d' :: rest)))) from by
              show skipWs (',' :: ('\n' :: ((printIndentFields d ((k2, v2) :: gs)).data ++
                  (ws2 ++ ('\x7d' :: rest))))) = _
              exact skipWs_cons_false (by decide) _]
            show (parseMembers m ('\n' :: ((printIndentFields d ((k2, v2) :: gs)).data ++
                (ws2 ++ ('\x7d' :: rest))))).map (fun q => ((k, v) :: q.1, q.2))
              = some ((k, v) :: ((k2, v2) :: gs), rest)
            rw [show ('\n' :: ((printIndentFields d ((k2, v2) :: gs)).data ++
                  (ws2 ++ ('\x7d' :: rest))))
                = ('\n' :: (spaces (2 * d)).data) ++ ((quoteJson k2).data ++ (':' :: ' ' ::
                    ((printIndent d v2).data ++ (membersTail d gs ++
                      (ws2 ++ ('\x7d' :: rest)))))) from by
              rw [printIndentFields_decomp d k2 v2 gs (ws2 ++ ('\x7d' :: rest))]
              rfl]
            have hM := ihM k2 v2 gs d ('\n' :: (spaces (2 * d)).data) ws2 rest
              hfs.1.1.1 hfs.1.2 hfs.2
              (by simp only [List.all_cons, Bool.and_eq_true]
                  exact ⟨by decide, spaces_all_ws _⟩) hws2
              (by simp only [qsizeO] at hf ⊢
                  have := qsize_pos v
                  omega)
            rw [hM]
            rfl


/-- A rendered natural number is never empty. -/
theorem natDecimalAux_len (fuel n : Nat) : 1 ≤ (natDecimalAux (fuel + 1) n).length := by
  unfold natDecimalAux
  by_cases h : n < 10
  · rw [if_pos h]
    simp
  · rw [if_neg h]
    simp only [List.length_append, List.length_cons, List.length_nil]
    omega

/-- `natToDecimal` is never empty. -/
theorem natToDecimal_len (n : Nat) : 1 ≤ ((natToDecimal n).data).length := by
  show 1 ≤ (natDecimalAux (n + 1) n).length
  exact natDecimalAux_len n n

/-- `intToDecimal` is never empty. -/
theorem intToDecimal_len (i : Int) : 1 ≤ ((intToDecimal i).data).length := by
  unfold intToDecimal
  by_cases h : i < 0
  · rw [if_pos h]
    rw [String.data_append]
    simp only [List.length_append]
    have := natToDecimal_len i.natAbs
    omega
  · rw [if_neg h]
    exact natToDecimal_len i.natAbs

/-- `numToString` is never empty. -/
theorem numToString_len (q : ℚ) : 1 ≤ ((numToString q).data).length := by
  unfold numToString
  by_cases h : q.den = 1
  · rw [if_pos h]
    exact intToDecimal_len q.num
  · rw [if_neg h]
    simp only [String.data_append, List.length_append]
    have := intToDecimal_len q.num
    omega

/-- The structural size of a value never exceeds the length of its indented
rendering: the parsing fuel `jsonParse` allots is always sufficient. -/
theorem printLen : ∀ n : Nat,
    (∀ v d, qsize v ≤ n → qsize v ≤ ((printIndent d v).data).length) ∧
    (∀ l d, qsizeL l ≤ n → qsizeL l ≤ ((printIndentItems d l).data).length + 1) ∧
    (∀ l d, qsizeO l ≤ n → qsizeO l ≤ ((printIndentFields d l).data).length + 1) := by
  intro n
  induction n with
  | zero =>
      refine ⟨?_, ?_, ?_⟩
      · intro v d hf
        exact absurd hf (by have := qsize_pos v; omega)
      · intro l d hf
        cases l with
        | nil => simp [qsizeL]
        | cons x xs =>
            exfalso
            have := qsize_pos x
            simp only [qsizeL] at hf
            omega
      · intro l d hf
        cases l with
        | nil => simp [qsizeO]
        | cons f fs =>
            exfalso
            have := qsize_pos f.2
            simp only [qsizeO] at hf
            omega
  | succ n ih =>
      obtain ⟨ihV, ihI, ihO⟩ := ih
      refine ⟨?_, ?_, ?_⟩
      · intro v d hf
        cases v with
        | vNull =>
            show (1 : Nat) ≤ (("null" : String).data).length
            decide
        | vBool b =>
            cases b with
            | false =>
                show (1 : Nat) ≤ (("false" : String).data).length
                decide
            | true =>
                show (1 : Nat) ≤ (("true" : String).data).length
                decide
        | vNum q =>
            show (1 : Nat) ≤ ((numToString q).data).length
            exact numToString_len q
        | vStr s =>
            show (1 : Nat) ≤ ('"' :: (escapeList s.data ++ ['"'])).length
            simp only [List.length_cons]
            omega
        | vDate ms =>
            show (1 : Nat) ≤ ('"' :: (escapeList (isoOfMs ms).data ++ ['"'])).length
            simp only [List.length_cons]
            omega
        | vArr xs =>
            cases xs with
            | nil =>
                show (1 : Nat) ≤ (("[]" : String).data).length
                decide
            | cons x xs2 =>
                have hI := ihI (x :: xs2) (d + 1) (by simp only [qsize] at hf; omega)
                have hq : qsize (vArr (x :: xs2)) = qsizeL (x :: xs2) + 1 := rfl
                simp only [printIndent, String.data_append, List.length_append,
                  List.length_cons, List.length_nil]
                omega
        | vObj fs =>
            cases fs with
            | nil =>
                show (1 : Nat) ≤ (("\x7b\x7d" : String).data).length
                decide
            | cons f fs2 =>
                have hO := ihO (f :: fs2) (d + 1) (by simp only [qsize] at hf; omega)
                have hq : qsize (vObj (f :: fs2)) = qsizeO (f :: fs2) + 1 := rfl
                simp only [printIndent, String.data_append, List.length_append,
                  List.length_cons, List.length_nil]
                omega
      · intro l d hf
        cases l with
        | nil => simp [qsizeL]
        | cons x xs =>
            have hV := ihV x d (by simp only [qsizeL] at hf; omega)
            have hd := congrArg List.length (printIndentItems_decomp d x xs [])
            simp only [List.length_append, List.append_nil] at hd
            cases xs with
            | nil =>
                simp only [itemsTail, List.length_nil] at hd
                simp only [qsizeL]
                omega
            | cons y ys =>
                simp only [itemsTail, List.length_append, List.length_cons,
                  List.length_nil] at hd
                have hI := ihI (y :: ys) d
                  (by simp only [qsizeL] at hf ⊢; have := qsize_pos x; omega)
                simp only [qsizeL]
                simp only [qsizeL] at hI
                omega
      · intro l d hf
        cases l with
        | nil => simp [qsizeO]
        | cons f fs =>
            obtain ⟨k, v⟩ := f
            have hV := ihV v d (by simp only [qsizeO] at hf; omega)
            have hd := congrArg List.length (printIndentFields_decomp d k v fs [])
            simp only [List.length_append, List.length_cons, List.append_nil] at hd
            cases fs with
            | nil =>
                simp only [membersTail, List.length_nil] at hd
                simp only [qsizeO]
                omega
            | cons g gs =>
                simp only [membersTail, List.length_append, List.length_cons,
                  List.length_nil] at hd
                have hO := ihO (g :: gs) d
                  (by simp only [qsizeO] at hf ⊢; have := qsize_pos v; omega)
                simp only [qsizeO]
                simp only [qsizeO] at hO
                omega

/-- `plainDocs` is membership-wise `plainList`. -/
theorem plainDocs_eq_plainList : ∀ ds : List JsVal, plainDocs ds = plainList ds := by
  intro ds
  induction ds with
  | nil => rfl
  | cons d rest ih => simp only [plainDocs, plainList, ih]

/-- C7, amended: for collections whose documents are JSON-plain (no `Date`
values, plain strings, integral numbers, distinct object keys), the file
text `_flushWrites` writes round-trips exactly: `_loadCollection` of the
flushed text rebuilds the identical in-memory document list. -/
theorem c7_amended (docs : List JsVal) (h : plainDocs docs = true) :
    loadCollectionText (saveCollectionText docs) = docs := by
  have hplain : plainVal (vArr docs) = true := by
    show plainList docs = true
    rw [← plainDocs_eq_plainList docs]
    exact h
  have hlen : qsize (vArr docs) ≤ 2 * (saveCollectionText docs).length + 2 := by
    have h1 := (printLen (qsize (vArr docs))).1 (vArr docs) 0 le_rfl
    show qsize (vArr docs) ≤ 2 * ((printIndent 0 (vArr docs)).data).length + 2
    omega
  have hp := (parsePrint (2 * (saveCollectionText docs).length + 2)).1 (vArr docs) 0 [] []
    hplain rfl rfl hlen
  rw [List.nil_append, List.append_nil] at hp
  have hp2 : parseVal (2 * (saveCollectionText docs).length + 2)
      ((saveCollectionText docs).data) = some (vArr docs, []) := hp
  unfold loadCollectionText jsonParse
  rw [hp2]
  rfl

/-- C7 amended witness: a concrete plain two-document collection
round-trips through flush text and reload unchanged. -/
theorem c7_amended_witness :
    plainDocs [vObj [("_id", vStr "a1"), ("score", vNum 10)], vNull] = true ∧
    loadCollectionText
        (saveCollectionText [vObj [("_id", vStr "a1"), ("score", vNum 10)], vNull])
      = [vObj [("_id", vStr "a1"), ("score", vNum 10)], vNull] :=
  ⟨by decide, c7_amended _ (by decide)⟩

end TMU
